import Mathlib

/-!
# IbRDP: instruction-based reuse-distance prediction replacement policy

A shallow embedding of `src/mem/cache/tags/ibrdp.cc` (gem5_ccnuma) and a
verification of its reuse-distance predictor, its reuse-distance sampler and
its victim selection.

Conventions of the embedding.

* `uint32_t` values are natural numbers; every arithmetic operation of the
  source that can leave the 32-bit range is reduced modulo `2^32` (`u32`,
  `incr`, `decr`, `sub32`).
* C arrays are functions from the index to the element, together with the
  length kept in the owning object (`assoc`, `size`, ...). A `for` loop over
  the indices becomes a structurally recursive function that performs the
  body for the indices in increasing order.
* The assertion `myway != assoc` of `GetEntry`, when it fails, and the accesses
  of the sample phase through an `index` that the search has run past the end
  of the array, make the embedded function return `none`. The other array
  accesses are through loop indices below the length, or through the set index
  `pc & set_mask`, which is below `numsets` (`IBRDPredictor.set_index_lt`).
* The sampler calls `predictor->Update` while it runs. The embedded
  `RDSampler.Update` returns these calls, each with the index of the sampler
  entry it reads its pc from, and `UpdateOnEveryAccess` applies them to the
  predictor in the same order.
* The constants and helper macros of `ibrdp.hh` are not part of the sources;
  they are collected in the structure `Header` and every result is proved for
  an arbitrary value of it. The counters `accessesCounterLow`,
  `accessesCounterHigh` and the fields `timestamp`, `prediction` of a block are
  taken to be `uint32_t`, like the locals they are copied to.
-/

namespace Gem5

/-! ## Machine arithmetic -/

/-- Reduction of a natural number to the range of `uint32_t`. -/
def u32 (x : Nat) : Nat := x % 4294967296

/-- The value of `x + 1` (and of `x` after `x++`) in `uint32_t` arithmetic. -/
def incr (x : Nat) : Nat := u32 (x + 1)

/-- The value of `x - 1` (and of `x` after `x--`) in `uint32_t` arithmetic:
zero wraps to the largest 32-bit value. -/
def decr (x : Nat) : Nat := if x = 0 then 4294967295 else u32 (x - 1)

/-- The constants and helper functions that `ibrdp.cc` takes from `ibrdp.hh`. -/
structure Header where
  IBRDP_SETS : Nat
  IBRDP_WAYS : Nat
  SAMPLER_PERIOD : Nat
  SAMPLER_MAX_RD : Nat
  MAX_CONFIDENCE : Nat
  SAFE_CONFIDENCE : Nat
  QUANTUM_TIMESTAMP : Nat
  MAX_VALUE_TIMESTAMP : Nat
  MAX_VALUE_PREDICTION : Nat
  UnQuantizeTimestamp : Nat → Nat
  UnQuantizePrediction : Nat → Nat
  QuantizePrediction : Nat → Nat
  TransformPC : Nat → Nat
  TransformAddress : Nat → Nat

/-- Halving loop that counts how often `n` can be halved before it drops below
two, for at most `fuel` rounds. -/
def floorLog2Loop : Nat → Nat → Nat
  | 0, _ => 0
  | fuel + 1, n => if n < 2 then 0 else floorLog2Loop fuel (n / 2) + 1

/-- Modelled from the spec: `CRC_FloorLog2` is declared outside `ibrdp.cc`; the
spec gives the predictor tag as `pc >> log2(numSets)`, so it is the floor of the
binary logarithm of a 32-bit value. -/
def CRC_FloorLog2 (n : Nat) : Nat := floorLog2Loop 32 n

/-! ## Loops -/

/-- The search loop `for (i = i0; i < i0 + n; i++) if (p i) break;`: the value
of `i` when the loop is left. -/
def searchFrom (p : Nat → Bool) : Nat → Nat → Nat
  | 0, i => i
  | n + 1, i => if p i then i else searchFrom p n (i + 1)

/-- Assignment to one element of an array. -/
def setAt {α : Type} (a : Nat → α) (i : Nat) (v : α) : Nat → α :=
  fun j => if j = i then v else a j

/-! ## Instruction based reuse distance predictor -/

/-- One entry of the predictor table (`IBRDP_Entry`). -/
structure IBRDP_Entry where
  valid : Nat
  tag : Nat
  prediction : Nat
  confidence : Nat
  StackPosition : Nat
deriving DecidableEq, Repr

/-- The object `IBRDPredictor`: its scalar fields and the table
`predictor[set][way]`. -/
structure IBRDPredictor where
  numsets : Nat
  assoc : Nat
  set_mask : Nat
  set_shift : Nat
  predictor : Nat → Nat → IBRDP_Entry

namespace IBRDPredictor

/-- The constructor `IBRDPredictor::IBRDPredictor(_numsets, _assoc)`. Every
entry of every set is initialised the same way, so the table is given
pointwise. -/
def new (_numsets _assoc : Nat) : IBRDPredictor :=
  { numsets := _numsets
    assoc := _assoc
    set_mask := decr _numsets
    set_shift := CRC_FloorLog2 _numsets
    predictor := fun _ way =>
      { valid := 0, tag := 0, prediction := 0, confidence := 0, StackPosition := way } }

/-- Replace one set of the table. -/
def setRow (P : IBRDPredictor) (set : Nat) (row : Nat → IBRDP_Entry) : IBRDPredictor :=
  { P with predictor := setAt P.predictor set row }

/-- The second loop of `FindEntry`, run for the ways `way, ..., way + n - 1`:
every entry whose stack position is below that of `myway` moves down by one. -/
def bumpBelow (myway : Nat) : Nat → Nat → (Nat → IBRDP_Entry) → (Nat → IBRDP_Entry)
  | 0, _, row => row
  | n + 1, way, row =>
    bumpBelow myway n (way + 1)
      (if (row way).StackPosition < (row myway).StackPosition then
        setAt row way { row way with StackPosition := incr (row way).StackPosition }
      else row)

/-- The function `IBRDPredictor::FindEntry(pc)`: the way it returns and the
predictor afterwards. -/
def FindEntry (P : IBRDPredictor) (pc : Nat) : Nat × IBRDPredictor :=
  let set := pc &&& P.set_mask
  let tag := pc >>> P.set_shift
  let row := P.predictor set
  let myway := searchFrom (fun way => decide ((row way).tag = tag)) P.assoc 0
  if myway ≠ P.assoc then
    let row1 := bumpBelow myway P.assoc 0 row
    (myway, P.setRow set (setAt row1 myway { row1 myway with StackPosition := 0 }))
  else
    (myway, P)

/-- The loop of `GetEntry`, run for the ways `way, ..., way + n - 1`, on the
pair of the local `myway` and the set. -/
def agingLoop (assoc : Nat) : Nat → Nat → Nat × (Nat → IBRDP_Entry) → Nat × (Nat → IBRDP_Entry)
  | 0, _, st => st
  | n + 1, way, (myway, row) =>
    agingLoop assoc n (way + 1)
      (if (row way).StackPosition = decr assoc then
        (way, row)
      else
        (myway, setAt row way { row way with StackPosition := incr (row way).StackPosition }))

/-- The function `IBRDPredictor::GetEntry(pc)`; `none` when the assertion
`myway != assoc` fails. -/
def GetEntry (P : IBRDPredictor) (pc : Nat) : Option (Nat × IBRDPredictor) :=
  let set := pc &&& P.set_mask
  let tag := pc >>> P.set_shift
  let r := agingLoop P.assoc P.assoc 0 (P.assoc, P.predictor set)
  let myway := r.1
  let row := r.2
  if myway ≠ P.assoc then
    some (myway, P.setRow set
      (setAt row myway { row myway with valid := 1, tag := tag, StackPosition := 0 }))
  else
    none

/-- The function `IBRDPredictor::Lookup(pc)`: the prediction it returns and
the predictor afterwards. -/
def Lookup (h : Header) (P : IBRDPredictor) (pc : Nat) : Nat × IBRDPredictor :=
  let set := pc &&& P.set_mask
  let r := P.FindEntry pc
  let way := r.1
  let P1 := r.2
  if way ≠ P1.assoc then
    if h.SAFE_CONFIDENCE ≤ (P1.predictor set way).confidence then
      ((P1.predictor set way).prediction, P1)
    else (0, P1)
  else (0, P1)

/-- The function `IBRDPredictor::Update(pc, observation)`. -/
def Update (h : Header) (P : IBRDPredictor) (pc observation : Nat) : Option IBRDPredictor :=
  let set := pc &&& P.set_mask
  let r := P.FindEntry pc
  let way := r.1
  let P1 := r.2
  if way = P1.assoc then
    match P1.GetEntry pc with
    | none => none
    | some (way, P2) =>
      let e := P2.predictor set way
      some (P2.setRow set
        (setAt (P2.predictor set) way { e with prediction := observation, confidence := 0 }))
  else
    let e := P1.predictor set way
    if e.prediction = observation then
      if e.confidence < h.MAX_CONFIDENCE then
        some (P1.setRow set
          (setAt (P1.predictor set) way { e with confidence := incr e.confidence }))
      else some P1
    else
      if e.confidence = 0 then
        some (P1.setRow set (setAt (P1.predictor set) way { e with prediction := observation }))
      else
        some (P1.setRow set
          (setAt (P1.predictor set) way { e with confidence := decr e.confidence }))

/-- The stack positions of the `a` ways of one set are below `a` and pairwise
different, that is, they are the values `0, ..., a - 1`, each once. -/
def StackInv (a : Nat) (row : Nat → IBRDP_Entry) : Prop :=
  (∀ w, w < a → (row w).StackPosition < a) ∧
  (∀ w1 w2, w1 < a → w2 < a →
    (row w1).StackPosition = (row w2).StackPosition → w1 = w2)

/-- The entry that the `else` branch of `Update` leaves in place of the matched
entry `e`: the three assignments of that branch, collected in one value. -/
def trained (h : Header) (e : IBRDP_Entry) (observation : Nat) : IBRDP_Entry :=
  if e.prediction = observation then
    if e.confidence < h.MAX_CONFIDENCE then { e with confidence := incr e.confidence } else e
  else
    if e.confidence = 0 then { e with prediction := observation }
    else { e with confidence := decr e.confidence }

/-- Well-formed predictor states: the associativity is a `uint32_t` value, the
stack positions of every set are a permutation, and every confidence counter
is at most `MAX_CONFIDENCE`. -/
structure WF (h : Header) (P : IBRDPredictor) : Prop where
  assoc_lt : P.assoc < 4294967296
  stack : ∀ set, StackInv P.assoc (P.predictor set)
  conf : ∀ set way, (P.predictor set way).confidence ≤ h.MAX_CONFIDENCE

/-- Tags identify entries: an entry that was never allocated still has the tag
zero of the constructor, and two different ways of a set can only have equal
tags when neither has been allocated. -/
structure TagInv (P : IBRDPredictor) : Prop where
  fresh : ∀ set way, (P.predictor set way).valid = 0 → (P.predictor set way).tag = 0
  uniq : ∀ set w1 w2, w1 < P.assoc → w2 < P.assoc → w1 ≠ w2 →
    (P.predictor set w1).tag = (P.predictor set w2).tag →
    (P.predictor set w1).valid = 0 ∧ (P.predictor set w2).valid = 0

end IBRDPredictor

/-- A call of one of the two public member functions of the predictor. -/
inductive PredictorCall where
  | Lookup (pc : Nat)
  | Update (pc observation : Nat)
deriving DecidableEq, Repr

namespace IBRDPredictor

/-- The predictor after one call (the value returned by `Lookup` is dropped);
`none` when the call aborts. -/
def call (h : Header) (P : IBRDPredictor) : PredictorCall → Option IBRDPredictor
  | PredictorCall.Lookup pc => some (P.Lookup h pc).2
  | PredictorCall.Update pc observation => P.Update h pc observation

/-- The predictor after a sequence of calls, made in the order of the list. -/
def run (h : Header) : IBRDPredictor → List PredictorCall → Option IBRDPredictor
  | P, [] => some P
  | P, c :: cs =>
    match P.call h c with
    | none => none
    | some P1 => run h P1 cs

end IBRDPredictor

/-! ## Reuse distance sampler -/

/-- One entry of the sampler (`RDSamplerEntry`). -/
structure RDSamplerEntry where
  valid : Nat
  pc : Nat
  address : Nat
  FifoPosition : Nat
deriving DecidableEq, Repr

/-- A call `predictor->Update(sampler[slot].pc, observation)` made by the
sampler; `slot` is the index of the sampler entry the call reads its `pc`
from. -/
structure SamplerCall where
  slot : Nat
  pc : Nat
  observation : Nat
deriving DecidableEq, Repr

/-- The object `RDSampler`. The predictor it points to is a separate object;
the calls the sampler makes on it are returned by the embedded functions, in
the order in which they are made. -/
structure RDSampler where
  period : Nat
  size : Nat
  sampling_counter : Nat
  sampler : Nat → RDSamplerEntry

namespace RDSampler

/-- The constructor `RDSampler::RDSampler(_period, _max_rd, _predictor)`;
`mem` is the content of the freshly allocated array, of which the constructor
sets `valid` and `FifoPosition` only. -/
def new (_period _max_rd : Nat) (mem : Nat → RDSamplerEntry) : RDSampler :=
  { period := _period
    size := _max_rd / _period
    sampling_counter := 0
    sampler := fun i =>
      if i < _max_rd / _period then { mem i with valid := 0, FifoPosition := i } else mem i }

/-- The first loop of `RDSampler::Update`: the index at which the search for a
valid entry with the accessed address stops (`size` when there is none). -/
def matchIndex (S : RDSampler) (address : Nat) : Nat :=
  searchFrom (fun i => decide ((S.sampler i).valid ≠ 0 ∧ (S.sampler i).address = address))
    S.size 0

/-- The loop that looks for the oldest entry: the index at which the search
for an entry with `FifoPosition == size - 1` stops. -/
def oldestIndex (S : RDSampler) : Nat :=
  searchFrom (fun i => decide ((S.sampler i).FifoPosition = decr S.size)) S.size 0

/-- The match phase of `RDSampler::Update`: the search for a valid entry with
the accessed address and, when there is one, its invalidation and the call of
the predictor. -/
def matchPhase (h : Header) (S : RDSampler) (address : Nat) : RDSampler × List SamplerCall :=
  let index := S.matchIndex address
  if index < S.size then
    let S1 := { S with sampler := setAt S.sampler index { S.sampler index with valid := 0 } }
    let position := (S1.sampler index).FifoPosition
    let observation := h.QuantizePrediction (u32 (position * S1.period))
    (S1, [{ slot := index, pc := (S1.sampler index).pc, observation := observation }])
  else
    (S, [])

/-- The loop `for (j = 0; j < size; j++) sampler[j].FifoPosition++`, run for
the indices `j, ..., j + n - 1`. -/
def ageLoop : Nat → Nat → (Nat → RDSamplerEntry) → (Nat → RDSamplerEntry)
  | 0, _, a => a
  | n + 1, j, a =>
    ageLoop n (j + 1) (setAt a j { a j with FifoPosition := incr (a j).FifoPosition })

/-- The sample phase of `RDSampler::Update`; `none` when the search for the
oldest entry runs past the end of the array, so that the reads and writes
through `index` would be out of bounds. -/
def samplePhase (h : Header) (S : RDSampler) (address pc : Nat) :
    Option (RDSampler × List SamplerCall) :=
  if S.sampling_counter = 0 then
    let index := S.oldestIndex
    if index < S.size then
      let calls :=
        if (S.sampler index).valid = 1 then
          [{ slot := index, pc := (S.sampler index).pc, observation := h.MAX_VALUE_PREDICTION }]
        else []
      let aged := ageLoop S.size 0 S.sampler
      let filled := setAt aged index
        { valid := 1, FifoPosition := 0, pc := pc, address := address }
      some ({ S with sampler := filled, sampling_counter := decr S.period }, calls)
    else
      none
  else
    some ({ S with sampling_counter := decr S.sampling_counter }, [])

/-- The function `RDSampler::Update(address, pc)`: the sampler afterwards and
the calls of `predictor->Update` it has made. -/
def Update (h : Header) (S : RDSampler) (address pc : Nat) :
    Option (RDSampler × List SamplerCall) :=
  match samplePhase h (matchPhase h S address).1 address pc with
  | none => none
  | some (S2, calls2) => some (S2, (matchPhase h S address).2 ++ calls2)

/-- The sampler after a sequence of `Update(address, pc)` calls, made in the
order of the list, and all predictor calls made on the way. -/
def run (h : Header) : RDSampler → List (Nat × Nat) → Option (RDSampler × List SamplerCall)
  | S, [] => some (S, [])
  | S, (address, pc) :: rest =>
    match S.Update h address pc with
    | none => none
    | some (S1, calls1) =>
      match run h S1 rest with
      | none => none
      | some (S2, calls2) => some (S2, calls1 ++ calls2)

/-- The FIFO positions of the `n` entries are below `n` and pairwise different,
that is, they are the values `0, ..., n - 1`, each once. -/
def FifoInv (n : Nat) (a : Nat → RDSamplerEntry) : Prop :=
  (∀ i, i < n → (a i).FifoPosition < n) ∧
  (∀ i j, i < n → j < n → (a i).FifoPosition = (a j).FifoPosition → i = j)

/-- Well-formed sampler states. -/
structure WF (S : RDSampler) : Prop where
  period_pos : 1 ≤ S.period
  size_pos : 1 ≤ S.size
  bound : S.size * S.period < 4294967296
  counter : S.sampling_counter < S.period
  fifo : FifoInv S.size S.sampler
  valid : ∀ i, i < S.size → (S.sampler i).valid ≤ 1
  unique : ∀ i j, i < S.size → j < S.size → (S.sampler i).valid ≠ 0 → (S.sampler j).valid ≠ 0 →
    (S.sampler i).address = (S.sampler j).address → i = j

/-- Entry `i` holds the sample of address `A` taken under `pc1`, and `t`
further updates have been made since that sample was taken: the entry is still
valid, its FIFO position counts the samples taken since, and the countdown is
where `t` updates after a sample leave it. -/
structure Tracked (S : RDSampler) (i A pc1 t : Nat) : Prop where
  wf : S.WF
  idx : i < S.size
  valid : (S.sampler i).valid = 1
  addr : (S.sampler i).address = A
  pc : (S.sampler i).pc = pc1
  pos : (S.sampler i).FifoPosition = t / S.period
  ctr : S.sampling_counter + t % S.period + 1 = S.period

end RDSampler

/-! ## The replacement policy -/

/-- The value of `a - b` in `uint32_t` arithmetic. -/
def sub32 (a b : Nat) : Nat := if b ≤ a then u32 (a - b) else u32 (a + 4294967296 - b)

/-- The fields of a cache block (`CacheBlk`) that the policy reads or writes. -/
structure CacheBlk where
  tag : Nat
  timestamp : Nat
  prediction : Nat
deriving DecidableEq, Repr

/-- The object `IbRDP`: the fields of the base class `BaseSetAssoc` that the
policy uses (`assoc`, `setShift` and the blocks reached through
`findBlockBySetAndWay`), the two access counters, the predictor and the
sampler. -/
structure IbRDP where
  assoc : Nat
  setShift : Nat
  accessesCounterLow : Nat
  accessesCounterHigh : Nat
  predictor : IBRDPredictor
  rdsampler : RDSampler
  blks : Nat → Nat → CacheBlk

/-- The calls `predictor->Update(pc, observation)` that the sampler makes, applied
to the predictor in the order in which they are made. -/
def applyCalls (h : Header) : IBRDPredictor → List SamplerCall → Option IBRDPredictor
  | P, [] => some P
  | P, c :: cs =>
    match P.Update h c.pc c.observation with
    | none => none
    | some P1 => applyCalls h P1 cs

/-- The counter part of `UpdateOnEveryAccess`: the pair
`(accessesCounterLow, accessesCounterHigh)` after the increment. -/
def advanceCounter (h : Header) (low high : Nat) : Nat × Nat :=
  if incr low = h.QUANTUM_TIMESTAMP then
    (0, if incr high > h.MAX_VALUE_TIMESTAMP then 0 else incr high)
  else
    (incr low, high)

/-- The two steps of the running victim in one iteration of the loop of
`Get_IBRDP_Victim`, on the pair `(victim_way, victim_time)`. -/
def victimStep (st : Nat × Nat) (way time_left time_idle : Nat) : Nat × Nat :=
  if time_idle > (if time_left > st.2 then (way, time_left) else st).2 then (way, time_idle)
  else (if time_left > st.2 then (way, time_left) else st)

/-- The loop of `Get_IBRDP_Victim` for the ways `way, ..., way + n - 1`, given the
`time_left` and `time_idle` of every way. -/
def victimLoop (time_left time_idle : Nat → Nat) : Nat → Nat → Nat × Nat → Nat × Nat
  | 0, _, st => st
  | n + 1, way, st =>
    victimLoop time_left time_idle n (way + 1)
      (victimStep st way (time_left way) (time_idle way))

/-- One iteration of a scan that compares once per way: the running victim is
replaced when the larger of the two times exceeds `victim_time`. -/
def singleStep (st : Nat × Nat) (way time_left time_idle : Nat) : Nat × Nat :=
  if max time_left time_idle > st.2 then (way, max time_left time_idle) else st

/-- The scan that compares once per way, for the ways `way, ..., way + n - 1`. -/
def singleLoop (time_left time_idle : Nat → Nat) : Nat → Nat → Nat × Nat → Nat × Nat
  | 0, _, st => st
  | n + 1, way, st =>
    singleLoop time_left time_idle n (way + 1)
      (singleStep st way (time_left way) (time_idle way))

namespace IbRDP

/-- The constructor `IbRDP::IbRDP`; the associativity, the set shift and the
blocks come from the base class, `mem` is the content of the freshly allocated
sampler array. -/
def new (h : Header) (assoc setShift : Nat) (blks : Nat → Nat → CacheBlk)
    (mem : Nat → RDSamplerEntry) : IbRDP :=
  { assoc := assoc
    setShift := setShift
    accessesCounterLow := 0
    accessesCounterHigh := 1
    predictor := IBRDPredictor.new h.IBRDP_SETS h.IBRDP_WAYS
    rdsampler := RDSampler.new h.SAMPLER_PERIOD h.SAMPLER_MAX_RD mem
    blks := blks }

/-- The local `now` of `Get_IBRDP_Victim` for one block. -/
def now (h : Header) (s : IbRDP) (blk : CacheBlk) : Nat :=
  if blk.timestamp > s.accessesCounterHigh then
    u32 (h.UnQuantizeTimestamp (u32 (s.accessesCounterHigh + h.MAX_VALUE_TIMESTAMP + 1)))
  else
    u32 (h.UnQuantizeTimestamp s.accessesCounterHigh)

/-- The local `timestamp` of `Get_IBRDP_Victim` for one block. -/
def lineTime (h : Header) (blk : CacheBlk) : Nat := u32 (h.UnQuantizeTimestamp blk.timestamp)

/-- The local `prediction` of `Get_IBRDP_Victim` for one block. -/
def linePrediction (h : Header) (blk : CacheBlk) : Nat :=
  u32 (h.UnQuantizePrediction blk.prediction)

/-- The local `time_left` of `Get_IBRDP_Victim` for one block. -/
def time_left (h : Header) (s : IbRDP) (blk : CacheBlk) : Nat :=
  if u32 (lineTime h blk + linePrediction h blk) > now h s blk then
    u32 (lineTime h blk + linePrediction h blk) - now h s blk
  else 0

/-- The local `time_idle` of `Get_IBRDP_Victim` for one block. -/
def time_idle (h : Header) (s : IbRDP) (blk : CacheBlk) : Nat :=
  sub32 (now h s blk) (lineTime h blk)

/-- The function `IbRDP::Get_IBRDP_Victim(setIndex, PC, paddr)`; the arguments
`PC` and `paddr` are not used by the source. -/
def Get_IBRDP_Victim (h : Header) (s : IbRDP) (setIndex : Nat) : Nat :=
  (victimLoop (fun way => time_left h s (s.blks setIndex way))
    (fun way => time_idle h s (s.blks setIndex way)) s.assoc 0 (0, 0)).1

/-- The function `IbRDP::UpdateOnEveryAccess(address, PC)`. -/
def UpdateOnEveryAccess (h : Header) (s : IbRDP) (address PC : Nat) : Option IbRDP :=
  match s.rdsampler.Update h address PC with
  | none => none
  | some (S1, calls) =>
    match applyCalls h s.predictor calls with
    | none => none
    | some P1 =>
      some { s with
        accessesCounterLow := (advanceCounter h s.accessesCounterLow s.accessesCounterHigh).1
        accessesCounterHigh := (advanceCounter h s.accessesCounterLow s.accessesCounterHigh).2
        predictor := P1
        rdsampler := S1 }

/-- The local `myPC` of `UpdateIBRDP`. -/
def myPC (h : Header) (PC : Nat) : Nat := u32 (h.TransformPC PC)

/-- The local `myAddress` of `UpdateIBRDP`; the block address is a 64-bit
`Addr`. -/
def myAddress (h : Header) (s : IbRDP) (setIndex updateWayID : Nat) : Nat :=
  u32 (h.TransformAddress
    ((((s.blks setIndex updateWayID).tag <<< s.setShift) + setIndex) % 18446744073709551616))

/-- The function `IbRDP::UpdateIBRDP(setIndex, updateWayID, PC, cacheHit)`. -/
def UpdateIBRDP (h : Header) (s : IbRDP) (setIndex updateWayID PC : Nat) (_cacheHit : Bool) :
    Option IbRDP :=
  match s.UpdateOnEveryAccess h (s.myAddress h setIndex updateWayID) (myPC h PC) with
  | none => none
  | some s1 =>
    some { s1 with
      predictor := (s1.predictor.Lookup h (myPC h PC)).2
      blks := setAt s1.blks setIndex
        (setAt (s1.blks setIndex) updateWayID
          { s1.blks setIndex updateWayID with
            timestamp := s1.accessesCounterHigh
            prediction := (s1.predictor.Lookup h (myPC h PC)).1 }) }

/-- The policy after a sequence of accesses `(setIndex, way, PC, cacheHit)`
(hits through `accessBlock`, fills through `insertBlock`), in the order of the
list. -/
def run (h : Header) : IbRDP → List (Nat × Nat × Nat × Bool) → Option IbRDP
  | s, [] => some s
  | s, (setIndex, way, PC, cacheHit) :: rest =>
    match s.UpdateIBRDP h setIndex way PC cacheHit with
    | none => none
    | some s1 => run h s1 rest

/-- Well-formed policy states. -/
structure WF (h : Header) (s : IbRDP) : Prop where
  sampler : s.rdsampler.WF
  predictor : s.predictor.WF h
  ways : 1 ≤ s.predictor.assoc
  low : s.accessesCounterLow < h.QUANTUM_TIMESTAMP
  high : s.accessesCounterHigh ≤ h.MAX_VALUE_TIMESTAMP

end IbRDP

/-! ## The victim score in exact arithmetic

The three definitions below are written from the description of victim
selection, in unbounded arithmetic on natural numbers, to be compared with the
32-bit locals `now`, `time_left` and `time_idle` of `Get_IBRDP_Victim`. -/

/-- The current time for a line: the un-quantized counter `counterHigh`, read
`MAX_VALUE_TIMESTAMP + 1` later when the stored timestamp of the line is greater
than the counter. -/
def specNow (h : Header) (counterHigh : Nat) (blk : CacheBlk) : Nat :=
  if blk.timestamp > counterHigh then
    h.UnQuantizeTimestamp (counterHigh + h.MAX_VALUE_TIMESTAMP + 1)
  else
    h.UnQuantizeTimestamp counterHigh

/-- The value `timeLeft = max(0, lineTime + prediction - now)` of a line; the
subtraction of natural numbers stops at zero. -/
def specTimeLeft (h : Header) (counterHigh : Nat) (blk : CacheBlk) : Nat :=
  h.UnQuantizeTimestamp blk.timestamp + h.UnQuantizePrediction blk.prediction -
    specNow h counterHigh blk

/-- The value `timeIdle = now - lineTime` of a line. -/
def specTimeIdle (h : Header) (counterHigh : Nat) (blk : CacheBlk) : Nat :=
  specNow h counterHigh blk - h.UnQuantizeTimestamp blk.timestamp

/-! ## A sample configuration

The header values below are only used to run the definitions on concrete
inputs; no general result depends on them. -/

/-- A small configuration: 4 predictor sets of 2 ways, confidence counters up to
3 that are trusted from 1 on, and linear quantisation with quantum 4. -/
def sampleHeader : Header :=
  { IBRDP_SETS := 4
    IBRDP_WAYS := 2
    SAMPLER_PERIOD := 2
    SAMPLER_MAX_RD := 6
    MAX_CONFIDENCE := 3
    SAFE_CONFIDENCE := 1
    QUANTUM_TIMESTAMP := 4
    MAX_VALUE_TIMESTAMP := 7
    MAX_VALUE_PREDICTION := 15
    UnQuantizeTimestamp := fun x => x * 4
    UnQuantizePrediction := fun x => x * 4
    QuantizePrediction := fun x => x / 4
    TransformPC := fun x => x
    TransformAddress := fun x => x }

/-- The content of a freshly allocated sampler array used in the examples. -/
def sampleMemory : Nat → RDSamplerEntry :=
  fun _ => { valid := 7, pc := 7, address := 7, FifoPosition := 7 }

/-- A predictor of 4 sets and 2 ways in which way 1 of set 1 has been given an
allocated entry with tag 1, prediction 3 and confidence 2. -/
def samplePredictor : IBRDPredictor :=
  (IBRDPredictor.new 4 2).setRow 1
    (setAt ((IBRDPredictor.new 4 2).predictor 1) 1
      { valid := 1, tag := 1, prediction := 3, confidence := 2, StackPosition := 1 })

/-- A cache of 4 ways whose blocks carry their way number as tag and arbitrary
replacement metadata, as it is before the first fill. -/
def sampleCache : IbRDP :=
  IbRDP.new sampleHeader 4 2 (fun _ way => { tag := way, timestamp := 9, prediction := 9 })
    sampleMemory

/-- The sample cache after four fills of set 0, into the ways 0 to 3, with
four different PCs. -/
def sampleFilled : IbRDP :=
  Option.getD
    (IbRDP.run sampleHeader sampleCache
      [(0, 0, 100, false), (0, 1, 101, false), (0, 2, 102, false), (0, 3, 103, false)])
    sampleCache

/-- A cache of 4 ways at counter value 5 whose lines were last used at the
quantised times 5, 4, 3 and 6 (the last one before the counter wrapped) and
carry the quantised predictions 0, 1, 9 and 0. -/
def sampleAged : IbRDP :=
  { sampleCache with
    accessesCounterHigh := 5
    blks := fun _ way =>
      if way = 0 then { tag := 0, timestamp := 5, prediction := 0 }
      else if way = 1 then { tag := 1, timestamp := 4, prediction := 1 }
      else if way = 2 then { tag := 2, timestamp := 3, prediction := 9 }
      else { tag := 3, timestamp := 6, prediction := 0 } }

/-- The sample configuration with hashing functions that are not the identity:
the PC is divided by 4 and the block address by 2. -/
def sampleHashHeader : Header :=
  { sampleHeader with
    TransformPC := fun x => x / 4
    TransformAddress := fun x => x / 2 }

/-- The filled sample cache with the sample predictor, which holds a trusted
prediction 3 for the transformed PC 5. -/
def sampleTrained : IbRDP :=
  { sampleFilled with predictor := samplePredictor }

end Gem5
namespace Gem5

theorem setAt_same {α : Type} (a : Nat → α) (i : Nat) (v : α) : setAt a i v i = v := by
  simp [setAt]

theorem setAt_other {α : Type} (a : Nat → α) (i j : Nat) (v : α) (hne : j ≠ i) :
    setAt a i v j = a j := by
  simp [setAt, hne]

theorem searchFrom_ge (p : Nat → Bool) (n i : Nat) : i ≤ searchFrom p n i := by
  induction n generalizing i with
  | zero => simp [searchFrom]
  | succ n ih =>
    simp only [searchFrom]
    split
    · exact le_refl i
    · exact le_trans (Nat.le_succ i) (ih (i + 1))

theorem searchFrom_le (p : Nat → Bool) (n i : Nat) : searchFrom p n i ≤ i + n := by
  induction n generalizing i with
  | zero => simp [searchFrom]
  | succ n ih =>
    simp only [searchFrom]
    split
    · omega
    · have := ih (i + 1); omega

theorem searchFrom_found (p : Nat → Bool) (n i : Nat) (hlt : searchFrom p n i < i + n) :
    p (searchFrom p n i) = true := by
  induction n generalizing i with
  | zero => simp [searchFrom] at hlt
  | succ n ih =>
    simp only [searchFrom] at hlt ⊢
    split
    · assumption
    · rename_i hp
      rw [if_neg hp] at hlt
      exact ih (i + 1) (by omega)

theorem searchFrom_before (p : Nat → Bool) (n i j : Nat) (hij : i ≤ j)
    (hj : j < searchFrom p n i) : p j = false := by
  induction n generalizing i with
  | zero => simp [searchFrom] at hj; omega
  | succ n ih =>
    simp only [searchFrom] at hj
    split at hj
    · omega
    · rename_i hp
      rcases Nat.eq_or_lt_of_le hij with heq | hlt
      · subst heq; simpa using hp
      · exact ih (i + 1) hlt hj

theorem searchFrom_first (p : Nat → Bool) (n i j : Nat) (hij : i ≤ j) (hjn : j < i + n)
    (hpj : p j = true) (hbefore : ∀ k, i ≤ k → k < j → p k = false) :
    searchFrom p n i = j := by
  have h1 : searchFrom p n i ≤ j := by
    by_contra hcon
    have := searchFrom_before p n i j hij (by omega)
    simp [hpj] at this
  have h2 : searchFrom p n i < i + n := by omega
  have h3 := searchFrom_found p n i h2
  by_contra hne
  have := hbefore _ (searchFrom_ge p n i) (by omega)
  simp [h3] at this

end Gem5
namespace Gem5

/-- A function on `0, ..., n - 1` that is injective there and has its values
below `n` lists the values `0, ..., n - 1`, each once. -/
theorem perm_range_of_injOn (n : Nat) (f : Nat → Nat) (hlt : ∀ i, i < n → f i < n)
    (hinj : ∀ i j, i < n → j < n → f i = f j → i = j) :
    List.Perm ((List.range n).map f) (List.range n) := by
  have hnd : ((List.range n).map f).Nodup := by
    apply List.Nodup.map_on _ (List.nodup_range n)
    intro x hx y hy hxy
    exact hinj x y (List.mem_range.mp hx) (List.mem_range.mp hy) hxy
  have hsub : (List.range n).map f ⊆ List.range n := by
    intro v hv
    obtain ⟨i, hi, rfl⟩ := List.mem_map.mp hv
    exact List.mem_range.mpr (hlt i (List.mem_range.mp hi))
  exact (List.subperm_of_subset hnd hsub).perm_of_length_le (by simp)

theorem injOn_of_perm_range (n : Nat) (f : Nat → Nat)
    (hp : List.Perm ((List.range n).map f) (List.range n)) :
    (∀ i, i < n → f i < n) ∧ (∀ i j, i < n → j < n → f i = f j → i = j) := by
  constructor
  · intro i hi
    have : f i ∈ (List.range n).map f := List.mem_map.mpr ⟨i, List.mem_range.mpr hi, rfl⟩
    exact List.mem_range.mp (hp.subset this)
  · intro i j hi hj hij
    have hnd : ((List.range n).map f).Nodup := hp.nodup_iff.mpr (List.nodup_range n)
    exact List.inj_on_of_nodup_map hnd (List.mem_range.mpr hi) (List.mem_range.mpr hj) hij

/-- An injective function from `0, ..., n - 1` into itself takes every value. -/
theorem exists_index_of_injOn (n : Nat) (f : Nat → Nat) (hlt : ∀ i, i < n → f i < n)
    (hinj : ∀ i j, i < n → j < n → f i = f j → i = j) (v : Nat) (hv : v < n) :
    ∃ i, i < n ∧ f i = v := by
  let g : Fin n → Fin n := fun i => ⟨f i.1, hlt i.1 i.2⟩
  have hg : Function.Injective g := by
    intro x y hxy
    have : f x.1 = f y.1 := by simpa [g] using congrArg Fin.val hxy
    exact Fin.ext (hinj x.1 y.1 x.2 y.2 this)
  obtain ⟨i, hi⟩ := (Finite.injective_iff_surjective.mp hg) ⟨v, hv⟩
  exact ⟨i.1, i.2, by simpa [g] using congrArg Fin.val hi⟩

end Gem5
namespace Gem5
namespace IBRDPredictor

theorem bumpBelow_apply (myway : Nat) (n way : Nat) (row : Nat → IBRDP_Entry) (w : Nat) :
    bumpBelow myway n way row w =
      if way ≤ w ∧ w < way + n ∧ (row w).StackPosition < (row myway).StackPosition then
        { row w with StackPosition := incr (row w).StackPosition }
      else row w := by
  induction n generalizing way row with
  | zero =>
    simp only [bumpBelow]
    rw [if_neg]
    omega
  | succ n ih =>
    simp only [bumpBelow]
    rw [ih]
    by_cases hc : (row way).StackPosition < (row myway).StackPosition
    · have hne : myway ≠ way := by
        intro heq; subst heq; exact lt_irrefl _ hc
      rw [if_pos hc]
      by_cases hw : w = way
      · subst hw
        simp [setAt, hc]
      · simp only [setAt, if_neg hw, if_neg hne]
        have : (way + 1 ≤ w) ↔ (way ≤ w) := by omega
        have h2 : (w < way + 1 + n) ↔ (w < way + (n + 1)) := by omega
        simp only [this, h2]
    · rw [if_neg hc]
      by_cases hw : w = way
      · subst hw
        simp [hc]
      · have : (way + 1 ≤ w) ↔ (way ≤ w) := by omega
        have h2 : (w < way + 1 + n) ↔ (w < way + (n + 1)) := by omega
        simp only [this, h2]


theorem agingLoop_row (a : Nat) (n way : Nat) (m : Nat) (row : Nat → IBRDP_Entry) (w : Nat) :
    (agingLoop a n way (m, row)).2 w =
      if way ≤ w ∧ w < way + n ∧ (row w).StackPosition ≠ decr a then
        { row w with StackPosition := incr (row w).StackPosition }
      else row w := by
  induction n generalizing way row m with
  | zero =>
    simp only [agingLoop]
    rw [if_neg]
    omega
  | succ n ih =>
    simp only [agingLoop]
    by_cases hc : (row way).StackPosition = decr a
    · rw [if_pos hc, ih]
      by_cases hw : w = way
      · subst hw
        rw [if_neg (by omega), if_neg (by simp [hc])]
      · have h1 : (way + 1 ≤ w ∧ w < way + 1 + n ∧ (row w).StackPosition ≠ decr a) ↔
            (way ≤ w ∧ w < way + (n + 1) ∧ (row w).StackPosition ≠ decr a) := by
          constructor <;> rintro ⟨h1, h2, h3⟩ <;> exact ⟨by omega, by omega, h3⟩
        simp only [h1]
    · rw [if_neg hc, ih]
      by_cases hw : w = way
      · subst hw
        rw [if_neg (by omega), setAt_same, if_pos ⟨le_refl _, by omega, hc⟩]
      · rw [setAt_other _ _ _ _ hw]
        have h1 : (way + 1 ≤ w ∧ w < way + 1 + n ∧ (row w).StackPosition ≠ decr a) ↔
            (way ≤ w ∧ w < way + (n + 1) ∧ (row w).StackPosition ≠ decr a) := by
          constructor <;> rintro ⟨h1, h2, h3⟩ <;> exact ⟨by omega, by omega, h3⟩
        simp only [h1]

theorem agingLoop_way_keep (a : Nat) (n way : Nat) (m : Nat) (row : Nat → IBRDP_Entry)
    (hnone : ∀ w, way ≤ w → w < way + n → (row w).StackPosition ≠ decr a) :
    (agingLoop a n way (m, row)).1 = m := by
  induction n generalizing way row with
  | zero => simp [agingLoop]
  | succ n ih =>
    simp only [agingLoop]
    rw [if_neg (hnone way (le_refl _) (by omega))]
    apply ih
    intro w hw1 hw2
    have hne : w ≠ way := by omega
    rw [setAt_other _ _ _ _ hne]
    exact hnone w (by omega) (by omega)

theorem agingLoop_way (a : Nat) (n way : Nat) (m : Nat) (row : Nat → IBRDP_Entry)
    (w0 : Nat) (h0 : way ≤ w0) (h1 : w0 < way + n)
    (hw0 : (row w0).StackPosition = decr a)
    (huniq : ∀ w, way ≤ w → w < way + n → (row w).StackPosition = decr a → w = w0) :
    (agingLoop a n way (m, row)).1 = w0 := by
  induction n generalizing way row m with
  | zero => omega
  | succ n ih =>
    simp only [agingLoop]
    by_cases hc : (row way).StackPosition = decr a
    · have hway : way = w0 := huniq way (le_refl _) (by omega) hc
      rw [if_pos hc, hway]
      apply agingLoop_way_keep
      intro w hw1 hw2 hw3
      have := huniq w (by omega) (by omega) hw3
      omega
    · rw [if_neg hc]
      have hne : w0 ≠ way := by
        intro heq; subst heq; exact hc hw0
      apply ih
      · omega
      · omega
      · rw [setAt_other _ _ _ _ hne]; exact hw0
      · intro w hw1 hw2 hw3
        have hne2 : w ≠ way := by omega
        rw [setAt_other _ _ _ _ hne2] at hw3
        exact huniq w (by omega) (by omega) hw3


end IBRDPredictor
end Gem5
namespace Gem5

theorem incr_eq (x : Nat) (hx : x + 1 < 4294967296) : incr x = x + 1 := by
  unfold incr u32
  exact Nat.mod_eq_of_lt hx

theorem incr_le (x : Nat) : incr x ≤ x + 1 := by
  unfold incr u32
  exact Nat.mod_le _ _

theorem decr_eq (x : Nat) (h1 : 1 ≤ x) (h2 : x ≤ 4294967296) : decr x = x - 1 := by
  unfold decr u32
  rw [if_neg (by omega)]
  omega

namespace IBRDPredictor

theorem StackInv.exists_way {a : Nat} {row : Nat → IBRDP_Entry} (hinv : StackInv a row)
    (v : Nat) (hv : v < a) : ∃ w, w < a ∧ (row w).StackPosition = v := by
  let f : Fin a → Fin a := fun w => ⟨(row w.1).StackPosition, hinv.1 w.1 w.2⟩
  have hf : Function.Injective f := by
    intro x y hxy
    have : (row x.1).StackPosition = (row y.1).StackPosition := by
      simpa [f] using congrArg Fin.val hxy
    exact Fin.ext (hinv.2 x.1 y.1 x.2 y.2 this)
  have hs : Function.Surjective f := Finite.injective_iff_surjective.mp hf
  obtain ⟨w, hw⟩ := hs ⟨v, hv⟩
  exact ⟨w.1, w.2, by simpa [f] using congrArg Fin.val hw⟩

theorem StackInv.touch {a : Nat} {row : Nat → IBRDP_Entry} (hinv : StackInv a row)
    (ha : a ≤ 4294967296) (myway : Nat) (hm : myway < a) :
    StackInv a (setAt (bumpBelow myway a 0 row) myway
      { bumpBelow myway a 0 row myway with StackPosition := 0 }) := by
  have key : ∀ w, w < a →
      ((setAt (bumpBelow myway a 0 row) myway
        { bumpBelow myway a 0 row myway with StackPosition := 0 }) w).StackPosition =
      if w = myway then 0
      else if (row w).StackPosition < (row myway).StackPosition then (row w).StackPosition + 1
      else (row w).StackPosition := by
    intro w hw
    by_cases hwm : w = myway
    · subst hwm; rw [setAt_same, if_pos rfl]
    · rw [setAt_other _ _ _ _ hwm, if_neg hwm, bumpBelow_apply]
      by_cases hc : (row w).StackPosition < (row myway).StackPosition
      · rw [if_pos ⟨Nat.zero_le _, by omega, hc⟩, if_pos hc]
        have := hinv.1 myway hm
        exact incr_eq _ (by omega)
      · rw [if_neg (fun h => hc h.2.2), if_neg hc]
  constructor
  · intro w hw
    rw [key w hw]
    have h1 := hinv.1 w hw
    have h2 := hinv.1 myway hm
    split_ifs <;> omega
  · intro w1 w2 hw1 hw2 heq
    rw [key w1 hw1, key w2 hw2] at heq
    by_contra hne
    have h12 : (row w1).StackPosition ≠ (row w2).StackPosition :=
      fun h => hne (hinv.2 w1 w2 hw1 hw2 h)
    have h1m : w1 ≠ myway → (row w1).StackPosition ≠ (row myway).StackPosition :=
      fun hn h => hn (hinv.2 w1 myway hw1 hm h)
    have h2m : w2 ≠ myway → (row w2).StackPosition ≠ (row myway).StackPosition :=
      fun hn h => hn (hinv.2 w2 myway hw2 hm h)
    split_ifs at heq <;> omega


theorem StackInv.aging_way {a : Nat} {row : Nat → IBRDP_Entry} (hinv : StackInv a row)
    (h1 : 1 ≤ a) (ha : a ≤ 4294967296) (m : Nat) :
    (agingLoop a a 0 (m, row)).1 < a ∧
      (row (agingLoop a a 0 (m, row)).1).StackPosition = a - 1 := by
  obtain ⟨w0, hw0, hsp⟩ := hinv.exists_way (a - 1) (by omega)
  have hd := decr_eq a h1 ha
  have : (agingLoop a a 0 (m, row)).1 = w0 := by
    apply agingLoop_way a a 0 m row w0 (Nat.zero_le _) (by omega) (by rw [hd]; exact hsp)
    intro w _ hw hw2
    exact hinv.2 w w0 (by omega) hw0 (by rw [hw2, hd, hsp])
  rw [this]
  exact ⟨hw0, hsp⟩

theorem StackInv.alloc {a : Nat} {row : Nat → IBRDP_Entry} (hinv : StackInv a row)
    (h1 : 1 ≤ a) (ha : a ≤ 4294967296) (m tag : Nat) :
    StackInv a (setAt (agingLoop a a 0 (m, row)).2 (agingLoop a a 0 (m, row)).1
      { (agingLoop a a 0 (m, row)).2 (agingLoop a a 0 (m, row)).1 with
        valid := 1, tag := tag, StackPosition := 0 }) := by
  obtain ⟨hlt, hsp⟩ := hinv.aging_way h1 ha m
  have hd := decr_eq a h1 ha
  generalize (agingLoop a a 0 (m, row)).1 = w0 at hlt hsp ⊢
  have key : ∀ w, w < a →
      ((setAt (agingLoop a a 0 (m, row)).2 w0
        { (agingLoop a a 0 (m, row)).2 w0 with
          valid := 1, tag := tag, StackPosition := 0 }) w).StackPosition =
      if w = w0 then 0 else (row w).StackPosition + 1 := by
    intro w hw
    by_cases hwm : w = w0
    · subst hwm; rw [setAt_same, if_pos rfl]
    · rw [setAt_other _ _ _ _ hwm, if_neg hwm, agingLoop_row]
      have hne : (row w).StackPosition ≠ decr a := by
        intro h
        exact hwm (hinv.2 w w0 hw hlt (by rw [h, hd, hsp]))
      rw [if_pos ⟨Nat.zero_le _, by omega, hne⟩]
      have := hinv.1 w hw
      exact incr_eq _ (by omega)
  constructor
  · intro w hw
    rw [key w hw]
    have h1 := hinv.1 w hw
    have hne : w ≠ w0 → (row w).StackPosition ≠ a - 1 :=
      fun hn h => hn (hinv.2 w w0 hw hlt (by rw [h, hsp]))
    split_ifs <;> omega
  · intro w1 w2 hw1 hw2 heq
    rw [key w1 hw1, key w2 hw2] at heq
    by_contra hne
    have h12 : (row w1).StackPosition ≠ (row w2).StackPosition :=
      fun h => hne (hinv.2 w1 w2 hw1 hw2 h)
    split_ifs at heq <;> omega


end IBRDPredictor
end Gem5
namespace Gem5
namespace IBRDPredictor

theorem setRow_assoc (P : IBRDPredictor) (s : Nat) (r : Nat → IBRDP_Entry) :
    (P.setRow s r).assoc = P.assoc := rfl

theorem setRow_same (P : IBRDPredictor) (s : Nat) (r : Nat → IBRDP_Entry) :
    (P.setRow s r).predictor s = r := by
  simp [setRow, setAt]

theorem setRow_other (P : IBRDPredictor) (s s1 : Nat) (r : Nat → IBRDP_Entry) (hne : s1 ≠ s) :
    (P.setRow s r).predictor s1 = P.predictor s1 := by
  simp [setRow, setAt, hne]

theorem FindEntry_fst (P : IBRDPredictor) (pc : Nat) :
    (P.FindEntry pc).1 =
      searchFrom (fun way => decide ((P.predictor (pc &&& P.set_mask) way).tag = pc >>> P.set_shift))
        P.assoc 0 := by
  unfold FindEntry
  simp only
  split <;> rfl

theorem FindEntry_fst_le (P : IBRDPredictor) (pc : Nat) : (P.FindEntry pc).1 ≤ P.assoc := by
  rw [FindEntry_fst]
  simpa using searchFrom_le _ P.assoc 0

theorem FindEntry_miss (P : IBRDPredictor) (pc : Nat) (hmiss : (P.FindEntry pc).1 = P.assoc) :
    (P.FindEntry pc).2 = P := by
  have h1 := FindEntry_fst P pc
  rw [hmiss] at h1
  unfold FindEntry
  simp only
  rw [if_neg (by simp [← h1])]

theorem FindEntry_hit (P : IBRDPredictor) (pc : Nat) (hhit : (P.FindEntry pc).1 ≠ P.assoc) :
    (P.FindEntry pc).2 = P.setRow (pc &&& P.set_mask)
      (setAt (bumpBelow (P.FindEntry pc).1 P.assoc 0 (P.predictor (pc &&& P.set_mask)))
        (P.FindEntry pc).1
        { bumpBelow (P.FindEntry pc).1 P.assoc 0 (P.predictor (pc &&& P.set_mask))
            (P.FindEntry pc).1 with StackPosition := 0 }) := by
  have h1 := FindEntry_fst P pc
  rw [h1] at hhit ⊢
  unfold FindEntry
  simp only
  rw [if_pos hhit]

theorem FindEntry_assoc (P : IBRDPredictor) (pc : Nat) : (P.FindEntry pc).2.assoc = P.assoc := by
  by_cases hm : (P.FindEntry pc).1 = P.assoc
  · rw [FindEntry_miss P pc hm]
  · rw [FindEntry_hit P pc hm]; rfl

/-- `FindEntry` changes stack positions only. -/
theorem FindEntry_entry (P : IBRDPredictor) (pc : Nat) (s w : Nat) :
    (P.FindEntry pc).2.predictor s w =
      { P.predictor s w with
        StackPosition := ((P.FindEntry pc).2.predictor s w).StackPosition } := by
  by_cases hm : (P.FindEntry pc).1 = P.assoc
  · rw [FindEntry_miss P pc hm]
  · rw [FindEntry_hit P pc hm]
    by_cases hs : s = pc &&& P.set_mask
    · subst hs
      rw [setRow_same]
      by_cases hw : w = (P.FindEntry pc).1
      · rw [← hw, setAt_same, bumpBelow_apply]
        split <;> rfl
      · rw [setAt_other _ _ _ _ hw, bumpBelow_apply]
        split <;> rfl
    · rw [setRow_other _ _ _ _ hs]

theorem FindEntry_WF (h : Header) (P : IBRDPredictor) (hP : P.WF h) (pc : Nat) :
    (P.FindEntry pc).2.WF h := by
  refine ⟨?_, ?_, ?_⟩
  · rw [FindEntry_assoc]; exact hP.assoc_lt
  · intro s
    rw [FindEntry_assoc]
    by_cases hm : (P.FindEntry pc).1 = P.assoc
    · rw [FindEntry_miss P pc hm]; exact hP.stack s
    · rw [FindEntry_hit P pc hm]
      by_cases hs : s = pc &&& P.set_mask
      · subst hs
        rw [setRow_same]
        have hlt : (P.FindEntry pc).1 < P.assoc :=
          lt_of_le_of_ne (FindEntry_fst_le P pc) hm
        exact (hP.stack _).touch (le_of_lt hP.assoc_lt) _ hlt
      · rw [setRow_other _ _ _ _ hs]; exact hP.stack s
  · intro s w
    rw [FindEntry_entry]
    exact hP.conf s w

end IBRDPredictor
end Gem5
namespace Gem5

theorem decr_le (x : Nat) (h1 : 1 ≤ x) : decr x ≤ x - 1 := by
  unfold decr u32
  rw [if_neg (by omega)]
  exact Nat.mod_le _ _

namespace IBRDPredictor

theorem StackInv.congr {a : Nat} {row row1 : Nat → IBRDP_Entry} (hinv : StackInv a row)
    (hsp : ∀ w, (row1 w).StackPosition = (row w).StackPosition) : StackInv a row1 := by
  constructor
  · intro w hw; rw [hsp]; exact hinv.1 w hw
  · intro w1 w2 hw1 hw2 heq
    rw [hsp, hsp] at heq
    exact hinv.2 w1 w2 hw1 hw2 heq

theorem GetEntry_eq (P : IBRDPredictor) (pc : Nat)
    (hne : (agingLoop P.assoc P.assoc 0 (P.assoc, P.predictor (pc &&& P.set_mask))).1 ≠ P.assoc) :
    P.GetEntry pc = some
      ((agingLoop P.assoc P.assoc 0 (P.assoc, P.predictor (pc &&& P.set_mask))).1,
        P.setRow (pc &&& P.set_mask)
          (setAt (agingLoop P.assoc P.assoc 0 (P.assoc, P.predictor (pc &&& P.set_mask))).2
            (agingLoop P.assoc P.assoc 0 (P.assoc, P.predictor (pc &&& P.set_mask))).1
            { (agingLoop P.assoc P.assoc 0 (P.assoc, P.predictor (pc &&& P.set_mask))).2
                (agingLoop P.assoc P.assoc 0 (P.assoc, P.predictor (pc &&& P.set_mask))).1 with
              valid := 1, tag := pc >>> P.set_shift, StackPosition := 0 })) := by
  unfold GetEntry
  simp only
  rw [if_pos hne]

theorem GetEntry_none (P : IBRDPredictor) (pc : Nat)
    (hne : (agingLoop P.assoc P.assoc 0 (P.assoc, P.predictor (pc &&& P.set_mask))).1 = P.assoc) :
    P.GetEntry pc = none := by
  unfold GetEntry
  simp only
  rw [if_neg (by simp [hne])]

theorem GetEntry_zero (P : IBRDPredictor) (pc : Nat) (h0 : P.assoc = 0) :
    P.GetEntry pc = none := by
  apply GetEntry_none
  rw [h0]
  rfl

/-- From a well-formed state with at least one way, `GetEntry` returns the way
whose stack position is `assoc - 1`, and the state it leaves is well formed. -/
theorem GetEntry_WF (h : Header) (P : IBRDPredictor) (hP : P.WF h) (h1 : 1 ≤ P.assoc)
    (pc : Nat) :
    ∃ w P1, P.GetEntry pc = some (w, P1) ∧ w < P.assoc ∧
      (P.predictor (pc &&& P.set_mask) w).StackPosition = P.assoc - 1 ∧
      P1.WF h ∧ P1.assoc = P.assoc ∧
      P1.predictor (pc &&& P.set_mask) w =
        { P.predictor (pc &&& P.set_mask) w with
          valid := 1, tag := pc >>> P.set_shift, StackPosition := 0 } := by
  have ha : P.assoc ≤ 4294967296 := le_of_lt hP.assoc_lt
  obtain ⟨hlt, hsp⟩ := (hP.stack (pc &&& P.set_mask)).aging_way h1 ha P.assoc
  have hne := ne_of_lt hlt
  refine ⟨_, _, GetEntry_eq P pc hne, hlt, hsp, ⟨hP.assoc_lt, ?_, ?_⟩, rfl, ?_⟩
  · intro s
    by_cases hs : s = pc &&& P.set_mask
    · subst hs
      rw [setRow_same]
      exact (hP.stack _).alloc h1 ha P.assoc _
    · rw [setRow_other _ _ _ _ hs]; exact hP.stack s
  · intro s w
    by_cases hs : s = pc &&& P.set_mask
    · subst hs
      rw [setRow_same]
      by_cases hw : w = (agingLoop P.assoc P.assoc 0 (P.assoc, P.predictor (pc &&& P.set_mask))).1
      · rw [← hw, setAt_same, agingLoop_row]
        split <;> exact hP.conf _ _
      · rw [setAt_other _ _ _ _ hw, agingLoop_row]
        split <;> exact hP.conf _ _
    · rw [setRow_other _ _ _ _ hs]; exact hP.conf s w
  · rw [setRow_same, setAt_same, agingLoop_row]
    have hd := decr_eq P.assoc h1 ha
    rw [if_neg (by rw [hd]; simp [hsp])]

end IBRDPredictor
end Gem5
namespace Gem5
namespace IBRDPredictor

theorem setRow_setAt_apply (Q : IBRDPredictor) (s0 w0 : Nat) (e : IBRDP_Entry) (s w : Nat) :
    (Q.setRow s0 (setAt (Q.predictor s0) w0 e)).predictor s w =
      if s = s0 ∧ w = w0 then e else Q.predictor s w := by
  by_cases hs : s = s0
  · subst hs
    rw [setRow_same]
    by_cases hw : w = w0
    · subst hw; rw [setAt_same, if_pos ⟨rfl, rfl⟩]
    · rw [setAt_other _ _ _ _ hw, if_neg (fun hh => hw hh.2)]
  · rw [setRow_other _ _ _ _ hs, if_neg (fun hh => hs hh.1)]

theorem Update_miss (h : Header) (P : IBRDPredictor) (pc obs : Nat)
    (hmiss : (P.FindEntry pc).1 = P.assoc) :
    P.Update h pc obs =
      match P.GetEntry pc with
      | none => none
      | some (way, P2) =>
        some (P2.setRow (pc &&& P.set_mask)
          (setAt (P2.predictor (pc &&& P.set_mask)) way
            { P2.predictor (pc &&& P.set_mask) way with prediction := obs, confidence := 0 })) := by
  unfold Update
  simp only
  rw [if_pos (by rw [FindEntry_assoc]; exact hmiss), FindEntry_miss P pc hmiss]

theorem Update_hit (h : Header) (P : IBRDPredictor) (pc obs : Nat)
    (hhit : (P.FindEntry pc).1 ≠ P.assoc) :
    ∃ P1, P.Update h pc obs = some P1 ∧ P1.assoc = P.assoc ∧
      ∀ s w, P1.predictor s w =
        if s = pc &&& P.set_mask ∧ w = (P.FindEntry pc).1 then
          trained h ((P.FindEntry pc).2.predictor s w) obs
        else (P.FindEntry pc).2.predictor s w := by
  have hassoc := FindEntry_assoc P pc
  unfold Update
  simp only
  rw [if_neg (by rw [hassoc]; exact hhit)]
  by_cases c1 : ((P.FindEntry pc).2.predictor (pc &&& P.set_mask) (P.FindEntry pc).1).prediction
      = obs
  · rw [if_pos c1]
    by_cases c2 : ((P.FindEntry pc).2.predictor (pc &&& P.set_mask) (P.FindEntry pc).1).confidence
        < h.MAX_CONFIDENCE
    · rw [if_pos c2]
      refine ⟨_, rfl, hassoc, ?_⟩
      intro s w
      rw [setRow_setAt_apply]
      by_cases c4 : s = pc &&& P.set_mask ∧ w = (P.FindEntry pc).1
      · rw [if_pos c4, if_pos c4, c4.1, c4.2]
        unfold trained
        rw [if_pos c1, if_pos c2]
      · rw [if_neg c4, if_neg c4]
    · rw [if_neg c2]
      refine ⟨_, rfl, hassoc, ?_⟩
      intro s w
      by_cases c4 : s = pc &&& P.set_mask ∧ w = (P.FindEntry pc).1
      · rw [if_pos c4, c4.1, c4.2]
        unfold trained
        rw [if_pos c1, if_neg c2]
      · rw [if_neg c4]
  · rw [if_neg c1]
    by_cases c3 : ((P.FindEntry pc).2.predictor (pc &&& P.set_mask) (P.FindEntry pc).1).confidence
        = 0
    · rw [if_pos c3]
      refine ⟨_, rfl, hassoc, ?_⟩
      intro s w
      rw [setRow_setAt_apply]
      by_cases c4 : s = pc &&& P.set_mask ∧ w = (P.FindEntry pc).1
      · rw [if_pos c4, if_pos c4, c4.1, c4.2]
        unfold trained
        rw [if_neg c1, if_pos c3]
      · rw [if_neg c4, if_neg c4]
    · rw [if_neg c3]
      refine ⟨_, rfl, hassoc, ?_⟩
      intro s w
      rw [setRow_setAt_apply]
      by_cases c4 : s = pc &&& P.set_mask ∧ w = (P.FindEntry pc).1
      · rw [if_pos c4, if_pos c4, c4.1, c4.2]
        unfold trained
        rw [if_neg c1, if_neg c3]
      · rw [if_neg c4, if_neg c4]

end IBRDPredictor
end Gem5
namespace Gem5
namespace IBRDPredictor

theorem trained_StackPosition (h : Header) (e : IBRDP_Entry) (obs : Nat) :
    (trained h e obs).StackPosition = e.StackPosition := by
  unfold trained
  split_ifs <;> rfl

theorem trained_valid (h : Header) (e : IBRDP_Entry) (obs : Nat) :
    (trained h e obs).valid = e.valid := by
  unfold trained
  split_ifs <;> rfl

theorem trained_tag (h : Header) (e : IBRDP_Entry) (obs : Nat) :
    (trained h e obs).tag = e.tag := by
  unfold trained
  split_ifs <;> rfl

theorem trained_confidence_le (h : Header) (e : IBRDP_Entry) (obs : Nat)
    (he : e.confidence ≤ h.MAX_CONFIDENCE) :
    (trained h e obs).confidence ≤ h.MAX_CONFIDENCE := by
  unfold trained
  split_ifs with c1 c2 c3
  · exact le_trans (incr_le _) c2
  · exact he
  · exact he
  · exact le_trans (decr_le _ (Nat.one_le_iff_ne_zero.mpr c3)) (le_trans (Nat.sub_le _ _) he)

/-- Overwriting one entry by one with the same stack position and an admissible
confidence keeps a state well formed. -/
theorem WF.setEntry {h : Header} {Q : IBRDPredictor} (hQ : Q.WF h) (s0 w0 : Nat)
    (e : IBRDP_Entry) (hsp : e.StackPosition = (Q.predictor s0 w0).StackPosition)
    (hc : e.confidence ≤ h.MAX_CONFIDENCE) :
    (Q.setRow s0 (setAt (Q.predictor s0) w0 e)).WF h := by
  refine ⟨hQ.assoc_lt, ?_, ?_⟩
  · intro s
    apply (hQ.stack s).congr
    intro w
    rw [setRow_setAt_apply]
    split_ifs with c
    · rw [hsp, c.1, c.2]
    · rfl
  · intro s w
    rw [setRow_setAt_apply]
    split_ifs
    · exact hc
    · exact hQ.conf s w

theorem Update_WF (h : Header) (P : IBRDPredictor) (hP : P.WF h) (pc obs : Nat)
    (P1 : IBRDPredictor) (hU : P.Update h pc obs = some P1) : P1.WF h ∧ P1.assoc = P.assoc := by
  by_cases hm : (P.FindEntry pc).1 = P.assoc
  · rw [Update_miss h P pc obs hm] at hU
    rcases Nat.eq_zero_or_pos P.assoc with h0 | hpos
    · rw [GetEntry_zero P pc h0] at hU
      exact absurd hU (by simp)
    · obtain ⟨w, P2, hG, _, _, hP2, hassoc, _⟩ := GetEntry_WF h P hP hpos pc
      rw [hG] at hU
      simp only [Option.some.injEq] at hU
      subst hU
      exact ⟨hP2.setEntry _ _ _ rfl (Nat.zero_le _), hassoc⟩
  · obtain ⟨P2, hU2, hassoc, hent⟩ := Update_hit h P pc obs hm
    rw [hU2] at hU
    simp only [Option.some.injEq] at hU
    subst hU
    have hF := FindEntry_WF h P hP pc
    refine ⟨⟨by rw [hassoc]; exact hP.assoc_lt, ?_, ?_⟩, hassoc⟩
    · intro s
      rw [hassoc, ← FindEntry_assoc P pc]
      apply (hF.stack s).congr
      intro w
      rw [hent]
      split_ifs
      · exact trained_StackPosition _ _ _
      · rfl
    · intro s w
      rw [hent]
      split_ifs
      · exact trained_confidence_le _ _ _ (hF.conf s w)
      · exact hF.conf s w

theorem Update_isSome (h : Header) (P : IBRDPredictor) (hP : P.WF h) (h1 : 1 ≤ P.assoc)
    (pc obs : Nat) : ∃ P1, P.Update h pc obs = some P1 := by
  by_cases hm : (P.FindEntry pc).1 = P.assoc
  · rw [Update_miss h P pc obs hm]
    obtain ⟨w, P2, hG, _⟩ := GetEntry_WF h P hP h1 pc
    rw [hG]
    exact ⟨_, rfl⟩
  · obtain ⟨P2, hU2, _⟩ := Update_hit h P pc obs hm
    exact ⟨P2, hU2⟩

theorem Lookup_snd (h : Header) (P : IBRDPredictor) (pc : Nat) :
    (P.Lookup h pc).2 = (P.FindEntry pc).2 := by
  unfold Lookup
  simp only
  split_ifs <;> rfl

theorem call_WF (h : Header) (P : IBRDPredictor) (hP : P.WF h) (c : PredictorCall)
    (P1 : IBRDPredictor) (hc : P.call h c = some P1) : P1.WF h ∧ P1.assoc = P.assoc := by
  cases c with
  | Lookup pc =>
    simp only [call, Option.some.injEq] at hc
    subst hc
    rw [Lookup_snd]
    exact ⟨FindEntry_WF h P hP pc, FindEntry_assoc P pc⟩
  | Update pc obs => exact Update_WF h P hP pc obs P1 hc

theorem call_isSome (h : Header) (P : IBRDPredictor) (hP : P.WF h) (h1 : 1 ≤ P.assoc)
    (c : PredictorCall) : ∃ P1, P.call h c = some P1 := by
  cases c with
  | Lookup pc => exact ⟨_, rfl⟩
  | Update pc obs => exact Update_isSome h P hP h1 pc obs

theorem run_WF (h : Header) (cs : List PredictorCall) (P : IBRDPredictor) (hP : P.WF h)
    (P1 : IBRDPredictor) (hr : run h P cs = some P1) : P1.WF h ∧ P1.assoc = P.assoc := by
  induction cs generalizing P with
  | nil =>
    simp only [run, Option.some.injEq] at hr
    subst hr
    exact ⟨hP, rfl⟩
  | cons c cs ih =>
    simp only [run] at hr
    cases hc : P.call h c with
    | none => rw [hc] at hr; exact absurd hr (by simp)
    | some P2 =>
      rw [hc] at hr
      obtain ⟨hP2, ha2⟩ := call_WF h P hP c P2 hc
      obtain ⟨hP1, ha1⟩ := ih P2 hP2 hr
      exact ⟨hP1, by rw [ha1, ha2]⟩

theorem run_isSome (h : Header) (cs : List PredictorCall) (P : IBRDPredictor) (hP : P.WF h)
    (h1 : 1 ≤ P.assoc) : ∃ P1, run h P cs = some P1 := by
  induction cs generalizing P with
  | nil => exact ⟨P, rfl⟩
  | cons c cs ih =>
    obtain ⟨P2, hc⟩ := call_isSome h P hP h1 c
    obtain ⟨hP2, ha2⟩ := call_WF h P hP c P2 hc
    obtain ⟨P1, hr⟩ := ih P2 hP2 (by rw [ha2]; exact h1)
    exact ⟨P1, by simp only [run, hc]; exact hr⟩

theorem new_WF (h : Header) (numsets assoc : Nat) (ha : assoc < 4294967296) :
    (new numsets assoc).WF h := by
  refine ⟨ha, ?_, ?_⟩
  · intro s
    exact ⟨fun w hw => hw, fun w1 w2 _ _ heq => heq⟩
  · intro s w
    exact Nat.zero_le _

end IBRDPredictor
end Gem5
namespace Gem5

/-- The three cases of the `else` branch of `Update` for an entry whose
confidence is in range. -/
theorem IBRDPredictor.trained_spec (h : Header) (e : IBRDP_Entry) (obs : Nat)
    (hmax : h.MAX_CONFIDENCE < 4294967296) (hconf : e.confidence ≤ h.MAX_CONFIDENCE) :
    (obs = e.prediction →
      (IBRDPredictor.trained h e obs).prediction = e.prediction ∧
        (IBRDPredictor.trained h e obs).confidence = min (e.confidence + 1) h.MAX_CONFIDENCE) ∧
    (obs ≠ e.prediction → e.confidence = 0 →
      (IBRDPredictor.trained h e obs).prediction = obs ∧
        (IBRDPredictor.trained h e obs).confidence = 0) ∧
    (obs ≠ e.prediction → 0 < e.confidence →
      (IBRDPredictor.trained h e obs).prediction = e.prediction ∧
        (IBRDPredictor.trained h e obs).confidence = e.confidence - 1) := by
  refine ⟨?_, ?_, ?_⟩
  · intro ho
    unfold IBRDPredictor.trained
    rw [if_pos ho.symm]
    by_cases c2 : e.confidence < h.MAX_CONFIDENCE
    · rw [if_pos c2]
      refine ⟨rfl, ?_⟩
      show incr e.confidence = _
      rw [incr_eq _ (by omega)]
      omega
    · rw [if_neg c2]
      refine ⟨rfl, ?_⟩
      omega
  · intro ho h0
    unfold IBRDPredictor.trained
    rw [if_neg (fun hh => ho hh.symm), if_pos h0]
    exact ⟨rfl, h0⟩
  · intro ho h0
    unfold IBRDPredictor.trained
    rw [if_neg (fun hh => ho hh.symm), if_neg (by omega)]
    refine ⟨rfl, ?_⟩
    show decr e.confidence = _
    exact decr_eq _ h0 (by omega)

end Gem5
namespace Gem5
namespace IBRDPredictor

/-- Every entry after `GetEntry` in a well-formed state with at least one
way. -/
theorem GetEntry_entries (h : Header) (P : IBRDPredictor) (hP : P.WF h) (h1 : 1 ≤ P.assoc)
    (pc : Nat) :
    ∃ w P1, P.GetEntry pc = some (w, P1) ∧ w < P.assoc ∧
      (P.predictor (pc &&& P.set_mask) w).StackPosition = P.assoc - 1 ∧
      P1.assoc = P.assoc ∧ P1.set_mask = P.set_mask ∧ P1.set_shift = P.set_shift ∧
      P1.numsets = P.numsets ∧
      ∀ s w1, P1.predictor s w1 =
        if s = pc &&& P.set_mask ∧ w1 = w then
          { P.predictor s w1 with valid := 1, tag := pc >>> P.set_shift, StackPosition := 0 }
        else if s = pc &&& P.set_mask ∧ w1 < P.assoc then
          { P.predictor s w1 with StackPosition := (P.predictor s w1).StackPosition + 1 }
        else P.predictor s w1 := by
  have ha : P.assoc ≤ 4294967296 := le_of_lt hP.assoc_lt
  have hst := hP.stack (pc &&& P.set_mask)
  obtain ⟨hlt, hsp⟩ := hst.aging_way h1 ha P.assoc
  have hd := decr_eq P.assoc h1 ha
  refine ⟨_, _, GetEntry_eq P pc (ne_of_lt hlt), hlt, hsp, rfl, rfl, rfl, rfl, ?_⟩
  intro s w1
  by_cases hs : s = pc &&& P.set_mask
  · subst hs
    rw [setRow_same]
    by_cases hw : w1 =
        (agingLoop P.assoc P.assoc 0 (P.assoc, P.predictor (pc &&& P.set_mask))).1
    · rw [if_pos ⟨rfl, hw⟩, hw, setAt_same, agingLoop_row,
        if_neg (by rw [hd]; exact fun hh => hh.2.2 hsp)]
    · rw [if_neg (fun hh => hw hh.2), setAt_other _ _ _ _ hw, agingLoop_row]
      by_cases hlt1 : w1 < P.assoc
      · have hne : (P.predictor (pc &&& P.set_mask) w1).StackPosition ≠ decr P.assoc := by
          rw [hd]
          intro hh
          exact hw (hst.2 w1 _ hlt1 hlt (by rw [hh, hsp]))
        have hb := hst.1 w1 hlt1
        rw [if_pos ⟨Nat.zero_le _, by omega, hne⟩, if_pos ⟨rfl, hlt1⟩, incr_eq _ (by omega)]
      · rw [if_neg (fun hh => hlt1 (by omega)), if_neg (fun hh => hlt1 hh.2)]
  · rw [setRow_other _ _ _ _ hs, if_neg (fun hh => hs hh.1), if_neg (fun hh => hs hh.1)]

/-- Every stack position after a hit of `FindEntry` in a well-formed state. -/
theorem FindEntry_positions (h : Header) (P : IBRDPredictor) (hP : P.WF h) (pc : Nat)
    (hhit : (P.FindEntry pc).1 ≠ P.assoc) (w : Nat) (hw : w < P.assoc) :
    ((P.FindEntry pc).2.predictor (pc &&& P.set_mask) w).StackPosition =
      if w = (P.FindEntry pc).1 then 0
      else if (P.predictor (pc &&& P.set_mask) w).StackPosition <
          (P.predictor (pc &&& P.set_mask) (P.FindEntry pc).1).StackPosition then
        (P.predictor (pc &&& P.set_mask) w).StackPosition + 1
      else (P.predictor (pc &&& P.set_mask) w).StackPosition := by
  have hlt : (P.FindEntry pc).1 < P.assoc := lt_of_le_of_ne (FindEntry_fst_le P pc) hhit
  rw [FindEntry_hit P pc hhit, setRow_same]
  by_cases hwm : w = (P.FindEntry pc).1
  · rw [if_pos hwm, hwm, setAt_same]
  · rw [if_neg hwm, setAt_other _ _ _ _ hwm, bumpBelow_apply]
    by_cases hc : (P.predictor (pc &&& P.set_mask) w).StackPosition <
        (P.predictor (pc &&& P.set_mask) (P.FindEntry pc).1).StackPosition
    · rw [if_pos ⟨Nat.zero_le _, by omega, hc⟩, if_pos hc]
      have h1 := (hP.stack (pc &&& P.set_mask)).1 _ hlt
      have h2 := hP.assoc_lt
      exact incr_eq _ (by omega)
    · rw [if_neg (fun hh => hc hh.2.2), if_neg hc]

end IBRDPredictor
end Gem5
namespace Gem5
namespace IBRDPredictor

theorem TagInv.congr_fields {P Q : IBRDPredictor} (hP : P.TagInv) (ha : Q.assoc = P.assoc)
    (hv : ∀ s w, (Q.predictor s w).valid = (P.predictor s w).valid)
    (ht : ∀ s w, (Q.predictor s w).tag = (P.predictor s w).tag) : Q.TagInv := by
  constructor
  · intro s w h0
    rw [hv] at h0
    rw [ht]
    exact hP.fresh s w h0
  · intro s w1 w2 h1 h2 hne heq
    rw [ha] at h1 h2
    rw [ht, ht] at heq
    rw [hv, hv]
    exact hP.uniq s w1 w2 h1 h2 hne heq

theorem FindEntry_TagInv (P : IBRDPredictor) (hP : P.TagInv) (pc : Nat) :
    (P.FindEntry pc).2.TagInv := by
  apply hP.congr_fields (FindEntry_assoc P pc)
  · intro s w; rw [FindEntry_entry P pc s w]
  · intro s w; rw [FindEntry_entry P pc s w]

/-- After a miss of `FindEntry` no way of the set has the tag of the pc. -/
theorem FindEntry_miss_tag (P : IBRDPredictor) (pc : Nat)
    (hmiss : (P.FindEntry pc).1 = P.assoc) (w : Nat) (hw : w < P.assoc) :
    (P.predictor (pc &&& P.set_mask) w).tag ≠ pc >>> P.set_shift := by
  rw [FindEntry_fst] at hmiss
  have := searchFrom_before _ P.assoc 0 w (Nat.zero_le _) (by rw [hmiss]; exact hw)
  exact of_decide_eq_false this

theorem Update_TagInv (h : Header) (P : IBRDPredictor) (hW : P.WF h) (hP : P.TagInv)
    (pc obs : Nat) (P1 : IBRDPredictor) (hU : P.Update h pc obs = some P1) : P1.TagInv := by
  by_cases hm : (P.FindEntry pc).1 = P.assoc
  · rw [Update_miss h P pc obs hm] at hU
    rcases Nat.eq_zero_or_pos P.assoc with h0 | hpos
    · rw [GetEntry_zero P pc h0] at hU
      exact absurd hU (by simp)
    · obtain ⟨w, P2, hG, hlt, _, ha2, _, _, _, hent⟩ := GetEntry_entries h P hW hpos pc
      rw [hG] at hU
      simp only [Option.some.injEq] at hU
      subst hU
      have hmt := FindEntry_miss_tag P pc hm
      have hval : ∀ s w1, ((P2.setRow (pc &&& P.set_mask)
            (setAt (P2.predictor (pc &&& P.set_mask)) w
              { P2.predictor (pc &&& P.set_mask) w with
                prediction := obs, confidence := 0 })).predictor s w1).valid =
          if s = pc &&& P.set_mask ∧ w1 = w then 1 else (P.predictor s w1).valid := by
        intro s w1
        rw [setRow_setAt_apply]
        by_cases hc : s = pc &&& P.set_mask ∧ w1 = w
        · rw [if_pos hc, if_pos hc, hent, if_pos ⟨rfl, rfl⟩]
        · rw [if_neg hc, if_neg hc, hent, if_neg hc]
          split <;> rfl
      have htag : ∀ s w1, ((P2.setRow (pc &&& P.set_mask)
            (setAt (P2.predictor (pc &&& P.set_mask)) w
              { P2.predictor (pc &&& P.set_mask) w with
                prediction := obs, confidence := 0 })).predictor s w1).tag =
          if s = pc &&& P.set_mask ∧ w1 = w then pc >>> P.set_shift
          else (P.predictor s w1).tag := by
        intro s w1
        rw [setRow_setAt_apply]
        by_cases hc : s = pc &&& P.set_mask ∧ w1 = w
        · rw [if_pos hc, if_pos hc, hent, if_pos ⟨rfl, rfl⟩]
        · rw [if_neg hc, if_neg hc, hent, if_neg hc]
          split <;> rfl
      constructor
      · intro s w1 h0
        rw [hval] at h0
        rw [htag]
        by_cases hc : s = pc &&& P.set_mask ∧ w1 = w
        · rw [if_pos hc] at h0; exact absurd h0 (by decide)
        · rw [if_neg hc] at h0 ⊢; exact hP.fresh s w1 h0
      · intro s w1 w2 h1 h2 hne heq
        change w1 < P2.assoc at h1
        change w2 < P2.assoc at h2
        rw [ha2] at h1 h2
        rw [htag, htag] at heq
        rw [hval, hval]
        by_cases hc1 : s = pc &&& P.set_mask ∧ w1 = w
        · have hc2 : ¬ (s = pc &&& P.set_mask ∧ w2 = w) :=
            fun hh => hne (hc1.2.trans hh.2.symm)
          rw [if_pos hc1, if_neg hc2, hc1.1] at heq
          exact absurd heq.symm (hmt w2 h2)
        · by_cases hc2 : s = pc &&& P.set_mask ∧ w2 = w
          · rw [if_neg hc1, if_pos hc2, hc2.1] at heq
            exact absurd heq (hmt w1 h1)
          · rw [if_neg hc1, if_neg hc2] at heq ⊢
            exact hP.uniq s w1 w2 h1 h2 hne heq
  · obtain ⟨P2, hU2, hassoc, hent⟩ := Update_hit h P pc obs hm
    rw [hU2] at hU
    simp only [Option.some.injEq] at hU
    subst hU
    apply (FindEntry_TagInv P hP pc).congr_fields (by rw [hassoc, FindEntry_assoc])
    · intro s w
      rw [hent]
      split
      · exact trained_valid _ _ _
      · rfl
    · intro s w
      rw [hent]
      split
      · exact trained_tag _ _ _
      · rfl

theorem run_TagInv (h : Header) (cs : List PredictorCall) (P : IBRDPredictor) (hW : P.WF h)
    (hP : P.TagInv) (P1 : IBRDPredictor) (hr : run h P cs = some P1) : P1.TagInv := by
  induction cs generalizing P with
  | nil =>
    simp only [run, Option.some.injEq] at hr
    subst hr
    exact hP
  | cons c cs ih =>
    simp only [run] at hr
    cases hc : P.call h c with
    | none => rw [hc] at hr; exact absurd hr (by simp)
    | some P2 =>
      rw [hc] at hr
      obtain ⟨hW2, _⟩ := call_WF h P hW c P2 hc
      have hT2 : P2.TagInv := by
        cases c with
        | Lookup pc =>
          simp only [call, Option.some.injEq] at hc
          subst hc
          rw [Lookup_snd]
          exact FindEntry_TagInv P hP pc
        | Update pc obs => exact Update_TagInv h P hW hP pc obs P2 hc
      exact ih P2 hW2 hT2 hr

theorem new_TagInv (numsets assoc : Nat) : (new numsets assoc).TagInv :=
  ⟨fun _ _ _ => rfl, fun _ _ _ _ _ _ _ => ⟨rfl, rfl⟩⟩

end IBRDPredictor
end Gem5
namespace Gem5
namespace IBRDPredictor

/-- `FindEntry(0)` stops at way 0 whenever way 0 of set 0 carries the tag 0,
allocated or not. -/
theorem FindEntry_zero_fst (P : IBRDPredictor) (h1 : 1 ≤ P.assoc)
    (htag : (P.predictor 0 0).tag = 0) : (P.FindEntry 0).1 = 0 := by
  rw [FindEntry_fst, Nat.zero_and, Nat.zero_shiftRight]
  obtain ⟨n, hn⟩ : ∃ n, P.assoc = n + 1 := ⟨P.assoc - 1, by omega⟩
  rw [hn]
  simp only [searchFrom, htag, decide_True, if_true]

/-- Training through a never-allocated entry: when way 0 of set 0 has the tag
0 and already stores the observation, `Update(0, obs)` raises its confidence and
allocates nothing. -/
theorem Update_zero_adopted (h : Header) (P : IBRDPredictor) (obs c : Nat)
    (hmax : h.MAX_CONFIDENCE < 4294967296) (h1 : 1 ≤ P.assoc)
    (hval : ∀ s w, (P.predictor s w).valid = 0)
    (htag : (P.predictor 0 0).tag = 0)
    (hpred : (P.predictor 0 0).prediction = obs)
    (hconf : (P.predictor 0 0).confidence = c) (hc : c ≤ h.MAX_CONFIDENCE) :
    ∃ P1, P.Update h 0 obs = some P1 ∧ 1 ≤ P1.assoc ∧
      (∀ s w, (P1.predictor s w).valid = 0) ∧
      (P1.predictor 0 0).tag = 0 ∧ (P1.predictor 0 0).prediction = obs ∧
      (P1.predictor 0 0).confidence = min (c + 1) h.MAX_CONFIDENCE := by
  have hF := FindEntry_zero_fst P h1 htag
  have hhit : (P.FindEntry 0).1 ≠ P.assoc := by rw [hF]; omega
  obtain ⟨P1, hU, ha, hent⟩ := Update_hit h P 0 obs hhit
  have h00 := hent 0 0
  rw [Nat.zero_and, hF, if_pos ⟨rfl, rfl⟩] at h00
  have hFe := FindEntry_entry P 0 0 0
  have hp : ((P.FindEntry 0).2.predictor 0 0).prediction = obs := by rw [hFe]; exact hpred
  have hcc : ((P.FindEntry 0).2.predictor 0 0).confidence = c := by rw [hFe]; exact hconf
  have hsp := (trained_spec h ((P.FindEntry 0).2.predictor 0 0) obs hmax
    (by rw [hcc]; exact hc)).1 hp.symm
  refine ⟨P1, hU, by rw [ha]; exact h1, ?_, ?_, ?_, ?_⟩
  · intro s w
    rw [hent]
    split
    · rw [trained_valid, FindEntry_entry P 0 s w]; exact hval s w
    · rw [FindEntry_entry P 0 s w]; exact hval s w
  · rw [h00, trained_tag, hFe]; exact htag
  · rw [h00, hsp.1, hp]
  · rw [h00, hsp.2, hcc]

/-- Repeating the update. -/
theorem run_zero_adopted (h : Header) (obs : Nat) (hmax : h.MAX_CONFIDENCE < 4294967296)
    (k : Nat) (P : IBRDPredictor) (c : Nat) (h1 : 1 ≤ P.assoc)
    (hval : ∀ s w, (P.predictor s w).valid = 0)
    (htag : (P.predictor 0 0).tag = 0)
    (hpred : (P.predictor 0 0).prediction = obs)
    (hconf : (P.predictor 0 0).confidence = c) (hc : c ≤ h.MAX_CONFIDENCE) :
    ∃ P1, run h P (List.replicate k (PredictorCall.Update 0 obs)) = some P1 ∧ 1 ≤ P1.assoc ∧
      (∀ s w, (P1.predictor s w).valid = 0) ∧
      (P1.predictor 0 0).tag = 0 ∧ (P1.predictor 0 0).prediction = obs ∧
      (P1.predictor 0 0).confidence = min (c + k) h.MAX_CONFIDENCE := by
  induction k generalizing P c with
  | zero =>
    exact ⟨P, rfl, h1, hval, htag, hpred, by rw [hconf, Nat.add_zero]; omega⟩
  | succ k ih =>
    obtain ⟨P1, hU, h1', hval', htag', hpred', hconf'⟩ :=
      Update_zero_adopted h P obs c hmax h1 hval htag hpred hconf hc
    obtain ⟨P2, hR, h2, hval2, htag2, hpred2, hconf2⟩ :=
      ih P1 (min (c + 1) h.MAX_CONFIDENCE) h1' hval' htag' hpred' hconf' (by omega)
    refine ⟨P2, ?_, h2, hval2, htag2, hpred2, ?_⟩
    · simp only [List.replicate_succ, run, call, hU]
      exact hR
    · rw [hconf2]
      omega

end IBRDPredictor
end Gem5
namespace Gem5

/-- The set index `pc & set_mask` computed by the predictor is inside the table
whenever the table has at least one set. -/
theorem IBRDPredictor.set_index_lt (numsets assoc pc : Nat) (h1 : 1 ≤ numsets)
    (h2 : numsets ≤ 4294967296) :
    pc &&& (IBRDPredictor.new numsets assoc).set_mask < numsets := by
  have hd : (IBRDPredictor.new numsets assoc).set_mask = numsets - 1 := decr_eq numsets h1 h2
  rw [hd]
  have := @Nat.and_le_right pc (numsets - 1)
  omega

end Gem5
namespace Gem5
namespace RDSampler

theorem ageLoop_apply (n j : Nat) (a : Nat → RDSamplerEntry) (i : Nat) :
    ageLoop n j a i =
      if j ≤ i ∧ i < j + n then { a i with FifoPosition := incr (a i).FifoPosition }
      else a i := by
  induction n generalizing j a with
  | zero =>
    simp only [ageLoop]
    rw [if_neg]
    omega
  | succ n ih =>
    simp only [ageLoop]
    rw [ih]
    by_cases hi : i = j
    · subst hi
      rw [if_neg (by omega), setAt_same, if_pos ⟨le_refl _, by omega⟩]
    · rw [setAt_other _ _ _ _ hi]
      by_cases hc : j ≤ i ∧ i < j + (n + 1)
      · rw [if_pos hc, if_pos ⟨by omega, by omega⟩]
      · rw [if_neg hc, if_neg (by omega)]

theorem matchIndex_le (S : RDSampler) (address : Nat) : S.matchIndex address ≤ S.size := by
  unfold matchIndex
  simpa using searchFrom_le _ S.size 0

theorem matchIndex_found (S : RDSampler) (address : Nat) (hlt : S.matchIndex address < S.size) :
    (S.sampler (S.matchIndex address)).valid ≠ 0 ∧
      (S.sampler (S.matchIndex address)).address = address := by
  unfold matchIndex at hlt ⊢
  exact of_decide_eq_true (searchFrom_found _ S.size 0 (by rw [Nat.zero_add]; exact hlt))

theorem matchIndex_before (S : RDSampler) (address : Nat) (j : Nat)
    (hj : j < S.matchIndex address) :
    ¬ ((S.sampler j).valid ≠ 0 ∧ (S.sampler j).address = address) := by
  unfold matchIndex at hj
  exact of_decide_eq_false (searchFrom_before _ S.size 0 j (Nat.zero_le _) hj)

theorem matchIndex_eq (S : RDSampler) (address : Nat) (i : Nat) (hi : i < S.size)
    (hv : (S.sampler i).valid ≠ 0) (ha : (S.sampler i).address = address)
    (hfirst : ∀ j, j < i → (S.sampler j).valid ≠ 0 → (S.sampler j).address ≠ address) :
    S.matchIndex address = i := by
  unfold matchIndex
  apply searchFrom_first _ S.size 0 i (Nat.zero_le _) (by omega)
  · exact decide_eq_true ⟨hv, ha⟩
  · intro k _ hk
    exact decide_eq_false (fun hh => hfirst k hk hh.1 hh.2)

theorem matchIndex_miss (S : RDSampler) (address : Nat)
    (hno : ∀ j, j < S.size → (S.sampler j).valid ≠ 0 → (S.sampler j).address ≠ address) :
    S.matchIndex address = S.size := by
  apply le_antisymm (matchIndex_le S address)
  by_contra hlt
  have hlt2 : S.matchIndex address < S.size := by omega
  have := matchIndex_found S address hlt2
  exact hno _ hlt2 this.1 this.2

theorem matchPhase_miss (h : Header) (S : RDSampler) (address : Nat)
    (hm : S.matchIndex address = S.size) : matchPhase h S address = (S, []) := by
  unfold matchPhase
  simp only
  rw [if_neg (by omega)]

theorem matchPhase_hit (h : Header) (S : RDSampler) (address : Nat)
    (hm : S.matchIndex address < S.size) :
    matchPhase h S address =
      ({ S with sampler := (setAt S.sampler (S.matchIndex address)
          { (S.sampler (S.matchIndex address)) with valid := 0 }) },
        [{ slot := S.matchIndex address, pc := (S.sampler (S.matchIndex address)).pc
           observation := h.QuantizePrediction
            (u32 ((S.sampler (S.matchIndex address)).FifoPosition * S.period)) }]) := by
  unfold matchPhase
  simp only [setAt_same]
  rw [if_pos hm]

end RDSampler
end Gem5
namespace Gem5
namespace RDSampler

theorem matchPhase_period (h : Header) (S : RDSampler) (address : Nat) :
    (matchPhase h S address).1.period = S.period := by
  unfold matchPhase
  simp only
  split <;> rfl

theorem matchPhase_size (h : Header) (S : RDSampler) (address : Nat) :
    (matchPhase h S address).1.size = S.size := by
  unfold matchPhase
  simp only
  split <;> rfl

theorem matchPhase_counter (h : Header) (S : RDSampler) (address : Nat) :
    (matchPhase h S address).1.sampling_counter = S.sampling_counter := by
  unfold matchPhase
  simp only
  split <;> rfl

/-- The match phase clears the `valid` field of the matched entry and changes
nothing else. -/
theorem matchPhase_sampler (h : Header) (S : RDSampler) (address : Nat) (j : Nat) :
    (matchPhase h S address).1.sampler j =
      if j = S.matchIndex address ∧ S.matchIndex address < S.size then
        { S.sampler j with valid := 0 }
      else S.sampler j := by
  by_cases hm : S.matchIndex address < S.size
  · rw [matchPhase_hit h S address hm]
    by_cases hj : j = S.matchIndex address
    · rw [if_pos ⟨hj, hm⟩, hj]
      exact setAt_same _ _ _
    · rw [if_neg (fun hh => hj hh.1)]
      exact setAt_other _ _ _ _ hj
  · rw [matchPhase_miss h S address (le_antisymm (matchIndex_le S address) (by omega)),
      if_neg (fun hh => hm hh.2)]

theorem matchPhase_fifo (h : Header) (S : RDSampler) (address : Nat) (j : Nat) :
    ((matchPhase h S address).1.sampler j).FifoPosition = (S.sampler j).FifoPosition := by
  rw [matchPhase_sampler]
  split <;> rfl

theorem matchPhase_valid_imp (h : Header) (S : RDSampler) (address : Nat) (j : Nat)
    (hv : ((matchPhase h S address).1.sampler j).valid ≠ 0) :
    (matchPhase h S address).1.sampler j = S.sampler j ∧
      ¬ (j = S.matchIndex address ∧ S.matchIndex address < S.size) := by
  rw [matchPhase_sampler] at hv ⊢
  by_cases hc : j = S.matchIndex address ∧ S.matchIndex address < S.size
  · rw [if_pos hc] at hv; exact absurd rfl hv
  · rw [if_neg hc]; exact ⟨rfl, hc⟩

/-- After the match phase no valid entry holds the accessed address. -/
theorem matchPhase_clears (h : Header) (S : RDSampler) (hS : S.WF) (address : Nat) (j : Nat)
    (hj : j < S.size) (hv : ((matchPhase h S address).1.sampler j).valid ≠ 0) :
    ((matchPhase h S address).1.sampler j).address ≠ address := by
  obtain ⟨heq, hne⟩ := matchPhase_valid_imp h S address j hv
  rw [heq] at hv ⊢
  intro ha
  by_cases hm : S.matchIndex address < S.size
  · obtain ⟨hv2, ha2⟩ := matchIndex_found S address hm
    have := hS.unique j _ hj hm hv hv2 (by rw [ha, ha2])
    exact hne ⟨this, hm⟩
  · have hlt : j < S.matchIndex address := by
      have := matchIndex_le S address
      omega
    exact matchIndex_before S address j hlt ⟨hv, ha⟩

theorem matchPhase_WF (h : Header) (S : RDSampler) (hS : S.WF) (address : Nat) :
    (matchPhase h S address).1.WF := by
  refine ⟨?_, ?_, ?_, ?_, ?_, ?_, ?_⟩
  · rw [matchPhase_period]; exact hS.period_pos
  · rw [matchPhase_size]; exact hS.size_pos
  · rw [matchPhase_size, matchPhase_period]; exact hS.bound
  · rw [matchPhase_counter, matchPhase_period]; exact hS.counter
  · rw [matchPhase_size]
    constructor
    · intro i hi; rw [matchPhase_fifo]; exact hS.fifo.1 i hi
    · intro i j hi hj heq
      rw [matchPhase_fifo, matchPhase_fifo] at heq
      exact hS.fifo.2 i j hi hj heq
  · intro i hi
    rw [matchPhase_size] at hi
    rw [matchPhase_sampler]
    split
    · exact Nat.zero_le _
    · exact hS.valid i hi
  · intro i j hi hj hvi hvj heq
    rw [matchPhase_size] at hi hj
    obtain ⟨e1, _⟩ := matchPhase_valid_imp h S address i hvi
    obtain ⟨e2, _⟩ := matchPhase_valid_imp h S address j hvj
    rw [e1] at hvi heq
    rw [e2] at hvj heq
    exact hS.unique i j hi hj hvi hvj heq

end RDSampler
end Gem5
namespace Gem5
namespace RDSampler

theorem WF.size_lt {S : RDSampler} (hS : S.WF) : S.size < 4294967296 := by
  have h1 := hS.period_pos
  have h2 := hS.bound
  calc S.size = S.size * 1 := (Nat.mul_one _).symm
    _ ≤ S.size * S.period := Nat.mul_le_mul_left _ h1
    _ < 4294967296 := h2

theorem WF.period_lt {S : RDSampler} (hS : S.WF) : S.period < 4294967296 := by
  have h1 := hS.size_pos
  have h2 := hS.bound
  calc S.period = 1 * S.period := (Nat.one_mul _).symm
    _ ≤ S.size * S.period := Nat.mul_le_mul_right _ h1
    _ < 4294967296 := h2

/-- In a well-formed state the search for the oldest entry stops at the one
entry whose FIFO position is `size - 1`. -/
theorem WF.oldestIndex_spec {S : RDSampler} (hS : S.WF) :
    S.oldestIndex < S.size ∧ (S.sampler S.oldestIndex).FifoPosition = S.size - 1 := by
  have hd := decr_eq S.size hS.size_pos (le_of_lt hS.size_lt)
  obtain ⟨i, hi, hfi⟩ := exists_index_of_injOn S.size (fun i => (S.sampler i).FifoPosition)
    hS.fifo.1 hS.fifo.2 (S.size - 1) (by have := hS.size_pos; omega)
  have hle : S.oldestIndex ≤ i := by
    by_contra hcon
    have := searchFrom_before (fun i => decide ((S.sampler i).FifoPosition = decr S.size))
      S.size 0 i (Nat.zero_le _) (by unfold oldestIndex at hcon; omega)
    have := of_decide_eq_false this
    exact this (by rw [hd]; exact hfi)
  have hlt : S.oldestIndex < S.size := by omega
  refine ⟨hlt, ?_⟩
  have := of_decide_eq_true (searchFrom_found
    (fun i => decide ((S.sampler i).FifoPosition = decr S.size)) S.size 0
    (by rw [Nat.zero_add]; exact hlt))
  exact this.trans hd

theorem WF.oldestIndex_unique {S : RDSampler} (hS : S.WF) (i : Nat) (hi : i < S.size)
    (hfi : (S.sampler i).FifoPosition = S.size - 1) : S.oldestIndex = i := by
  obtain ⟨hlt, hf⟩ := hS.oldestIndex_spec
  exact hS.fifo.2 _ _ hlt hi (by rw [hf, hfi])

theorem samplePhase_skip (h : Header) (S : RDSampler) (address pc : Nat)
    (hc : S.sampling_counter ≠ 0) :
    samplePhase h S address pc =
      some ({ S with sampling_counter := decr S.sampling_counter }, []) := by
  unfold samplePhase
  rw [if_neg hc]

theorem samplePhase_take (h : Header) (S : RDSampler) (hS : S.WF) (address pc : Nat)
    (hc : S.sampling_counter = 0) :
    samplePhase h S address pc =
      some ({ S with
          sampler := (setAt (ageLoop S.size 0 S.sampler) S.oldestIndex
            { valid := 1, FifoPosition := 0, pc := pc, address := address })
          sampling_counter := decr S.period },
        if (S.sampler S.oldestIndex).valid = 1 then
          [{ slot := S.oldestIndex, pc := (S.sampler S.oldestIndex).pc
             observation := h.MAX_VALUE_PREDICTION }]
        else []) := by
  unfold samplePhase
  simp only
  rw [if_pos hc, if_pos hS.oldestIndex_spec.1]

/-- The entries after a sample has been taken. -/
theorem take_sampler (S : RDSampler) (hS : S.WF) (address pc : Nat) (j : Nat) (hj : j < S.size) :
    setAt (ageLoop S.size 0 S.sampler) S.oldestIndex
        { valid := 1, FifoPosition := 0, pc := pc, address := address } j =
      if j = S.oldestIndex then { valid := 1, FifoPosition := 0, pc := pc, address := address }
      else { S.sampler j with FifoPosition := (S.sampler j).FifoPosition + 1 } := by
  by_cases hjo : j = S.oldestIndex
  · rw [if_pos hjo, hjo, setAt_same]
  · rw [if_neg hjo, setAt_other _ _ _ _ hjo, ageLoop_apply, if_pos ⟨Nat.zero_le _, by omega⟩]
    have h1 := hS.fifo.1 j hj
    have h2 := hS.size_lt
    rw [incr_eq _ (by omega)]

end RDSampler
end Gem5
namespace Gem5
namespace RDSampler

theorem take_WF (S : RDSampler) (hS : S.WF) (address pc : Nat)
    (hno : ∀ j, j < S.size → (S.sampler j).valid ≠ 0 → (S.sampler j).address ≠ address) :
    WF { S with
      sampler := (setAt (ageLoop S.size 0 S.sampler) S.oldestIndex
        { valid := 1, FifoPosition := 0, pc := pc, address := address })
      sampling_counter := decr S.period } := by
  obtain ⟨holt, hof⟩ := hS.oldestIndex_spec
  have hne : ∀ j, j < S.size → j ≠ S.oldestIndex →
      (S.sampler j).FifoPosition ≠ S.size - 1 :=
    fun j hj hjo hh => hjo (hS.fifo.2 j _ hj holt (by rw [hh, hof]))
  refine ⟨hS.period_pos, hS.size_pos, hS.bound, ?_, ⟨?_, ?_⟩, ?_, ?_⟩
  · dsimp only
    rw [decr_eq _ hS.period_pos (le_of_lt hS.period_lt)]
    have := hS.period_pos
    omega
  · intro i hi
    dsimp only at hi ⊢
    rw [take_sampler S hS address pc i hi]
    have h1 := hS.fifo.1 i hi
    by_cases c : i = S.oldestIndex
    · rw [if_pos c]; exact hS.size_pos
    · rw [if_neg c]
      have := hne i hi c
      dsimp only
      omega
  · intro i j hi hj heq
    dsimp only at hi hj heq
    rw [take_sampler S hS address pc i hi, take_sampler S hS address pc j hj] at heq
    by_cases c1 : i = S.oldestIndex
    · by_cases c2 : j = S.oldestIndex
      · exact c1.trans c2.symm
      · rw [if_pos c1, if_neg c2] at heq
        dsimp only at heq
        omega
    · by_cases c2 : j = S.oldestIndex
      · rw [if_neg c1, if_pos c2] at heq
        dsimp only at heq
        omega
      · rw [if_neg c1, if_neg c2] at heq
        dsimp only at heq
        exact hS.fifo.2 i j hi hj (by omega)
  · intro i hi
    dsimp only at hi ⊢
    rw [take_sampler S hS address pc i hi]
    by_cases c : i = S.oldestIndex
    · rw [if_pos c]
    · rw [if_neg c]; exact hS.valid i hi
  · intro i j hi hj hvi hvj heq
    dsimp only at hi hj hvi hvj heq
    rw [take_sampler S hS address pc i hi] at hvi heq
    rw [take_sampler S hS address pc j hj] at hvj heq
    by_cases c1 : i = S.oldestIndex
    · by_cases c2 : j = S.oldestIndex
      · exact c1.trans c2.symm
      · rw [if_pos c1, if_neg c2] at heq
        rw [if_neg c2] at hvj
        exact absurd heq.symm (hno j hj hvj)
    · by_cases c2 : j = S.oldestIndex
      · rw [if_neg c1, if_pos c2] at heq
        rw [if_neg c1] at hvi
        exact absurd heq (hno i hi hvi)
      · rw [if_neg c1, if_neg c2] at heq
        rw [if_neg c1] at hvi
        rw [if_neg c2] at hvj
        exact hS.unique i j hi hj hvi hvj heq

theorem skip_WF (S : RDSampler) (hS : S.WF) (hc : S.sampling_counter ≠ 0) :
    WF { S with sampling_counter := decr S.sampling_counter } := by
  refine ⟨hS.period_pos, hS.size_pos, hS.bound, ?_, hS.fifo, hS.valid, hS.unique⟩
  dsimp only
  have h1 := hS.counter
  have h2 := hS.period_lt
  rw [decr_eq _ (Nat.one_le_iff_ne_zero.mpr hc) (by omega)]
  omega

theorem samplePhase_isSome (h : Header) (S : RDSampler) (hS : S.WF) (address pc : Nat) :
    ∃ r, samplePhase h S address pc = some r := by
  by_cases hc : S.sampling_counter = 0
  · exact ⟨_, samplePhase_take h S hS address pc hc⟩
  · exact ⟨_, samplePhase_skip h S address pc hc⟩

theorem samplePhase_WF (h : Header) (S : RDSampler) (hS : S.WF) (address pc : Nat)
    (hno : ∀ j, j < S.size → (S.sampler j).valid ≠ 0 → (S.sampler j).address ≠ address)
    (r : RDSampler × List SamplerCall) (hr : samplePhase h S address pc = some r) :
    r.1.WF ∧ r.1.size = S.size ∧ r.1.period = S.period := by
  by_cases hc : S.sampling_counter = 0
  · have e := Option.some.inj ((samplePhase_take h S hS address pc hc).symm.trans hr)
    rw [← e]
    exact ⟨take_WF S hS address pc hno, by dsimp only, by dsimp only⟩
  · have e := Option.some.inj ((samplePhase_skip h S address pc hc).symm.trans hr)
    rw [← e]
    exact ⟨skip_WF S hS hc, by dsimp only, by dsimp only⟩

theorem sampler_Update_isSome (h : Header) (S : RDSampler) (hS : S.WF) (address pc : Nat) :
    ∃ r, S.Update h address pc = some r := by
  obtain ⟨r, hr⟩ := samplePhase_isSome h _ (matchPhase_WF h S hS address) address pc
  refine ⟨(r.1, (matchPhase h S address).2 ++ r.2), ?_⟩
  unfold Update
  rw [hr]

theorem Update_eq (h : Header) (S : RDSampler) (address pc : Nat)
    (r : RDSampler × List SamplerCall)
    (hr : samplePhase h (matchPhase h S address).1 address pc = some r) :
    S.Update h address pc = some (r.1, (matchPhase h S address).2 ++ r.2) := by
  unfold Update
  rw [hr]

theorem sampler_Update_WF (h : Header) (S : RDSampler) (hS : S.WF) (address pc : Nat)
    (r : RDSampler × List SamplerCall) (hr : S.Update h address pc = some r) :
    r.1.WF ∧ r.1.size = S.size ∧ r.1.period = S.period := by
  obtain ⟨r2, hr2⟩ := samplePhase_isSome h _ (matchPhase_WF h S hS address) address pc
  rw [Update_eq h S address pc r2 hr2] at hr
  simp only [Option.some.injEq] at hr
  subst hr
  have := samplePhase_WF h _ (matchPhase_WF h S hS address) address pc
    (fun j hj hv => matchPhase_clears h S hS address j (by rw [← matchPhase_size h S address]; exact hj) hv)
    r2 hr2
  rw [matchPhase_size, matchPhase_period] at this
  exact this

theorem sampler_run_WF (h : Header) (acc : List (Nat × Nat)) (S : RDSampler) (hS : S.WF)
    (r : RDSampler × List SamplerCall) (hr : run h S acc = some r) :
    r.1.WF ∧ r.1.size = S.size ∧ r.1.period = S.period := by
  induction acc generalizing S r with
  | nil =>
    simp only [run, Option.some.injEq] at hr
    subst hr
    exact ⟨hS, rfl, rfl⟩
  | cons a acc ih =>
    obtain ⟨address, pc⟩ := a
    simp only [run] at hr
    cases hU : S.Update h address pc with
    | none => rw [hU] at hr; exact absurd hr (by simp)
    | some r1 =>
      rw [hU] at hr
      obtain ⟨hW1, hs1, hp1⟩ := sampler_Update_WF h S hS address pc r1 hU
      cases hR : run h r1.1 acc with
      | none => simp only [hR] at hr; exact absurd hr (by simp)
      | some r2 =>
        simp only [hR, Option.some.injEq] at hr
        subst hr
        obtain ⟨hW2, hs2, hp2⟩ := ih r1.1 hW1 r2 hR
        exact ⟨hW2, by rw [hs2, hs1], by rw [hp2, hp1]⟩

theorem sampler_run_isSome (h : Header) (acc : List (Nat × Nat)) (S : RDSampler) (hS : S.WF) :
    ∃ r, run h S acc = some r := by
  induction acc generalizing S with
  | nil => exact ⟨_, rfl⟩
  | cons a acc ih =>
    obtain ⟨address, pc⟩ := a
    obtain ⟨r1, hU⟩ := sampler_Update_isSome h S hS address pc
    obtain ⟨hW1, _, _⟩ := sampler_Update_WF h S hS address pc r1 hU
    obtain ⟨r2, hR⟩ := ih r1.1 hW1
    exact ⟨(r2.1, r1.2 ++ r2.2), by simp only [run, hU, hR]⟩

theorem sampler_new_WF (period max_rd : Nat) (mem : Nat → RDSamplerEntry) (hp : 1 ≤ period)
    (hs : period ≤ max_rd) (hm : max_rd < 4294967296) : (new period max_rd mem).WF := by
  have hsize : 1 ≤ max_rd / period := (Nat.one_le_div_iff (by omega)).mpr hs
  have key : ∀ i, i < max_rd / period →
      (new period max_rd mem).sampler i = { mem i with valid := 0, FifoPosition := i } := by
    intro i hi
    show (if i < max_rd / period then _ else _) = _
    rw [if_pos hi]
  refine ⟨hp, hsize, ?_, ?_, ⟨?_, ?_⟩, ?_, ?_⟩
  · show max_rd / period * period < 4294967296
    exact lt_of_le_of_lt (Nat.div_mul_le_self _ _) hm
  · show 0 < period
    omega
  · intro i hi
    change i < max_rd / period at hi
    rw [key i hi]
    exact hi
  · intro i j hi hj heq
    change i < max_rd / period at hi
    change j < max_rd / period at hj
    rw [key i hi, key j hj] at heq
    exact heq
  · intro i hi
    change i < max_rd / period at hi
    rw [key i hi]
    exact Nat.zero_le _
  · intro i j hi hj hvi
    change i < max_rd / period at hi
    rw [key i hi] at hvi
    exact absurd rfl hvi

end RDSampler
end Gem5
namespace Gem5

theorem succ_div_mod_of_lt (t p : Nat) (hlt : t % p + 1 < p) :
    (t + 1) / p = t / p ∧ (t + 1) % p = t % p + 1 := by
  have hp : 0 < p := by omega
  have h1 := Nat.div_add_mod t p
  exact (Nat.div_mod_unique hp).mpr ⟨by omega, hlt⟩

theorem succ_div_mod_of_eq (t p : Nat) (hp : 0 < p) (heq : t % p + 1 = p) :
    (t + 1) / p = t / p + 1 ∧ (t + 1) % p = 0 := by
  have h1 := Nat.div_add_mod t p
  have h2 : p * (t / p + 1) = p * (t / p) + p := by rw [Nat.mul_add, Nat.mul_one]
  exact (Nat.div_mod_unique hp).mpr ⟨by omega, hp⟩

namespace RDSampler

theorem oldestIndex_congr (S T : RDSampler) (hsize : T.size = S.size)
    (hf : ∀ i, (T.sampler i).FifoPosition = (S.sampler i).FifoPosition) :
    T.oldestIndex = S.oldestIndex := by
  unfold oldestIndex
  rw [hsize]
  congr 1
  funext i
  rw [hf]

theorem matchPhase_oldestIndex (h : Header) (S : RDSampler) (address : Nat) :
    (matchPhase h S address).1.oldestIndex = S.oldestIndex :=
  oldestIndex_congr S _ (matchPhase_size h S address) (matchPhase_fifo h S address)

/-- The calls made by the match phase come from the matched entry. -/
theorem matchPhase_calls_slot (h : Header) (S : RDSampler) (address : Nat) (x : SamplerCall)
    (hx : x ∈ (matchPhase h S address).2) :
    x.slot = S.matchIndex address ∧ S.matchIndex address < S.size := by
  by_cases hm : S.matchIndex address < S.size
  · rw [matchPhase_hit h S address hm] at hx
    simp only [List.mem_singleton] at hx
    rw [hx]
    exact ⟨rfl, hm⟩
  · rw [matchPhase_miss h S address (le_antisymm (matchIndex_le S address) (by omega))] at hx
    simp at hx

end RDSampler
end Gem5
namespace Gem5
namespace RDSampler

theorem Update_skip (h : Header) (S : RDSampler) (address pc : Nat)
    (hc : S.sampling_counter ≠ 0) :
    S.Update h address pc =
      some ({ (matchPhase h S address).1 with
          sampling_counter := decr (matchPhase h S address).1.sampling_counter },
        (matchPhase h S address).2 ++ []) := by
  have hc2 : (matchPhase h S address).1.sampling_counter ≠ 0 := by
    rw [matchPhase_counter]; exact hc
  exact Update_eq h S address pc _ (samplePhase_skip h _ address pc hc2)

theorem Update_take (h : Header) (S : RDSampler) (hS : S.WF) (address pc : Nat)
    (hc : S.sampling_counter = 0) :
    S.Update h address pc =
      some ({ (matchPhase h S address).1 with
          sampler := (setAt (ageLoop (matchPhase h S address).1.size 0
              (matchPhase h S address).1.sampler) (matchPhase h S address).1.oldestIndex
            { valid := 1, FifoPosition := 0, pc := pc, address := address })
          sampling_counter := decr (matchPhase h S address).1.period },
        (matchPhase h S address).2 ++
          if ((matchPhase h S address).1.sampler (matchPhase h S address).1.oldestIndex).valid = 1
          then
            [{ slot := (matchPhase h S address).1.oldestIndex
               pc := ((matchPhase h S address).1.sampler
                  (matchPhase h S address).1.oldestIndex).pc
               observation := h.MAX_VALUE_PREDICTION }]
          else []) := by
  have hc2 : (matchPhase h S address).1.sampling_counter = 0 := by
    rw [matchPhase_counter]; exact hc
  exact Update_eq h S address pc _
    (samplePhase_take h _ (matchPhase_WF h S hS address) address pc hc2)

/-- An update with another address leaves a tracked entry alone in its match
phase. -/
theorem Tracked.match_other {S : RDSampler} {i A pc1 t : Nat} (hT : S.Tracked i A pc1 t)
    (h : Header) (a : Nat) (ha : a ≠ A) :
    (matchPhase h S a).1.sampler i = S.sampler i ∧
      ∀ x ∈ (matchPhase h S a).2, x.slot ≠ i := by
  have hne : ¬ (i = S.matchIndex a ∧ S.matchIndex a < S.size) := by
    rintro ⟨hi, hlt⟩
    have := (matchIndex_found S a hlt).2
    rw [← hi, hT.addr] at this
    exact ha this.symm
  constructor
  · rw [matchPhase_sampler, if_neg hne]
  · intro x hx
    obtain ⟨hs, hlt⟩ := matchPhase_calls_slot h S a x hx
    intro hxi
    exact hne ⟨by rw [← hxi, hs], hlt⟩

end RDSampler
end Gem5
namespace Gem5
namespace RDSampler

/-- One further update with another address keeps the sample tracked, and none
of the predictor calls it makes comes from the tracked entry. -/
theorem Tracked.step {S : RDSampler} {i A pc1 t : Nat} (hT : S.Tracked i A pc1 t)
    (h : Header) (a pc : Nat) (ha : a ≠ A) (ht : t + 1 < S.size * S.period) :
    ∃ S1 calls, S.Update h a pc = some (S1, calls) ∧ S1.Tracked i A pc1 (t + 1) ∧
      S1.size = S.size ∧ S1.period = S.period ∧ ∀ x ∈ calls, x.slot ≠ i := by
  obtain ⟨hMi, hMc⟩ := hT.match_other h a ha
  have hMW := matchPhase_WF h S hT.wf a
  have hMs := matchPhase_size h S a
  have hMp := matchPhase_period h S a
  have hMk := matchPhase_counter h S a
  have hp := hT.wf.period_pos
  by_cases hc : S.sampling_counter = 0
  · -- a sample is taken
    have hctr := hT.ctr
    obtain ⟨hd, hm⟩ := succ_div_mod_of_eq t S.period (by omega) (by omega)
    have hMo := matchPhase_oldestIndex h S a
    obtain ⟨holt, hof⟩ := hT.wf.oldestIndex_spec
    have hlt : (t + 1) / S.period < S.size :=
      Nat.div_lt_of_lt_mul (by rw [Nat.mul_comm]; exact ht)
    have hio : i ≠ S.oldestIndex := by
      intro hio
      have := hT.pos
      rw [hio, hof] at this
      omega
    have hW : WF { (matchPhase h S a).1 with
        sampler := (setAt (ageLoop (matchPhase h S a).1.size 0 (matchPhase h S a).1.sampler)
          (matchPhase h S a).1.oldestIndex
          { valid := 1, FifoPosition := 0, pc := pc, address := a })
        sampling_counter := decr (matchPhase h S a).1.period } :=
      take_WF _ hMW a pc
        (fun j hj hv => matchPhase_clears h S hT.wf a j (by rw [← hMs]; exact hj) hv)
    have hent := take_sampler _ hMW a pc i (by rw [hMs]; exact hT.idx)
    have hio2 : i ≠ (matchPhase h S a).1.oldestIndex := by rw [hMo]; exact hio
    rw [if_neg hio2, hMi] at hent
    refine ⟨_, _, Update_take h S hT.wf a pc hc, ⟨hW, ?_, ?_, ?_, ?_, ?_, ?_⟩, hMs, hMp, ?_⟩
    · show i < (matchPhase h S a).1.size
      rw [hMs]; exact hT.idx
    · show RDSamplerEntry.valid (setAt _ _ _ i) = 1
      rw [hent]; exact hT.valid
    · show RDSamplerEntry.address (setAt _ _ _ i) = A
      rw [hent]; exact hT.addr
    · show RDSamplerEntry.pc (setAt _ _ _ i) = pc1
      rw [hent]; exact hT.pc
    · show RDSamplerEntry.FifoPosition (setAt _ _ _ i) = (t + 1) / (matchPhase h S a).1.period
      rw [hent, hMp, hd]
      show (S.sampler i).FifoPosition + 1 = _
      rw [hT.pos]
    · show decr (matchPhase h S a).1.period + (t + 1) % (matchPhase h S a).1.period + 1
        = (matchPhase h S a).1.period
      rw [hMp, hm, decr_eq _ hp (le_of_lt hT.wf.period_lt)]
      omega
    · intro x hx
      rcases List.mem_append.mp hx with hx1 | hx2
      · exact hMc x hx1
      · split at hx2
        · simp only [List.mem_singleton] at hx2
          rw [hx2]
          exact fun hh => hio2 hh.symm
        · simp at hx2
  · -- no sample is taken
    have hctr := hT.ctr
    obtain ⟨hd, hm⟩ := succ_div_mod_of_lt t S.period (by omega)
    have hW : WF { (matchPhase h S a).1 with
        sampling_counter := decr (matchPhase h S a).1.sampling_counter } :=
      skip_WF _ hMW (by rw [hMk]; exact hc)
    refine ⟨_, _, Update_skip h S a pc hc, ⟨hW, ?_, ?_, ?_, ?_, ?_, ?_⟩, hMs, hMp, ?_⟩
    · show i < (matchPhase h S a).1.size
      rw [hMs]; exact hT.idx
    · show ((matchPhase h S a).1.sampler i).valid = 1
      rw [hMi]; exact hT.valid
    · show ((matchPhase h S a).1.sampler i).address = A
      rw [hMi]; exact hT.addr
    · show ((matchPhase h S a).1.sampler i).pc = pc1
      rw [hMi]; exact hT.pc
    · show ((matchPhase h S a).1.sampler i).FifoPosition = (t + 1) / (matchPhase h S a).1.period
      rw [hMi, hMp, hd]; exact hT.pos
    · show decr (matchPhase h S a).1.sampling_counter + (t + 1) % (matchPhase h S a).1.period + 1
        = (matchPhase h S a).1.period
      have h2 := hT.wf.period_lt
      rw [hMp, hMk, hm, decr_eq _ (Nat.one_le_iff_ne_zero.mpr hc) (by omega)]
      omega
    · intro x hx
      rw [List.append_nil] at hx
      exact hMc x hx

end RDSampler
end Gem5
namespace Gem5
namespace RDSampler

/-- An update that takes a sample leaves the new sample tracked, in the entry
that was the oldest. -/
theorem Tracked.init (h : Header) (S : RDSampler) (hS : S.WF) (A pc1 : Nat)
    (hc : S.sampling_counter = 0) :
    ∃ S1 calls, S.Update h A pc1 = some (S1, calls) ∧ S1.Tracked S.oldestIndex A pc1 0 ∧
      S1.size = S.size ∧ S1.period = S.period := by
  have hMW := matchPhase_WF h S hS A
  have hMs := matchPhase_size h S A
  have hMp := matchPhase_period h S A
  have hMo := matchPhase_oldestIndex h S A
  have hW : WF { (matchPhase h S A).1 with
      sampler := (setAt (ageLoop (matchPhase h S A).1.size 0 (matchPhase h S A).1.sampler)
        (matchPhase h S A).1.oldestIndex
        { valid := 1, FifoPosition := 0, pc := pc1, address := A })
      sampling_counter := decr (matchPhase h S A).1.period } :=
    take_WF _ hMW A pc1
      (fun j hj hv => matchPhase_clears h S hS A j (by rw [← hMs]; exact hj) hv)
  have hent : setAt (ageLoop (matchPhase h S A).1.size 0 (matchPhase h S A).1.sampler)
      (matchPhase h S A).1.oldestIndex
      { valid := 1, FifoPosition := 0, pc := pc1, address := A } S.oldestIndex =
      { valid := 1, FifoPosition := 0, pc := pc1, address := A } := by
    rw [← hMo]; exact setAt_same _ _ _
  refine ⟨_, _, Update_take h S hS A pc1 hc, ⟨hW, ?_, ?_, ?_, ?_, ?_, ?_⟩, hMs, hMp⟩
  · show S.oldestIndex < (matchPhase h S A).1.size
    rw [hMs]; exact hS.oldestIndex_spec.1
  · show RDSamplerEntry.valid (setAt _ _ _ S.oldestIndex) = 1
    rw [hent]
  · show RDSamplerEntry.address (setAt _ _ _ S.oldestIndex) = A
    rw [hent]
  · show RDSamplerEntry.pc (setAt _ _ _ S.oldestIndex) = pc1
    rw [hent]
  · show RDSamplerEntry.FifoPosition (setAt _ _ _ S.oldestIndex) = 0 / (matchPhase h S A).1.period
    rw [hent, Nat.zero_div]
  · show decr (matchPhase h S A).1.period + 0 % (matchPhase h S A).1.period + 1
      = (matchPhase h S A).1.period
    have hp := hS.period_pos
    rw [hMp, Nat.zero_mod, decr_eq _ hp (le_of_lt hS.period_lt)]
    omega

/-- A run of updates with other addresses keeps the sample tracked as long as
it stays inside the window, and makes no predictor call from the tracked
entry. -/
theorem Tracked.run (h : Header) (mid : List (Nat × Nat)) {S : RDSampler} {i A pc1 t : Nat}
    (hT : S.Tracked i A pc1 t) (hmid : ∀ x ∈ mid, x.1 ≠ A)
    (ht : t + mid.length < S.size * S.period) :
    ∃ S1 calls, RDSampler.run h S mid = some (S1, calls) ∧
      S1.Tracked i A pc1 (t + mid.length) ∧
      S1.size = S.size ∧ S1.period = S.period ∧ ∀ x ∈ calls, x.slot ≠ i := by
  induction mid generalizing S t with
  | nil => exact ⟨S, [], rfl, hT, rfl, rfl, by simp⟩
  | cons a mid ih =>
    obtain ⟨a1, a2⟩ := a
    simp only [List.length_cons] at ht
    obtain ⟨S1, c1, hU, hT1, hs1, hp1, hc1⟩ :=
      hT.step h a1 a2 (hmid (a1, a2) (List.mem_cons_self _ _)) (by omega)
    obtain ⟨S2, c2, hR, hT2, hs2, hp2, hc2⟩ :=
      ih hT1 (fun x hx => hmid x (List.mem_cons_of_mem _ hx)) (by rw [hs1, hp1]; omega)
    refine ⟨S2, c1 ++ c2, ?_, ?_, by rw [hs2, hs1], by rw [hp2, hp1], ?_⟩
    · simp only [RDSampler.run, hU, hR]
    · have : t + (mid.length + 1) = t + 1 + mid.length := by omega
      simp only [List.length_cons]
      rw [this]
      exact hT2
    · intro x hx
      rcases List.mem_append.mp hx with hx1 | hx2
      · exact hc1 x hx1
      · exact hc2 x hx2

end RDSampler
end Gem5
namespace Gem5
namespace RDSampler

theorem Tracked.matchIndex_tracked {S : RDSampler} {i A pc1 t : Nat} (hT : S.Tracked i A pc1 t) :
    S.matchIndex A = i := by
  have hv : (S.sampler i).valid ≠ 0 := by rw [hT.valid]; decide
  apply RDSampler.matchIndex_eq S A i hT.idx hv hT.addr
  intro j hj hvj haj
  have := hT.wf.unique j i (by have := hT.idx; omega) hT.idx hvj hv (by rw [haj, hT.addr])
  omega

/-- The match phase of an update with the tracked address inside the window:
the tracked entry is invalidated and reported under the pc it was sampled
with, with the FIFO position it has reached. -/
theorem Tracked.match_hit {S : RDSampler} {i A pc1 t : Nat} (hT : S.Tracked i A pc1 t)
    (h : Header) (ht : t < S.size * S.period) :
    (matchPhase h S A).2 =
        [{ slot := i, pc := pc1, observation := h.QuantizePrediction (S.period * (t / S.period)) }] ∧
      ((matchPhase h S A).1.sampler i).valid = 0 := by
  have hm := hT.matchIndex_tracked
  have hlt : S.matchIndex A < S.size := by rw [hm]; exact hT.idx
  have hle : t / S.period * S.period ≤ t := Nat.div_mul_le_self t S.period
  have hb := hT.wf.bound
  constructor
  · rw [matchPhase_hit h S A hlt, hm]
    show [_] = [_]
    rw [hT.pc, hT.pos]
    have : u32 (t / S.period * S.period) = S.period * (t / S.period) := by
      unfold u32
      rw [Nat.mod_eq_of_lt (by omega), Nat.mul_comm]
    rw [this]
  · rw [matchPhase_sampler, if_pos ⟨hm.symm, hlt⟩]

/-- The whole update with the tracked address inside the window. -/
theorem Tracked.hit {S : RDSampler} {i A pc1 t : Nat} (hT : S.Tracked i A pc1 t)
    (h : Header) (pc2 : Nat) (ht : t < S.size * S.period) :
    ∃ S1 rest, S.Update h A pc2 =
        some (S1, { slot := i, pc := pc1
                    observation := h.QuantizePrediction (S.period * (t / S.period)) } :: rest) ∧
      (∀ x ∈ rest, x.slot ≠ i) ∧
      (t + 1 < S.size * S.period → (S1.sampler i).valid = 0) := by
  obtain ⟨hcalls, hval⟩ := hT.match_hit h ht
  have hMW := matchPhase_WF h S hT.wf A
  have hMs := matchPhase_size h S A
  have hMp := matchPhase_period h S A
  have hMo := matchPhase_oldestIndex h S A
  by_cases hc : S.sampling_counter = 0
  · have hU := Update_take h S hT.wf A pc2 hc
    rw [hcalls, List.singleton_append] at hU
    refine ⟨_, _, hU, ?_, ?_⟩
    · intro x hx
      split at hx
      · rename_i hv
        simp only [List.mem_singleton] at hx
        rw [hx]
        intro hoi
        change (matchPhase h S A).1.oldestIndex = i at hoi
        rw [hoi, hval] at hv
        exact absurd hv (by decide)
      · exact absurd hx (List.not_mem_nil _)
    · intro ht1
      have hctr := hT.ctr
      have hp := hT.wf.period_pos
      obtain ⟨hd, _⟩ := succ_div_mod_of_eq t S.period (by omega) (by omega)
      obtain ⟨_, hof⟩ := hT.wf.oldestIndex_spec
      have hlt : (t + 1) / S.period < S.size :=
        Nat.div_lt_of_lt_mul (by rw [Nat.mul_comm]; exact ht1)
      have hio : i ≠ (matchPhase h S A).1.oldestIndex := by
        rw [hMo]
        intro hio
        have := hT.pos
        rw [hio, hof] at this
        omega
      have hent := take_sampler _ hMW A pc2 i (by rw [hMs]; exact hT.idx)
      rw [if_neg hio] at hent
      show RDSamplerEntry.valid (setAt _ _ _ i) = 0
      rw [hent]
      exact hval
  · have hU := Update_skip h S A pc2 hc
    rw [hcalls, List.singleton_append] at hU
    exact ⟨_, _, hU, by simp, fun _ => hval⟩

/-- The update that ends the window of a tracked sample whose address has not
been seen again: the sample phase reports the entry with the maximal
prediction and then overwrites it. -/
theorem Tracked.censored {S : RDSampler} {i A pc1 t : Nat} (hT : S.Tracked i A pc1 t)
    (h : Header) (a pc : Nat) (ha : a ≠ A) (ht : t + 1 = S.size * S.period) :
    ∃ S1, S.Update h a pc =
        some (S1, (matchPhase h S a).2 ++
          [{ slot := i, pc := pc1, observation := h.MAX_VALUE_PREDICTION }]) ∧
      (∀ x ∈ (matchPhase h S a).2, x.slot ≠ i) ∧
      S1.sampler i = { valid := 1, FifoPosition := 0, pc := pc, address := a } := by
  obtain ⟨hMi, hMc⟩ := hT.match_other h a ha
  have hMo := matchPhase_oldestIndex h S a
  have hp := hT.wf.period_pos
  have hsz := hT.wf.size_pos
  have h1 := Nat.div_add_mod t S.period
  have h2 : S.period * (S.size - 1 + 1) = S.period * (S.size - 1) + S.period := by
    rw [Nat.mul_add, Nat.mul_one]
  have h3 : S.size - 1 + 1 = S.size := by omega
  rw [h3, Nat.mul_comm] at h2
  obtain ⟨hq, hr⟩ : t / S.period = S.size - 1 ∧ t % S.period = S.period - 1 :=
    (Nat.div_mod_unique (by omega)).mpr ⟨by omega, by omega⟩
  have hc : S.sampling_counter = 0 := by
    have := hT.ctr
    omega
  have hoi : S.oldestIndex = i :=
    hT.wf.oldestIndex_unique i hT.idx (by rw [hT.pos, hq])
  have hU := Update_take h S hT.wf a pc hc
  rw [hMo, hoi, hMi, hT.pc, if_pos hT.valid] at hU
  exact ⟨_, hU, hMc, setAt_same _ _ _⟩

end RDSampler
end Gem5
namespace Gem5
namespace RDSampler

/-- The two ways in which `Update` can return: with a new sample taken, when the
countdown is zero and the oldest entry has been found, or with the countdown
decremented. No assumption on the state is made. -/
theorem Update_cases (h : Header) (S : RDSampler) (address pc : Nat) (S1 : RDSampler)
    (calls : List SamplerCall) (hU : S.Update h address pc = some (S1, calls)) :
    (S.sampling_counter = 0 ∧ (matchPhase h S address).1.oldestIndex < S.size ∧
      S1.period = S.period ∧ S1.size = S.size ∧
      S1.sampling_counter = decr S.period ∧
      S1.sampler = setAt (ageLoop S.size 0 (matchPhase h S address).1.sampler)
        (matchPhase h S address).1.oldestIndex
        { valid := 1, FifoPosition := 0, pc := pc, address := address }) ∨
    (S.sampling_counter ≠ 0 ∧ S1.period = S.period ∧ S1.size = S.size ∧
      S1.sampling_counter = decr S.sampling_counter ∧
      S1.sampler = (matchPhase h S address).1.sampler) := by
  have hMs := matchPhase_size h S address
  have hMp := matchPhase_period h S address
  have hMk := matchPhase_counter h S address
  unfold Update at hU
  cases hs : samplePhase h (matchPhase h S address).1 address pc with
  | none => rw [hs] at hU; exact absurd hU (by simp)
  | some r =>
    rw [hs] at hU
    simp only [Option.some.injEq, Prod.mk.injEq] at hU
    obtain ⟨hr1, _⟩ := hU
    unfold samplePhase at hs
    by_cases hc : (matchPhase h S address).1.sampling_counter = 0
    · rw [if_pos hc] at hs
      simp only at hs
      by_cases hi : (matchPhase h S address).1.oldestIndex < (matchPhase h S address).1.size
      · rw [if_pos hi] at hs
        simp only [Option.some.injEq] at hs
        rw [← hr1, ← hs]
        left
        refine ⟨by rw [← hMk]; exact hc, by rw [← hMs]; exact hi, hMp, hMs, ?_, ?_⟩
        · show decr (matchPhase h S address).1.period = decr S.period
          rw [hMp]
        · show setAt (ageLoop (matchPhase h S address).1.size 0 _) _ _ = _
          rw [hMs]
      · rw [if_neg hi] at hs
        exact absurd hs (by simp)
    · rw [if_neg hc] at hs
      simp only [Option.some.injEq] at hs
      rw [← hr1, ← hs]
      right
      refine ⟨by rw [← hMk]; exact hc, hMp, hMs, ?_, rfl⟩
      show decr (matchPhase h S address).1.sampling_counter = decr S.sampling_counter
      rw [hMk]

/-- One update moves the countdown one step along its cycle of length
`period`. -/
theorem Update_cadence (h : Header) (S : RDSampler) (address pc : Nat) (S1 : RDSampler)
    (calls : List SamplerCall) (hU : S.Update h address pc = some (S1, calls))
    (n : Nat) (hp : 1 ≤ S.period) (hp32 : S.period < 4294967296)
    (hlt : S.sampling_counter < S.period) (hn : (S.sampling_counter + n) % S.period = 0) :
    S1.period = S.period ∧ S1.sampling_counter < S.period ∧
      (S1.sampling_counter + (n + 1)) % S.period = 0 := by
  rcases Update_cases h S address pc S1 calls hU with ⟨hc, _, hpe, _, hk, _⟩ | ⟨hc, hpe, _, hk, _⟩
  · rw [hk, decr_eq _ hp (le_of_lt hp32)]
    refine ⟨hpe, by omega, ?_⟩
    rw [hc, Nat.zero_add] at hn
    have : S.period - 1 + (n + 1) = n + S.period := by omega
    rw [this, Nat.add_mod_right]
    exact hn
  · rw [hk, decr_eq _ (Nat.one_le_iff_ne_zero.mpr hc) (by omega)]
    refine ⟨hpe, by omega, ?_⟩
    have : S.sampling_counter - 1 + (n + 1) = S.sampling_counter + n := by omega
    rw [this]
    exact hn

theorem run_cadence (h : Header) (accesses : List (Nat × Nat)) (S : RDSampler) (S1 : RDSampler)
    (calls : List SamplerCall) (hR : run h S accesses = some (S1, calls))
    (n : Nat) (hp : 1 ≤ S.period) (hp32 : S.period < 4294967296)
    (hlt : S.sampling_counter < S.period) (hn : (S.sampling_counter + n) % S.period = 0) :
    S1.period = S.period ∧ S1.sampling_counter < S.period ∧
      (S1.sampling_counter + (n + accesses.length)) % S.period = 0 := by
  induction accesses generalizing S S1 n calls with
  | nil =>
    simp only [run, Option.some.injEq, Prod.mk.injEq] at hR
    rw [← hR.1]
    exact ⟨rfl, hlt, hn⟩
  | cons a rest ih =>
    obtain ⟨address, pc⟩ := a
    simp only [run] at hR
    cases hU : S.Update h address pc with
    | none => rw [hU] at hR; exact absurd hR (by simp)
    | some r1 =>
      obtain ⟨S2, c2⟩ := r1
      rw [hU] at hR
      simp only at hR
      cases hR2 : run h S2 rest with
      | none => rw [hR2] at hR; exact absurd hR (by simp)
      | some r3 =>
        obtain ⟨S3, c3⟩ := r3
        rw [hR2] at hR
        simp only [Option.some.injEq, Prod.mk.injEq] at hR
        obtain ⟨hpe, hlt2, hn2⟩ := Update_cadence h S address pc S2 c2 hU n hp hp32 hlt hn
        have := ih S2 S3 c3 hR2 (n + 1) (by rw [hpe]; exact hp) (by rw [hpe]; exact hp32)
          (by rw [hpe]; exact hlt2) (by rw [hpe]; exact hn2)
        rw [hpe, hR.1] at this
        have hlen : n + (rest.length + 1) = n + 1 + rest.length := by omega
        simp only [List.length_cons]
        rw [hlen]
        exact this

/-- The countdown is zero exactly at the multiples of the period. -/
theorem counter_zero_iff (c n p : Nat) (hlt : c < p) (hn : (c + n) % p = 0) :
    c = 0 ↔ n % p = 0 := by
  constructor
  · intro hc
    rw [hc, Nat.zero_add] at hn
    exact hn
  · intro h0
    rw [Nat.add_mod, h0, Nat.add_zero, Nat.mod_mod, Nat.mod_eq_of_lt hlt] at hn
    exact hn

end RDSampler
end Gem5
namespace Gem5

theorem victimStep_eq (st : Nat × Nat) (way tl ti : Nat) :
    victimStep st way tl ti = if max tl ti > st.2 then (way, max tl ti) else st := by
  unfold victimStep
  by_cases h1 : tl > st.2
  · rw [if_pos h1]
    by_cases h2 : ti > tl
    · rw [if_pos h2, if_pos (by omega), Nat.max_eq_right (by omega)]
    · rw [if_neg h2, if_pos (by omega), Nat.max_eq_left (by omega)]
  · rw [if_neg h1]
    by_cases h2 : ti > st.2
    · rw [if_pos h2, if_pos (by omega), Nat.max_eq_right (by omega)]
    · rw [if_neg h2, if_neg (by omega)]

/-- The loop invariant of the victim scan: after the ways below `k` the running
time is an upper bound of their scores, every way before the running victim
scores strictly less, and the running victim attains the running time (or no
way has been scanned yet). -/
theorem victimLoop_inv (tl ti : Nat → Nat) (n k v t : Nat)
    (hA : ∀ w, w < k → max (tl w) (ti w) ≤ t)
    (hB : ∀ w, w < v → max (tl w) (ti w) < t)
    (hC : (v < k ∧ max (tl v) (ti v) = t) ∨ (k = 0 ∧ v = 0 ∧ t = 0)) :
    (∀ w, w < k + n → max (tl w) (ti w) ≤ (victimLoop tl ti n k (v, t)).2) ∧
    (∀ w, w < (victimLoop tl ti n k (v, t)).1 →
      max (tl w) (ti w) < (victimLoop tl ti n k (v, t)).2) ∧
    (((victimLoop tl ti n k (v, t)).1 < k + n ∧
        max (tl (victimLoop tl ti n k (v, t)).1) (ti (victimLoop tl ti n k (v, t)).1) =
          (victimLoop tl ti n k (v, t)).2) ∨
      (k + n = 0 ∧ (victimLoop tl ti n k (v, t)).1 = 0 ∧ (victimLoop tl ti n k (v, t)).2 = 0)) := by
  induction n generalizing k v t with
  | zero =>
    simp only [victimLoop, Nat.add_zero]
    exact ⟨hA, hB, hC⟩
  | succ n ih =>
    simp only [victimLoop]
    rw [victimStep_eq]
    have hk : k + (n + 1) = k + 1 + n := by omega
    rw [hk]
    by_cases hc : max (tl k) (ti k) > t
    · rw [if_pos hc]
      apply ih
      · intro w hw
        rcases Nat.lt_succ_iff_lt_or_eq.mp hw with h1 | h1
        · exact le_of_lt (lt_of_le_of_lt (hA w h1) hc)
        · rw [h1]
      · intro w hw
        exact lt_of_le_of_lt (hA w hw) hc
      · exact Or.inl ⟨Nat.lt_succ_self k, rfl⟩
    · rw [if_neg hc]
      apply ih
      · intro w hw
        rcases Nat.lt_succ_iff_lt_or_eq.mp hw with h1 | h1
        · exact hA w h1
        · rw [h1]; omega
      · exact hB
      · rcases hC with ⟨h1, h2⟩ | ⟨h1, h2, h3⟩
        · exact Or.inl ⟨by omega, h2⟩
        · subst h1 h2 h3
          exact Or.inl ⟨by omega, by omega⟩

/-- The outcome of the whole scan from the initial `(0, 0)`. -/
theorem victimLoop_argmax (tl ti : Nat → Nat) (n : Nat) :
    (∀ w, w < n → max (tl w) (ti w) ≤ (victimLoop tl ti n 0 (0, 0)).2) ∧
    (∀ w, w < (victimLoop tl ti n 0 (0, 0)).1 →
      max (tl w) (ti w) < (victimLoop tl ti n 0 (0, 0)).2) ∧
    (((victimLoop tl ti n 0 (0, 0)).1 < n ∧
        max (tl (victimLoop tl ti n 0 (0, 0)).1) (ti (victimLoop tl ti n 0 (0, 0)).1) =
          (victimLoop tl ti n 0 (0, 0)).2) ∨
      (n = 0 ∧ (victimLoop tl ti n 0 (0, 0)).1 = 0 ∧ (victimLoop tl ti n 0 (0, 0)).2 = 0)) := by
  have := victimLoop_inv tl ti n 0 0 0 (fun w hw => absurd hw (Nat.not_lt_zero w))
    (fun w hw => absurd hw (Nat.not_lt_zero w)) (Or.inr ⟨rfl, rfl, rfl⟩)
  rw [Nat.zero_add] at this
  exact this

end Gem5
namespace Gem5

theorem u32_idem (x : Nat) : u32 (u32 x) = u32 x := by
  unfold u32
  exact Nat.mod_mod _ _

theorem u32_lt (x : Nat) : u32 x < 4294967296 := by
  unfold u32
  exact Nat.mod_lt _ (by decide)

end Gem5
namespace Gem5
namespace IbRDP

/-- The state returned by `UpdateIBRDP`, in terms of the state left by
`UpdateOnEveryAccess`. -/
theorem UpdateIBRDP_eq (h : Header) (s : IbRDP) (setIndex way PC : Nat) (hit : Bool)
    (s1 : IbRDP)
    (h1 : s.UpdateOnEveryAccess h (s.myAddress h setIndex way) (myPC h PC) = some s1) :
    s.UpdateIBRDP h setIndex way PC hit =
      some { s1 with
        predictor := (s1.predictor.Lookup h (myPC h PC)).2
        blks := setAt s1.blks setIndex
          (setAt (s1.blks setIndex) way
            { s1.blks setIndex way with
              timestamp := s1.accessesCounterHigh
              prediction := (s1.predictor.Lookup h (myPC h PC)).1 }) } := by
  unfold UpdateIBRDP
  rw [h1]

theorem UpdateIBRDP_none (h : Header) (s : IbRDP) (setIndex way PC : Nat) (hit : Bool)
    (h1 : s.UpdateOnEveryAccess h (s.myAddress h setIndex way) (myPC h PC) = none) :
    s.UpdateIBRDP h setIndex way PC hit = none := by
  unfold UpdateIBRDP
  rw [h1]

/-- `UpdateOnEveryAccess` does not touch the blocks. -/
theorem UpdateOnEveryAccess_blks (h : Header) (s : IbRDP) (address PC : Nat) (s1 : IbRDP)
    (h1 : s.UpdateOnEveryAccess h address PC = some s1) :
    s1.blks = s.blks ∧ s1.assoc = s.assoc ∧ s1.setShift = s.setShift ∧
      s1.accessesCounterLow = (advanceCounter h s.accessesCounterLow s.accessesCounterHigh).1 ∧
      s1.accessesCounterHigh = (advanceCounter h s.accessesCounterLow s.accessesCounterHigh).2 := by
  unfold UpdateOnEveryAccess at h1
  cases hU : s.rdsampler.Update h address PC with
  | none => rw [hU] at h1; exact absurd h1 (by simp)
  | some r =>
    obtain ⟨S1, calls⟩ := r
    rw [hU] at h1
    simp only at h1
    cases hA : applyCalls h s.predictor calls with
    | none => rw [hA] at h1; exact absurd h1 (by simp)
    | some P1 =>
      rw [hA] at h1
      simp only [Option.some.injEq] at h1
      subst h1
      exact ⟨rfl, rfl, rfl, rfl, rfl⟩

/-- A block that has just been stamped and whose prediction un-quantizes to
zero has no time left and no idle time. -/
theorem fresh_block_times (h : Header) (s : IbRDP) (blk : CacheBlk)
    (hts : blk.timestamp = s.accessesCounterHigh) (hp : linePrediction h blk = 0) :
    s.time_left h blk = 0 ∧ s.time_idle h blk = 0 := by
  have hnow : s.now h blk = lineTime h blk := by
    unfold now lineTime
    rw [if_neg (by omega), hts]
  constructor
  · unfold time_left
    rw [hp, hnow, Nat.add_zero]
    have : u32 (lineTime h blk) = lineTime h blk := by
      unfold lineTime
      exact u32_idem _
    rw [this, if_neg (lt_irrefl _)]
  · unfold time_idle sub32
    rw [hnow, if_pos (le_refl _), Nat.sub_self]
    rfl

end IbRDP
end Gem5
namespace Gem5

/-- The four fills of the sample cache run to completion, and `sampleFilled` is
the state they leave. -/
theorem sampleFilled_eq :
    IbRDP.run sampleHeader sampleCache
      [(0, 0, 100, false), (0, 1, 101, false), (0, 2, 102, false), (0, 3, 103, false)]
      = some sampleFilled := rfl

theorem sampleFilled_blocks :
    (List.range 4).map (fun way => sampleFilled.blks 0 way) =
      [{ tag := 0, timestamp := 1, prediction := 0 }, { tag := 1, timestamp := 1, prediction := 0 },
        { tag := 2, timestamp := 1, prediction := 0 }, { tag := 3, timestamp := 2, prediction := 0 }] ∧
    sampleFilled.accessesCounterLow = 0 ∧ sampleFilled.accessesCounterHigh = 2 ∧
    sampleFilled.assoc = 4 := by
  decide

end Gem5
namespace Gem5
namespace IbRDP

/-- When the header constants and the metadata of a line fit the 32-bit locals of
`Get_IBRDP_Victim`, the locals `now`, `time_left` and `time_idle` are the values
of the description in exact arithmetic. -/
theorem times_eq_spec (h : Header) (s : IbRDP) (blk : CacheBlk)
    (hmono : ∀ a b, a ≤ b → h.UnQuantizeTimestamp a ≤ h.UnQuantizeTimestamp b)
    (hfit : h.MAX_VALUE_TIMESTAMP + h.MAX_VALUE_TIMESTAMP + 1 < 4294967296)
    (hrange : h.UnQuantizeTimestamp (h.MAX_VALUE_TIMESTAMP + h.MAX_VALUE_TIMESTAMP + 1)
      < 4294967296)
    (hch : s.accessesCounterHigh ≤ h.MAX_VALUE_TIMESTAMP)
    (hts : blk.timestamp ≤ h.MAX_VALUE_TIMESTAMP)
    (hsum : h.UnQuantizeTimestamp blk.timestamp + h.UnQuantizePrediction blk.prediction
      < 4294967296) :
    h.UnQuantizeTimestamp blk.timestamp ≤ specNow h s.accessesCounterHigh blk ∧
    s.now h blk = specNow h s.accessesCounterHigh blk ∧
    s.time_left h blk = specTimeLeft h s.accessesCounterHigh blk ∧
    s.time_idle h blk = specTimeIdle h s.accessesCounterHigh blk := by
  have hu : ∀ x, x ≤ h.MAX_VALUE_TIMESTAMP + h.MAX_VALUE_TIMESTAMP + 1 →
      u32 (h.UnQuantizeTimestamp x) = h.UnQuantizeTimestamp x := by
    intro x hx
    exact Nat.mod_eq_of_lt (lt_of_le_of_lt (hmono x _ hx) hrange)
  have hline : lineTime h blk = h.UnQuantizeTimestamp blk.timestamp := by
    unfold lineTime
    exact hu _ (by omega)
  have hpred : linePrediction h blk = h.UnQuantizePrediction blk.prediction := by
    unfold linePrediction
    exact Nat.mod_eq_of_lt (by omega)
  have hnow : s.now h blk = specNow h s.accessesCounterHigh blk := by
    unfold now specNow
    by_cases hgt : blk.timestamp > s.accessesCounterHigh
    · rw [if_pos hgt, if_pos hgt]
      have : u32 (s.accessesCounterHigh + h.MAX_VALUE_TIMESTAMP + 1) =
          s.accessesCounterHigh + h.MAX_VALUE_TIMESTAMP + 1 := Nat.mod_eq_of_lt (by omega)
      rw [this]
      exact hu _ (by omega)
    · rw [if_neg hgt, if_neg hgt]
      exact hu _ (by omega)
  have hle : h.UnQuantizeTimestamp blk.timestamp ≤ specNow h s.accessesCounterHigh blk := by
    unfold specNow
    by_cases hgt : blk.timestamp > s.accessesCounterHigh
    · rw [if_pos hgt]
      exact hmono _ _ (by omega)
    · rw [if_neg hgt]
      exact hmono _ _ (by omega)
  have hnlt : s.now h blk < 4294967296 := by
    unfold now
    split <;> exact u32_lt _
  refine ⟨hle, hnow, ?_, ?_⟩
  · unfold time_left specTimeLeft
    rw [hline, hpred, hnow]
    have hs : u32 (h.UnQuantizeTimestamp blk.timestamp + h.UnQuantizePrediction blk.prediction) =
        h.UnQuantizeTimestamp blk.timestamp + h.UnQuantizePrediction blk.prediction :=
      Nat.mod_eq_of_lt hsum
    rw [hs]
    split
    · rfl
    · omega
  · unfold time_idle specTimeIdle sub32
    rw [hline, hnow]
    rw [hnow] at hnlt
    rw [if_pos hle]
    exact Nat.mod_eq_of_lt (by omega)

end IbRDP
end Gem5
namespace Gem5

theorem advanceCounter_eq (h : Header) (low high : Nat) (hq : h.QUANTUM_TIMESTAMP < 4294967296)
    (hm : h.MAX_VALUE_TIMESTAMP < 4294967296) (hlow : low < h.QUANTUM_TIMESTAMP)
    (hhigh : high ≤ h.MAX_VALUE_TIMESTAMP) :
    advanceCounter h low high =
      if low + 1 < h.QUANTUM_TIMESTAMP then (low + 1, high)
      else (0, (high + 1) % (h.MAX_VALUE_TIMESTAMP + 1)) := by
  unfold advanceCounter
  have hl : incr low = low + 1 := incr_eq _ (by omega)
  rw [hl]
  by_cases hc : low + 1 < h.QUANTUM_TIMESTAMP
  · rw [if_neg (by omega), if_pos hc]
  · rw [if_pos (by omega), if_neg hc]
    by_cases hh : high < h.MAX_VALUE_TIMESTAMP
    · have : incr high = high + 1 := incr_eq _ (by omega)
      rw [this, if_neg (by omega), Nat.mod_eq_of_lt (by omega)]
    · have he : high = h.MAX_VALUE_TIMESTAMP := by omega
      rw [he, Nat.mod_self]
      by_cases hw : h.MAX_VALUE_TIMESTAMP + 1 < 4294967296
      · have : incr h.MAX_VALUE_TIMESTAMP = h.MAX_VALUE_TIMESTAMP + 1 := incr_eq _ hw
        rw [this, if_pos (by omega)]
      · have h2 : h.MAX_VALUE_TIMESTAMP + 1 = 4294967296 := by omega
        have : incr h.MAX_VALUE_TIMESTAMP = 0 := by
          unfold incr u32
          rw [h2]
        rw [this, if_neg (by omega)]

theorem applyCalls_WF (h : Header) (calls : List SamplerCall) (P : IBRDPredictor)
    (hP : P.WF h) (P1 : IBRDPredictor) (hr : applyCalls h P calls = some P1) :
    P1.WF h ∧ P1.assoc = P.assoc := by
  induction calls generalizing P with
  | nil =>
    simp only [applyCalls, Option.some.injEq] at hr
    subst hr
    exact ⟨hP, rfl⟩
  | cons c cs ih =>
    simp only [applyCalls] at hr
    cases hc : P.Update h c.pc c.observation with
    | none => rw [hc] at hr; exact absurd hr (by simp)
    | some P2 =>
      rw [hc] at hr
      obtain ⟨hP2, ha2⟩ := IBRDPredictor.Update_WF h P hP _ _ P2 hc
      obtain ⟨hP1, ha1⟩ := ih P2 hP2 hr
      exact ⟨hP1, by rw [ha1, ha2]⟩

theorem applyCalls_isSome (h : Header) (calls : List SamplerCall) (P : IBRDPredictor)
    (hP : P.WF h) (h1 : 1 ≤ P.assoc) : ∃ P1, applyCalls h P calls = some P1 := by
  induction calls generalizing P with
  | nil => exact ⟨P, rfl⟩
  | cons c cs ih =>
    obtain ⟨P2, hc⟩ := IBRDPredictor.Update_isSome h P hP h1 c.pc c.observation
    obtain ⟨hP2, ha2⟩ := IBRDPredictor.Update_WF h P hP _ _ P2 hc
    obtain ⟨P1, hr⟩ := ih P2 hP2 (by rw [ha2]; exact h1)
    exact ⟨P1, by simp only [applyCalls, hc]; exact hr⟩

namespace IbRDP

/-- The parts of the state returned by `UpdateOnEveryAccess`. -/
theorem UpdateOnEveryAccess_parts (h : Header) (s : IbRDP) (address PC : Nat) (s1 : IbRDP)
    (h1 : s.UpdateOnEveryAccess h address PC = some s1) :
    ∃ calls, s.rdsampler.Update h address PC = some (s1.rdsampler, calls) ∧
      applyCalls h s.predictor calls = some s1.predictor := by
  unfold UpdateOnEveryAccess at h1
  cases hU : s.rdsampler.Update h address PC with
  | none => rw [hU] at h1; exact absurd h1 (by simp)
  | some r =>
    obtain ⟨S1, calls⟩ := r
    rw [hU] at h1
    simp only at h1
    cases hA : applyCalls h s.predictor calls with
    | none => rw [hA] at h1; exact absurd h1 (by simp)
    | some P1 =>
      rw [hA] at h1
      simp only [Option.some.injEq] at h1
      subst h1
      exact ⟨calls, rfl, hA⟩

theorem UpdateOnEveryAccess_isSome (h : Header) (s : IbRDP) (hS : s.rdsampler.WF)
    (hP : s.predictor.WF h) (hw : 1 ≤ s.predictor.assoc) (address PC : Nat) :
    ∃ s1, s.UpdateOnEveryAccess h address PC = some s1 := by
  obtain ⟨r, hU⟩ := RDSampler.sampler_Update_isSome h s.rdsampler hS address PC
  obtain ⟨S1, calls⟩ := r
  obtain ⟨P1, hA⟩ := applyCalls_isSome h calls s.predictor hP hw
  unfold UpdateOnEveryAccess
  rw [hU]
  simp only
  rw [hA]
  exact ⟨_, rfl⟩

theorem UpdateIBRDP_WF (h : Header) (hq : h.QUANTUM_TIMESTAMP < 4294967296)
    (hm : h.MAX_VALUE_TIMESTAMP < 4294967296) (s : IbRDP) (hs : s.WF h)
    (setIndex way PC : Nat) (hit : Bool) :
    ∃ s1, s.UpdateIBRDP h setIndex way PC hit = some s1 ∧ s1.WF h := by
  obtain ⟨s0, h0⟩ := UpdateOnEveryAccess_isSome h s hs.sampler hs.predictor hs.ways
    (s.myAddress h setIndex way) (myPC h PC)
  obtain ⟨calls, hU, hA⟩ := UpdateOnEveryAccess_parts h s _ _ s0 h0
  obtain ⟨_, _, _, hlow, hhigh⟩ := UpdateOnEveryAccess_blks h s _ _ s0 h0
  obtain ⟨hSW, _, _⟩ := RDSampler.sampler_Update_WF h s.rdsampler hs.sampler _ _ _ hU
  obtain ⟨hPW, hass⟩ := applyCalls_WF h calls s.predictor hs.predictor _ hA
  have hadv := advanceCounter_eq h s.accessesCounterLow s.accessesCounterHigh hq hm
    hs.low hs.high
  have hl := hs.low
  have hh := hs.high
  refine ⟨_, UpdateIBRDP_eq h s setIndex way PC hit s0 h0, ⟨hSW, ?_, ?_, ?_, ?_⟩⟩
  · show ((s0.predictor.Lookup h (myPC h PC)).2).WF h
    rw [IBRDPredictor.Lookup_snd]
    exact IBRDPredictor.FindEntry_WF h _ hPW _
  · show 1 ≤ ((s0.predictor.Lookup h (myPC h PC)).2).assoc
    rw [IBRDPredictor.Lookup_snd, IBRDPredictor.FindEntry_assoc, hass]
    exact hs.ways
  · show s0.accessesCounterLow < h.QUANTUM_TIMESTAMP
    rw [hlow, hadv]
    split <;> simp only <;> omega
  · show s0.accessesCounterHigh ≤ h.MAX_VALUE_TIMESTAMP
    rw [hhigh, hadv]
    split
    · exact hh
    · exact Nat.le_of_lt_succ (Nat.mod_lt _ (Nat.succ_pos _))

theorem run_policy_WF (h : Header) (hq : h.QUANTUM_TIMESTAMP < 4294967296)
    (hm : h.MAX_VALUE_TIMESTAMP < 4294967296) (accesses : List (Nat × Nat × Nat × Bool))
    (s : IbRDP) (hs : s.WF h) : ∃ s1, run h s accesses = some s1 ∧ s1.WF h := by
  induction accesses generalizing s with
  | nil => exact ⟨s, rfl, hs⟩
  | cons a rest ih =>
    obtain ⟨setIndex, way, PC, hit⟩ := a
    obtain ⟨s0, h0, hW0⟩ := UpdateIBRDP_WF h hq hm s hs setIndex way PC hit
    obtain ⟨s1, h1, hW1⟩ := ih s0 hW0
    exact ⟨s1, by simp only [run, h0]; exact h1, hW1⟩

end IbRDP
end Gem5
namespace Gem5

/-- C5 (stack-position permutation). Starting from the state built by the
constructor (with `assoc` a `uint32_t` value), every finite sequence of `Lookup`
and `Update` calls runs to completion when there is at least one way, and in
every state so reached the stack positions of the `assoc` ways of every set are
a rearrangement of `0, 1, ..., assoc - 1`. -/
theorem stack_positions_are_permutation (h : Header) (numsets assoc : Nat)
    (hassoc : assoc < 4294967296) (calls : List PredictorCall) :
    (1 ≤ assoc → ∃ P, IBRDPredictor.run h (IBRDPredictor.new numsets assoc) calls = some P) ∧
    ∀ P, IBRDPredictor.run h (IBRDPredictor.new numsets assoc) calls = some P →
      ∀ set, set < numsets →
        List.Perm ((List.range assoc).map (fun way => (P.predictor set way).StackPosition))
          (List.range assoc) := by
  have hnew := IBRDPredictor.new_WF h numsets assoc hassoc
  refine ⟨fun h1 => IBRDPredictor.run_isSome h calls _ hnew h1, ?_⟩
  intro P hrun set _
  obtain ⟨hP, ha⟩ := IBRDPredictor.run_WF h calls _ hnew P hrun
  have hs := hP.stack set
  rw [ha] at hs
  exact perm_range_of_injOn assoc _ hs.1 hs.2

theorem stack_positions_are_permutation_witness :
    ∃ P, IBRDPredictor.run sampleHeader (IBRDPredictor.new 4 2)
        [PredictorCall.Update 5 3, PredictorCall.Update 9 1, PredictorCall.Lookup 5,
          PredictorCall.Update 13 2] = some P ∧
      ∀ set, set < 4 →
        List.Perm ((List.range 2).map (fun way => (P.predictor set way).StackPosition))
          (List.range 2) := by
  have key := stack_positions_are_permutation sampleHeader 4 2 (by decide)
    [PredictorCall.Update 5 3, PredictorCall.Update 9 1, PredictorCall.Lookup 5,
      PredictorCall.Update 13 2]
  obtain ⟨P, hP⟩ := key.1 (by decide)
  exact ⟨P, hP, key.2 P hP⟩

/-- C9 (confidence saturation). Starting from the state built by the
constructor, every finite sequence of `Lookup` and `Update` calls runs to
completion when there is at least one way, and in every state so reached every
entry has a confidence of at most `MAX_CONFIDENCE`; the counters are natural
numbers and the decrement is the 32-bit one, so a wrap below zero would show
as a value above the bound. -/
theorem confidence_stays_in_range (h : Header) (numsets assoc : Nat)
    (hassoc : assoc < 4294967296) (calls : List PredictorCall) :
    (1 ≤ assoc → ∃ P, IBRDPredictor.run h (IBRDPredictor.new numsets assoc) calls = some P) ∧
    ∀ P, IBRDPredictor.run h (IBRDPredictor.new numsets assoc) calls = some P →
      ∀ set way, set < numsets → way < assoc →
        0 ≤ (P.predictor set way).confidence ∧
          (P.predictor set way).confidence ≤ h.MAX_CONFIDENCE := by
  have hnew := IBRDPredictor.new_WF h numsets assoc hassoc
  refine ⟨fun h1 => IBRDPredictor.run_isSome h calls _ hnew h1, ?_⟩
  intro P hrun set way _ _
  obtain ⟨hP, _⟩ := IBRDPredictor.run_WF h calls _ hnew P hrun
  exact ⟨Nat.zero_le _, hP.conf set way⟩

theorem confidence_stays_in_range_witness :
    ∃ P, IBRDPredictor.run sampleHeader (IBRDPredictor.new 4 2)
        [PredictorCall.Update 5 3, PredictorCall.Update 5 3, PredictorCall.Update 5 3,
          PredictorCall.Update 5 3, PredictorCall.Update 5 3, PredictorCall.Update 5 1] = some P ∧
      ∀ set way, set < 4 → way < 2 →
        0 ≤ (P.predictor set way).confidence ∧ (P.predictor set way).confidence ≤ 3 := by
  have key := confidence_stays_in_range sampleHeader 4 2 (by decide)
    [PredictorCall.Update 5 3, PredictorCall.Update 5 3, PredictorCall.Update 5 3,
      PredictorCall.Update 5 3, PredictorCall.Update 5 3, PredictorCall.Update 5 1]
  obtain ⟨P, hP⟩ := key.1 (by decide)
  exact ⟨P, hP, key.2 P hP⟩

end Gem5
namespace Gem5

/-- C4 (training of an existing entry). In a predictor state in which
`FindEntry(pc)` matches an entry with prediction `p` and confidence `c`, where
`c` is in the range `[0, MAX_CONFIDENCE]` of the counter, `Update(pc, obs)`
returns and leaves that entry with `(p, min (c + 1) MAX_CONFIDENCE)` when
`obs = p`, with `(obs, 0)` when `obs ≠ p` and `c = 0`, and with `(p, c - 1)` when
`obs ≠ p` and `c > 0`; the prediction and the confidence of every other entry
are as before. -/
theorem update_trains_matched_entry (h : Header) (P : IBRDPredictor) (pc obs : Nat)
    (hmax : h.MAX_CONFIDENCE < 4294967296)
    (hhit : (P.FindEntry pc).1 ≠ P.assoc)
    (hconf : (P.predictor (pc &&& P.set_mask) (P.FindEntry pc).1).confidence
      ≤ h.MAX_CONFIDENCE) :
    ∃ P1, P.Update h pc obs = some P1 ∧
      (obs = (P.predictor (pc &&& P.set_mask) (P.FindEntry pc).1).prediction →
        (P1.predictor (pc &&& P.set_mask) (P.FindEntry pc).1).prediction =
            (P.predictor (pc &&& P.set_mask) (P.FindEntry pc).1).prediction ∧
          (P1.predictor (pc &&& P.set_mask) (P.FindEntry pc).1).confidence =
            min ((P.predictor (pc &&& P.set_mask) (P.FindEntry pc).1).confidence + 1)
              h.MAX_CONFIDENCE) ∧
      (obs ≠ (P.predictor (pc &&& P.set_mask) (P.FindEntry pc).1).prediction →
        (P.predictor (pc &&& P.set_mask) (P.FindEntry pc).1).confidence = 0 →
        (P1.predictor (pc &&& P.set_mask) (P.FindEntry pc).1).prediction = obs ∧
          (P1.predictor (pc &&& P.set_mask) (P.FindEntry pc).1).confidence = 0) ∧
      (obs ≠ (P.predictor (pc &&& P.set_mask) (P.FindEntry pc).1).prediction →
        0 < (P.predictor (pc &&& P.set_mask) (P.FindEntry pc).1).confidence →
        (P1.predictor (pc &&& P.set_mask) (P.FindEntry pc).1).prediction =
            (P.predictor (pc &&& P.set_mask) (P.FindEntry pc).1).prediction ∧
          (P1.predictor (pc &&& P.set_mask) (P.FindEntry pc).1).confidence =
            (P.predictor (pc &&& P.set_mask) (P.FindEntry pc).1).confidence - 1) ∧
      ∀ set way, ¬ (set = pc &&& P.set_mask ∧ way = (P.FindEntry pc).1) →
        (P1.predictor set way).prediction = (P.predictor set way).prediction ∧
          (P1.predictor set way).confidence = (P.predictor set way).confidence := by
  obtain ⟨P1, hU, _, hent⟩ := IBRDPredictor.Update_hit h P pc obs hhit
  have hF := IBRDPredictor.FindEntry_entry P pc (pc &&& P.set_mask) (P.FindEntry pc).1
  have hp : ((P.FindEntry pc).2.predictor (pc &&& P.set_mask) (P.FindEntry pc).1).prediction =
      (P.predictor (pc &&& P.set_mask) (P.FindEntry pc).1).prediction := by rw [hF]
  have hc : ((P.FindEntry pc).2.predictor (pc &&& P.set_mask) (P.FindEntry pc).1).confidence =
      (P.predictor (pc &&& P.set_mask) (P.FindEntry pc).1).confidence := by rw [hF]
  have hme := hent (pc &&& P.set_mask) (P.FindEntry pc).1
  rw [if_pos ⟨rfl, rfl⟩] at hme
  have hsp := IBRDPredictor.trained_spec h
    ((P.FindEntry pc).2.predictor (pc &&& P.set_mask) (P.FindEntry pc).1) obs hmax
    (by rw [hc]; exact hconf)
  rw [← hme, hp, hc] at hsp
  refine ⟨P1, hU, hsp.1, hsp.2.1, hsp.2.2, ?_⟩
  intro set way hne
  rw [hent set way, if_neg hne, IBRDPredictor.FindEntry_entry P pc set way]
  exact ⟨rfl, rfl⟩

theorem update_trains_matched_entry_witness :
    ∃ P1, samplePredictor.Update sampleHeader 5 3 = some P1 ∧
      (P1.predictor 1 1).prediction = 3 ∧ (P1.predictor 1 1).confidence = 3 := by
  obtain ⟨P1, hU, h1, _⟩ := update_trains_matched_entry sampleHeader samplePredictor 5 3
    (by decide) (by decide) (by decide)
  exact ⟨P1, hU, h1 (by decide)⟩


end Gem5
namespace Gem5

/-- C6 (FIFO-position permutation). For a sampler built by the constructor
with `period ≥ 1`, `size = _max_rd / _period ≥ 1` and a 32-bit `_max_rd`, every
finite sequence of `Update(address, pc)` calls runs to completion, and in the
state it reaches the FIFO positions of the `size` entries, valid or not, are a
rearrangement of `0, 1, ..., size - 1`. -/
theorem fifo_positions_are_permutation (h : Header) (period max_rd : Nat)
    (mem : Nat → RDSamplerEntry) (hp : 1 ≤ period) (hsize : 1 ≤ max_rd / period)
    (hm : max_rd < 4294967296) (accesses : List (Nat × Nat)) :
    ∃ S calls, RDSampler.run h (RDSampler.new period max_rd mem) accesses = some (S, calls) ∧
      S.size = max_rd / period ∧
      List.Perm ((List.range S.size).map (fun i => (S.sampler i).FifoPosition))
        (List.range S.size) := by
  have hnew := RDSampler.sampler_new_WF period max_rd mem hp
    ((Nat.one_le_div_iff (by omega)).mp hsize) hm
  obtain ⟨r, hr⟩ := RDSampler.sampler_run_isSome h accesses _ hnew
  obtain ⟨hW, hs, _⟩ := RDSampler.sampler_run_WF h accesses _ hnew r hr
  exact ⟨r.1, r.2, hr, hs, perm_range_of_injOn _ _ hW.fifo.1 hW.fifo.2⟩

theorem fifo_positions_are_permutation_witness :
    ∃ S calls, RDSampler.run sampleHeader (RDSampler.new 2 6 sampleMemory)
        [(10, 1), (11, 2), (12, 3), (10, 4), (13, 5)] = some (S, calls) ∧
      S.size = 6 / 2 ∧
      List.Perm ((List.range S.size).map (fun i => (S.sampler i).FifoPosition))
        (List.range S.size) :=
  fifo_positions_are_permutation sampleHeader 2 6 sampleMemory (by decide) (by decide)
    (by decide) [(10, 1), (11, 2), (12, 3), (10, 4), (13, 5)]

end Gem5
namespace Gem5

/-- C7 (sampler match correctness). Let `S0` be a sampler state reached from
the constructor in which the countdown is zero, so that `Update(A, pc1)` takes a
new sample; it is stored in the entry `S0.oldestIndex`. If the next `k - 1`
updates (the list `mid`) have addresses other than `A` and `1 ≤ k ≤ size * period`,
then the `k`-th later update `Update(A, pc2)` returns, and in its match phase it
makes exactly one predictor call, `Update(pc1, QuantizePrediction(period *
((k - 1) / period)))`, read from that entry, and clears the `valid` field of the
entry. Every further call of that update (the sample phase may report another,
expired entry) comes from another entry, and the entry is still invalid when
the update returns unless `k = size * period`, in which case the sample phase of
the same update refills it. -/
theorem sampler_match_observation (h : Header) (period max_rd : Nat)
    (mem : Nat → RDSamplerEntry) (hp : 1 ≤ period) (hsize : 1 ≤ max_rd / period)
    (hm : max_rd < 4294967296) (pre mid : List (Nat × Nat)) (A pc1 pc2 : Nat)
    (S0 : RDSampler) (calls0 : List SamplerCall)
    (hpre : RDSampler.run h (RDSampler.new period max_rd mem) pre = some (S0, calls0))
    (hctr : S0.sampling_counter = 0)
    (hmid : ∀ x ∈ mid, x.1 ≠ A)
    (hk : mid.length + 1 ≤ max_rd / period * period) :
    ∃ S1 calls1 S2 calls2 S3 rest,
      S0.Update h A pc1 = some (S1, calls1) ∧
      RDSampler.run h S1 mid = some (S2, calls2) ∧
      S2.Update h A pc2 =
        some (S3, { slot := S0.oldestIndex, pc := pc1
                    observation :=
                      h.QuantizePrediction (period * ((mid.length + 1 - 1) / period)) } :: rest) ∧
      (RDSampler.matchPhase h S2 A).2 =
        [{ slot := S0.oldestIndex, pc := pc1
           observation := h.QuantizePrediction (period * ((mid.length + 1 - 1) / period)) }] ∧
      ((RDSampler.matchPhase h S2 A).1.sampler S0.oldestIndex).valid = 0 ∧
      (∀ x ∈ rest, x.slot ≠ S0.oldestIndex) ∧
      (mid.length + 1 < max_rd / period * period → (S3.sampler S0.oldestIndex).valid = 0) := by
  have hnew := RDSampler.sampler_new_WF period max_rd mem hp
    ((Nat.one_le_div_iff (by omega)).mp hsize) hm
  obtain ⟨hW0, hs0, hp0⟩ := RDSampler.sampler_run_WF h pre _ hnew _ hpre
  change S0.size = max_rd / period at hs0
  change S0.period = period at hp0
  obtain ⟨S1, c1, hU1, hT1, hs1, hp1⟩ := RDSampler.Tracked.init h S0 hW0 A pc1 hctr
  obtain ⟨S2, c2, hR, hT2, hs2, hp2, _⟩ :=
    hT1.run h mid hmid (by rw [hs1, hp1, hs0, hp0]; omega)
  have hsz : S2.size = max_rd / period := by rw [hs2, hs1, hs0]
  have hpe : S2.period = period := by rw [hp2, hp1, hp0]
  rw [Nat.zero_add] at hT2
  have hlt : mid.length < S2.size * S2.period := by rw [hsz, hpe]; omega
  obtain ⟨S3, rest, hU3, hrest, hval⟩ := hT2.hit h pc2 hlt
  obtain ⟨hcalls, hinv⟩ := hT2.match_hit h hlt
  rw [hpe] at hU3 hcalls
  rw [hsz, hpe] at hval
  rw [Nat.add_sub_cancel]
  exact ⟨S1, c1, S2, c2, S3, rest, hU1, hR, hU3, hcalls, hinv, hrest, hval⟩

theorem sampler_match_observation_witness :
    ∃ S1 calls1 S2 calls2 S3 rest,
      (RDSampler.new 2 6 sampleMemory).Update sampleHeader 10 1 = some (S1, calls1) ∧
      RDSampler.run sampleHeader S1 [(11, 2), (12, 3), (13, 4)] = some (S2, calls2) ∧
      S2.Update sampleHeader 10 5 =
        some (S3, { slot := (RDSampler.new 2 6 sampleMemory).oldestIndex, pc := 1
                    observation := sampleHeader.QuantizePrediction (2 * ((3 + 1 - 1) / 2)) }
                  :: rest) := by
  obtain ⟨S1, c1, S2, c2, S3, rest, h1, h2, h3, _⟩ :=
    sampler_match_observation sampleHeader 2 6 sampleMemory (by decide) (by decide) (by decide)
      [] [(11, 2), (12, 3), (13, 4)] 10 1 5 (RDSampler.new 2 6 sampleMemory) [] rfl rfl
      (by decide) (by decide)
  exact ⟨S1, c1, S2, c2, S3, rest, h1, h2, h3⟩

/-- C8 (censored observation). Let `S0` be a sampler state reached from the
constructor in which the countdown is zero, so that `Update(A, pc1)` takes a new
sample, stored in the entry `S0.oldestIndex`. If none of the following
`size * period` updates (the list `mid` followed by `last`) has address `A`, then
all of them return, the first `size * period - 1` make no predictor call from
that entry, and the last one makes exactly one: after the calls of its match
phase, which come from other entries, its sample phase calls
`Update(pc1, MAX_VALUE_PREDICTION)` and then overwrites the entry with the new
sample. -/
theorem censored_observation (h : Header) (period max_rd : Nat)
    (mem : Nat → RDSamplerEntry) (hp : 1 ≤ period) (hsize : 1 ≤ max_rd / period)
    (hm : max_rd < 4294967296) (pre mid : List (Nat × Nat)) (last : Nat × Nat)
    (A pc1 : Nat) (S0 : RDSampler) (calls0 : List SamplerCall)
    (hpre : RDSampler.run h (RDSampler.new period max_rd mem) pre = some (S0, calls0))
    (hctr : S0.sampling_counter = 0)
    (hmid : ∀ x ∈ mid, x.1 ≠ A) (hlast : last.1 ≠ A)
    (hlen : mid.length + 1 = max_rd / period * period) :
    ∃ S1 calls1 S2 calls2 S3,
      S0.Update h A pc1 = some (S1, calls1) ∧
      RDSampler.run h S1 mid = some (S2, calls2) ∧
      (∀ x ∈ calls2, x.slot ≠ S0.oldestIndex) ∧
      S2.Update h last.1 last.2 =
        some (S3, (RDSampler.matchPhase h S2 last.1).2 ++
          [{ slot := S0.oldestIndex, pc := pc1, observation := h.MAX_VALUE_PREDICTION }]) ∧
      (∀ x ∈ (RDSampler.matchPhase h S2 last.1).2, x.slot ≠ S0.oldestIndex) ∧
      S3.sampler S0.oldestIndex =
        { valid := 1, FifoPosition := 0, pc := last.2, address := last.1 } := by
  have hnew := RDSampler.sampler_new_WF period max_rd mem hp
    ((Nat.one_le_div_iff (by omega)).mp hsize) hm
  obtain ⟨hW0, hs0, hp0⟩ := RDSampler.sampler_run_WF h pre _ hnew _ hpre
  change S0.size = max_rd / period at hs0
  change S0.period = period at hp0
  obtain ⟨S1, c1, hU1, hT1, hs1, hp1⟩ := RDSampler.Tracked.init h S0 hW0 A pc1 hctr
  obtain ⟨S2, c2, hR, hT2, hs2, hp2, hc2⟩ :=
    hT1.run h mid hmid (by rw [hs1, hp1, hs0, hp0]; omega)
  have hsz : S2.size = max_rd / period := by rw [hs2, hs1, hs0]
  have hpe : S2.period = period := by rw [hp2, hp1, hp0]
  rw [Nat.zero_add] at hT2
  obtain ⟨S3, hU3, hm3, hent⟩ :=
    hT2.censored h last.1 last.2 hlast (by rw [hsz, hpe]; exact hlen)
  exact ⟨S1, c1, S2, c2, S3, hU1, hR, hc2, hU3, hm3, hent⟩

theorem censored_observation_witness :
    ∃ S1 calls1 S2 calls2 S3,
      (RDSampler.new 2 6 sampleMemory).Update sampleHeader 10 1 = some (S1, calls1) ∧
      RDSampler.run sampleHeader S1 [(11, 2), (12, 3), (13, 4), (14, 5), (15, 6)]
        = some (S2, calls2) ∧
      S2.Update sampleHeader 16 7 =
        some (S3, (RDSampler.matchPhase sampleHeader S2 16).2 ++
          [{ slot := (RDSampler.new 2 6 sampleMemory).oldestIndex, pc := 1
             observation := sampleHeader.MAX_VALUE_PREDICTION }]) := by
  obtain ⟨S1, c1, S2, c2, S3, h1, h2, _, h3, _⟩ :=
    censored_observation sampleHeader 2 6 sampleMemory (by decide) (by decide) (by decide)
      [] [(11, 2), (12, 3), (13, 4), (14, 5), (15, 6)] (16, 7) 10 1
      (RDSampler.new 2 6 sampleMemory) [] rfl rfl (by decide) (by decide) (by decide)
  exact ⟨S1, c1, S2, c2, S3, h1, h2, h3⟩

end Gem5
namespace Gem5

/-- C17 (the search for the oldest sampler entry succeeds). For a sampler built
by the constructor with `period ≥ 1` and `size ≥ 1`, in every state reached by
`Update` calls and for every next access, the search for the entry with
`FifoPosition == size - 1` that the sample phase runs (on the state left by the
match phase) stops at an index below `size`, at an entry that has this
position, and the sample phase returns, so all its reads and writes through
`index` are inside the array. -/
theorem oldest_slot_search_succeeds (h : Header) (period max_rd : Nat)
    (mem : Nat → RDSamplerEntry) (hp : 1 ≤ period) (hsize : 1 ≤ max_rd / period)
    (hm : max_rd < 4294967296) (accesses : List (Nat × Nat)) :
    ∃ S calls, RDSampler.run h (RDSampler.new period max_rd mem) accesses = some (S, calls) ∧
      ∀ address pc,
        (RDSampler.matchPhase h S address).1.oldestIndex < S.size ∧
        ((RDSampler.matchPhase h S address).1.sampler
            (RDSampler.matchPhase h S address).1.oldestIndex).FifoPosition = S.size - 1 ∧
        ∃ r, RDSampler.samplePhase h (RDSampler.matchPhase h S address).1 address pc
          = some r := by
  have hnew := RDSampler.sampler_new_WF period max_rd mem hp
    ((Nat.one_le_div_iff (by omega)).mp hsize) hm
  obtain ⟨r, hr⟩ := RDSampler.sampler_run_isSome h accesses _ hnew
  obtain ⟨hW, _, _⟩ := RDSampler.sampler_run_WF h accesses _ hnew r hr
  refine ⟨r.1, r.2, hr, ?_⟩
  intro address pc
  have hMW := RDSampler.matchPhase_WF h r.1 hW address
  have hspec := hMW.oldestIndex_spec
  rw [RDSampler.matchPhase_size] at hspec
  exact ⟨hspec.1, hspec.2, RDSampler.samplePhase_isSome h _ hMW address pc⟩

theorem oldest_slot_search_succeeds_witness :
    ∃ S calls, RDSampler.run sampleHeader (RDSampler.new 2 6 sampleMemory)
        [(10, 1), (11, 2), (12, 3), (10, 4), (13, 5)] = some (S, calls) ∧
      (RDSampler.matchPhase sampleHeader S 14).1.oldestIndex < S.size := by
  obtain ⟨S, calls, hr, hall⟩ := oldest_slot_search_succeeds sampleHeader 2 6 sampleMemory
    (by decide) (by decide) (by decide) [(10, 1), (11, 2), (12, 3), (10, 4), (13, 5)]
  exact ⟨S, calls, hr, (hall 14 6).1⟩

/-- C20 (sampler address uniqueness). For a sampler built by the constructor
with `period ≥ 1` and `size ≥ 1`, every finite sequence of `Update` calls runs
to completion and in the state it reaches no two different valid entries hold
the same address. -/
theorem sampler_addresses_are_unique (h : Header) (period max_rd : Nat)
    (mem : Nat → RDSamplerEntry) (hp : 1 ≤ period) (hsize : 1 ≤ max_rd / period)
    (hm : max_rd < 4294967296) (accesses : List (Nat × Nat)) :
    ∃ S calls, RDSampler.run h (RDSampler.new period max_rd mem) accesses = some (S, calls) ∧
      ∀ i j, i < S.size → j < S.size → (S.sampler i).valid ≠ 0 → (S.sampler j).valid ≠ 0 →
        (S.sampler i).address = (S.sampler j).address → i = j := by
  have hnew := RDSampler.sampler_new_WF period max_rd mem hp
    ((Nat.one_le_div_iff (by omega)).mp hsize) hm
  obtain ⟨r, hr⟩ := RDSampler.sampler_run_isSome h accesses _ hnew
  obtain ⟨hW, _, _⟩ := RDSampler.sampler_run_WF h accesses _ hnew r hr
  exact ⟨r.1, r.2, hr, hW.unique⟩

theorem sampler_addresses_are_unique_witness :
    ∃ S calls, RDSampler.run sampleHeader (RDSampler.new 2 6 sampleMemory)
        [(10, 1), (11, 2), (10, 3), (10, 4), (10, 5)] = some (S, calls) ∧
      ∀ i j, i < S.size → j < S.size → (S.sampler i).valid ≠ 0 → (S.sampler j).valid ≠ 0 →
        (S.sampler i).address = (S.sampler j).address → i = j :=
  sampler_addresses_are_unique sampleHeader 2 6 sampleMemory (by decide) (by decide)
    (by decide) [(10, 1), (11, 2), (10, 3), (10, 4), (10, 5)]

end Gem5
namespace Gem5

/-- C14 (`Lookup` is read-only except for recency). For every predictor state
and every pc, `Lookup(pc)` leaves the `valid`, `tag`, `prediction` and
`confidence` fields of every entry of every set unchanged, leaves the scalar
fields of the predictor unchanged, and changes stack positions only in the set
`pc & set_mask`. -/
theorem lookup_changes_recency_only (h : Header) (P : IBRDPredictor) (pc : Nat) :
    (∀ set way,
      ((P.Lookup h pc).2.predictor set way).valid = (P.predictor set way).valid ∧
      ((P.Lookup h pc).2.predictor set way).tag = (P.predictor set way).tag ∧
      ((P.Lookup h pc).2.predictor set way).prediction = (P.predictor set way).prediction ∧
      ((P.Lookup h pc).2.predictor set way).confidence = (P.predictor set way).confidence) ∧
    (∀ set way, set ≠ pc &&& P.set_mask →
      ((P.Lookup h pc).2.predictor set way).StackPosition =
        (P.predictor set way).StackPosition) ∧
    (P.Lookup h pc).2.assoc = P.assoc ∧ (P.Lookup h pc).2.numsets = P.numsets ∧
    (P.Lookup h pc).2.set_mask = P.set_mask ∧ (P.Lookup h pc).2.set_shift = P.set_shift := by
  rw [IBRDPredictor.Lookup_snd]
  refine ⟨?_, ?_, ?_⟩
  · intro set way
    rw [IBRDPredictor.FindEntry_entry P pc set way]
    exact ⟨rfl, rfl, rfl, rfl⟩
  · intro set way hne
    by_cases hm : (P.FindEntry pc).1 = P.assoc
    · rw [IBRDPredictor.FindEntry_miss P pc hm]
    · rw [IBRDPredictor.FindEntry_hit P pc hm, IBRDPredictor.setRow_other _ _ _ _ hne]
  · by_cases hm : (P.FindEntry pc).1 = P.assoc
    · rw [IBRDPredictor.FindEntry_miss P pc hm]
      exact ⟨rfl, rfl, rfl, rfl⟩
    · rw [IBRDPredictor.FindEntry_hit P pc hm]
      exact ⟨rfl, rfl, rfl, rfl⟩

/-- C16 (predictor allocation never aborts). For `1 ≤ assoc`, every sequence of
`Lookup` and `Update` calls from the constructor state runs to completion, and
in the state it reaches `GetEntry(pc)` finds a way with
`StackPosition == assoc - 1` for every pc: the assertion `myway != assoc` holds
and the way it returns is below `assoc`. -/
theorem getentry_never_aborts (h : Header) (numsets assoc : Nat) (h1 : 1 ≤ assoc)
    (hassoc : assoc < 4294967296) (calls : List PredictorCall) (pc : Nat) :
    ∃ P, IBRDPredictor.run h (IBRDPredictor.new numsets assoc) calls = some P ∧
      ∃ way P1, P.GetEntry pc = some (way, P1) ∧ way < assoc ∧
        (P.predictor (pc &&& P.set_mask) way).StackPosition = assoc - 1 := by
  have hnew := IBRDPredictor.new_WF h numsets assoc hassoc
  obtain ⟨P, hrun⟩ := IBRDPredictor.run_isSome h calls _ hnew h1
  obtain ⟨hP, ha⟩ := IBRDPredictor.run_WF h calls _ hnew P hrun
  change P.assoc = assoc at ha
  obtain ⟨w, P1, hG, hlt, hsp, _⟩ := IBRDPredictor.GetEntry_WF h P hP (by rw [ha]; exact h1) pc
  rw [ha] at hlt hsp
  exact ⟨P, hrun, w, P1, hG, hlt, hsp⟩

theorem getentry_never_aborts_witness :
    ∃ P, IBRDPredictor.run sampleHeader (IBRDPredictor.new 4 2)
        [PredictorCall.Update 5 3, PredictorCall.Update 9 1, PredictorCall.Lookup 5] = some P ∧
      ∃ way P1, P.GetEntry 13 = some (way, P1) ∧ way < 2 ∧
        (P.predictor (13 &&& P.set_mask) way).StackPosition = 2 - 1 :=
  getentry_never_aborts sampleHeader 4 2 (by decide) (by decide)
    [PredictorCall.Update 5 3, PredictorCall.Update 9 1, PredictorCall.Lookup 5] 13

end Gem5
namespace Gem5

/-- C15 (recency update rule). In a well-formed predictor state (stack
positions of every set a permutation, as in every reachable state): when
`FindEntry(pc)` matches way `m`, afterwards way `m` has stack position 0, every
other way of the set whose prior position was below that of `m` has it
incremented by exactly one, and every way whose prior position was above keeps
it; when `FindEntry` finds no match no stack position changes. With at least one
way, `GetEntry(pc)` returns the way `m` whose prior position was `assoc - 1` and
applies the same rule with that position. -/
theorem recency_update_rule (h : Header) (P : IBRDPredictor) (hP : P.WF h) (pc : Nat) :
    ((P.FindEntry pc).1 ≠ P.assoc →
      ((P.FindEntry pc).2.predictor (pc &&& P.set_mask) (P.FindEntry pc).1).StackPosition = 0 ∧
      ∀ w, w < P.assoc → w ≠ (P.FindEntry pc).1 →
        ((P.predictor (pc &&& P.set_mask) w).StackPosition <
            (P.predictor (pc &&& P.set_mask) (P.FindEntry pc).1).StackPosition →
          ((P.FindEntry pc).2.predictor (pc &&& P.set_mask) w).StackPosition =
            (P.predictor (pc &&& P.set_mask) w).StackPosition + 1) ∧
        ((P.predictor (pc &&& P.set_mask) (P.FindEntry pc).1).StackPosition <
            (P.predictor (pc &&& P.set_mask) w).StackPosition →
          ((P.FindEntry pc).2.predictor (pc &&& P.set_mask) w).StackPosition =
            (P.predictor (pc &&& P.set_mask) w).StackPosition)) ∧
    ((P.FindEntry pc).1 = P.assoc →
      ∀ set way, ((P.FindEntry pc).2.predictor set way).StackPosition =
        (P.predictor set way).StackPosition) ∧
    (1 ≤ P.assoc →
      ∃ m Q, P.GetEntry pc = some (m, Q) ∧ m < P.assoc ∧
        (P.predictor (pc &&& P.set_mask) m).StackPosition = P.assoc - 1 ∧
        (Q.predictor (pc &&& P.set_mask) m).StackPosition = 0 ∧
        ∀ w, w < P.assoc → w ≠ m →
          ((P.predictor (pc &&& P.set_mask) w).StackPosition < P.assoc - 1 →
            (Q.predictor (pc &&& P.set_mask) w).StackPosition =
              (P.predictor (pc &&& P.set_mask) w).StackPosition + 1) ∧
          (P.assoc - 1 < (P.predictor (pc &&& P.set_mask) w).StackPosition →
            (Q.predictor (pc &&& P.set_mask) w).StackPosition =
              (P.predictor (pc &&& P.set_mask) w).StackPosition)) := by
  refine ⟨?_, ?_, ?_⟩
  · intro hhit
    have hlt : (P.FindEntry pc).1 < P.assoc :=
      lt_of_le_of_ne (IBRDPredictor.FindEntry_fst_le P pc) hhit
    refine ⟨?_, ?_⟩
    · rw [IBRDPredictor.FindEntry_positions h P hP pc hhit _ hlt, if_pos rfl]
    · intro w hw hne
      rw [IBRDPredictor.FindEntry_positions h P hP pc hhit w hw, if_neg hne]
      constructor
      · intro hc; rw [if_pos hc]
      · intro hc; rw [if_neg (by omega)]
  · intro hmiss set way
    rw [IBRDPredictor.FindEntry_miss P pc hmiss]
  · intro h1
    obtain ⟨m, Q, hG, hlt, hsp, _, _, _, _, hent⟩ := IBRDPredictor.GetEntry_entries h P hP h1 pc
    refine ⟨m, Q, hG, hlt, hsp, ?_, ?_⟩
    · rw [hent, if_pos ⟨rfl, rfl⟩]
    · intro w hw hne
      rw [hent, if_neg (fun hh => hne hh.2), if_pos ⟨rfl, hw⟩]
      constructor
      · intro _; rfl
      · intro hc
        have := (hP.stack (pc &&& P.set_mask)).1 w hw
        omega

theorem recency_update_rule_witness :
    ((samplePredictor.FindEntry 5).2.predictor (5 &&& samplePredictor.set_mask)
        (samplePredictor.FindEntry 5).1).StackPosition = 0 ∧
      ((samplePredictor.FindEntry 5).2.predictor (5 &&& samplePredictor.set_mask) 0).StackPosition
        = (samplePredictor.predictor (5 &&& samplePredictor.set_mask) 0).StackPosition + 1 := by
  have hW : samplePredictor.WF sampleHeader :=
    (IBRDPredictor.new_WF sampleHeader 4 2 (by decide)).setEntry 1 1 _ rfl (by decide)
  have key := (recency_update_rule sampleHeader samplePredictor hW 5).1 (by decide)
  exact ⟨key.1, (key.2 0 (by decide) (by decide)).1 (by decide)⟩

end Gem5
namespace Gem5

/-- C19 (predictor tag uniqueness). Starting from the state built by the
constructor, every finite sequence of `Lookup` and `Update` calls runs to
completion when there is at least one way, and in every state so reached: if
two different ways of a set have equal tags, both are never-allocated entries
with `valid = 0` and `tag = 0`; hence, when a valid entry with the tag of `pc`
is in the set of `pc`, the first-match search of `FindEntry(pc)` returns exactly
that way. -/
theorem predictor_tags_are_unique (h : Header) (numsets assoc : Nat)
    (hassoc : assoc < 4294967296) (calls : List PredictorCall) :
    (1 ≤ assoc → ∃ P, IBRDPredictor.run h (IBRDPredictor.new numsets assoc) calls = some P) ∧
    ∀ P, IBRDPredictor.run h (IBRDPredictor.new numsets assoc) calls = some P →
      (∀ set, set < numsets → ∀ w1 w2, w1 < assoc → w2 < assoc → w1 ≠ w2 →
        (P.predictor set w1).tag = (P.predictor set w2).tag →
        (P.predictor set w1).valid = 0 ∧ (P.predictor set w1).tag = 0 ∧
          (P.predictor set w2).valid = 0 ∧ (P.predictor set w2).tag = 0) ∧
      (∀ pc way, way < assoc → (P.predictor (pc &&& P.set_mask) way).valid ≠ 0 →
        (P.predictor (pc &&& P.set_mask) way).tag = pc >>> P.set_shift →
        (P.FindEntry pc).1 = way) := by
  have hnew := IBRDPredictor.new_WF h numsets assoc hassoc
  refine ⟨fun h1 => IBRDPredictor.run_isSome h calls _ hnew h1, ?_⟩
  intro P hrun
  obtain ⟨_, ha⟩ := IBRDPredictor.run_WF h calls _ hnew P hrun
  change P.assoc = assoc at ha
  have hT := IBRDPredictor.run_TagInv h calls _ hnew (IBRDPredictor.new_TagInv numsets assoc)
    P hrun
  constructor
  · intro set _ w1 w2 h1 h2 hne heq
    obtain ⟨hv1, hv2⟩ := hT.uniq set w1 w2 (by rw [ha]; exact h1) (by rw [ha]; exact h2) hne heq
    exact ⟨hv1, hT.fresh set w1 hv1, hv2, hT.fresh set w2 hv2⟩
  · intro pc way hw hv htag
    rw [IBRDPredictor.FindEntry_fst, ha]
    apply searchFrom_first _ assoc 0 way (Nat.zero_le _) (by omega)
    · exact decide_eq_true htag
    · intro k _ hk
      apply decide_eq_false
      intro hkt
      have := hT.uniq (pc &&& P.set_mask) k way (by rw [ha]; omega) (by rw [ha]; exact hw)
        (by omega) (by rw [hkt, htag])
      exact hv this.2

theorem predictor_tags_are_unique_witness :
    ∃ P, IBRDPredictor.run sampleHeader (IBRDPredictor.new 4 2)
        [PredictorCall.Update 5 3, PredictorCall.Update 9 1, PredictorCall.Update 0 2,
          PredictorCall.Lookup 5] = some P ∧
      (∀ set, set < 4 → ∀ w1 w2, w1 < 2 → w2 < 2 → w1 ≠ w2 →
        (P.predictor set w1).tag = (P.predictor set w2).tag →
        (P.predictor set w1).valid = 0 ∧ (P.predictor set w1).tag = 0 ∧
          (P.predictor set w2).valid = 0 ∧ (P.predictor set w2).tag = 0) := by
  have key := predictor_tags_are_unique sampleHeader 4 2 (by decide)
    [PredictorCall.Update 5 3, PredictorCall.Update 9 1, PredictorCall.Update 0 2,
      PredictorCall.Lookup 5]
  obtain ⟨P, hP⟩ := key.1 (by decide)
  exact ⟨P, hP, (key.2 P hP).1⟩

end Gem5
namespace Gem5

theorem IBRDPredictor.Lookup_fst (h : Header) (P : IBRDPredictor) (pc : Nat) :
    (P.Lookup h pc).1 =
      if (P.FindEntry pc).1 ≠ P.assoc then
        if h.SAFE_CONFIDENCE ≤
            ((P.FindEntry pc).2.predictor (pc &&& P.set_mask) (P.FindEntry pc).1).confidence then
          ((P.FindEntry pc).2.predictor (pc &&& P.set_mask) (P.FindEntry pc).1).prediction
        else 0
      else 0 := by
  unfold IBRDPredictor.Lookup
  simp only
  rw [IBRDPredictor.FindEntry_assoc]
  split_ifs <;> rfl

/-- C2, the behaviour of the code at the failing input. On a freshly constructed
predictor with at least one way, `Update(0, obs)` with `obs ≠ 0`, repeated
`SAFE_CONFIDENCE + 1` times, allocates nothing: every entry of every set still
has `valid = 0`. Yet `Lookup(0)` then returns `obs`, the prediction stored in the
never-allocated way 0 of set 0, whose tag 0 matches. -/
theorem lookup_trusts_never_allocated_entry (h : Header) (numsets assoc obs : Nat)
    (h1 : 1 ≤ assoc) (hobs : obs ≠ 0) (hsafe : h.SAFE_CONFIDENCE ≤ h.MAX_CONFIDENCE)
    (hmax : h.MAX_CONFIDENCE < 4294967296) :
    ∃ P, IBRDPredictor.run h (IBRDPredictor.new numsets assoc)
        (List.replicate (h.SAFE_CONFIDENCE + 1) (PredictorCall.Update 0 obs)) = some P ∧
      (∀ set way, (P.predictor set way).valid = 0) ∧
      (P.Lookup h 0).1 = obs := by
  -- the first update replaces the prediction of the never-allocated way 0
  have hF := IBRDPredictor.FindEntry_zero_fst (IBRDPredictor.new numsets assoc) h1 rfl
  have hhit : ((IBRDPredictor.new numsets assoc).FindEntry 0).1 ≠
      (IBRDPredictor.new numsets assoc).assoc := by
    rw [hF]; exact fun hh => absurd hh.symm (by show assoc ≠ 0; omega)
  obtain ⟨P1, hU, ha, hent⟩ := IBRDPredictor.Update_hit h _ 0 obs hhit
  have hFe : ∀ s w, ((IBRDPredictor.new numsets assoc).FindEntry 0).2.predictor s w =
      { valid := 0, tag := 0, prediction := 0, confidence := 0
        StackPosition :=
          (((IBRDPredictor.new numsets assoc).FindEntry 0).2.predictor s w).StackPosition } :=
    fun s w => IBRDPredictor.FindEntry_entry _ 0 s w
  have h00 := hent 0 0
  rw [Nat.zero_and, hF, if_pos ⟨rfl, rfl⟩] at h00
  have hsp := (IBRDPredictor.trained_spec h
    (((IBRDPredictor.new numsets assoc).FindEntry 0).2.predictor 0 0) obs hmax
    (by rw [hFe]; exact Nat.zero_le _)).2.1 (by rw [hFe]; exact hobs) (by rw [hFe])
  have hval1 : ∀ s w, (P1.predictor s w).valid = 0 := by
    intro s w
    rw [hent]
    split
    · rw [IBRDPredictor.trained_valid, hFe]
    · rw [hFe]
  obtain ⟨P2, hR, h2, hval2, htag2, hpred2, hconf2⟩ :=
    IBRDPredictor.run_zero_adopted h obs hmax h.SAFE_CONFIDENCE P1 0
      (by rw [ha]; exact h1) hval1
      (by rw [h00, IBRDPredictor.trained_tag, hFe])
      (by rw [h00]; exact hsp.1) (by rw [h00]; exact hsp.2) (Nat.zero_le _)
  refine ⟨P2, ?_, hval2, ?_⟩
  · rw [List.replicate_succ]
    simp only [IBRDPredictor.run, IBRDPredictor.call, hU]
    exact hR
  · have hF2 := IBRDPredictor.FindEntry_zero_fst P2 h2 htag2
    have hFe2 := IBRDPredictor.FindEntry_entry P2 0 0 0
    rw [IBRDPredictor.Lookup_fst, hF2, Nat.zero_and, if_pos (by omega)]
    have hc : ((P2.FindEntry 0).2.predictor 0 0).confidence = h.SAFE_CONFIDENCE := by
      rw [hFe2]
      show (P2.predictor 0 0).confidence = _
      rw [hconf2]
      omega
    rw [hc, if_pos (le_refl _), hFe2]
    exact hpred2

theorem lookup_trusts_never_allocated_entry_witness :
    ∃ P, IBRDPredictor.run sampleHeader (IBRDPredictor.new 4 2)
        (List.replicate (sampleHeader.SAFE_CONFIDENCE + 1) (PredictorCall.Update 0 5)) = some P ∧
      (∀ set way, (P.predictor set way).valid = 0) ∧
      (P.Lookup sampleHeader 0).1 = 5 :=
  lookup_trusts_never_allocated_entry sampleHeader 4 2 5 (by decide) (by decide) (by decide)
    (by decide)

/-- C3, the behaviour of the code at the failing input. In a freshly constructed
predictor with at least one way no entry is valid, so no valid entry with the
tag of pc 0 exists; still `Update(0, obs)` allocates nothing: `FindEntry` matches
the never-allocated way 0, whose tag is 0, and afterwards every entry, the way
`assoc - 1` with stack position `assoc - 1` included, has `valid = 0`. -/
theorem update_on_fresh_predictor_allocates_nothing (h : Header) (numsets assoc obs : Nat)
    (h1 : 1 ≤ assoc) :
    (∀ set way, ((IBRDPredictor.new numsets assoc).predictor set way).valid = 0) ∧
    ((IBRDPredictor.new numsets assoc).predictor 0 (assoc - 1)).StackPosition = assoc - 1 ∧
    ∃ P1, (IBRDPredictor.new numsets assoc).Update h 0 obs = some P1 ∧
      (∀ set way, (P1.predictor set way).valid = 0) ∧
      (P1.predictor 0 (assoc - 1)).valid = 0 := by
  refine ⟨fun _ _ => rfl, rfl, ?_⟩
  have hF := IBRDPredictor.FindEntry_zero_fst (IBRDPredictor.new numsets assoc) h1 rfl
  have hhit : ((IBRDPredictor.new numsets assoc).FindEntry 0).1 ≠
      (IBRDPredictor.new numsets assoc).assoc := by
    rw [hF]; exact fun hh => absurd hh.symm (by show assoc ≠ 0; omega)
  obtain ⟨P1, hU, _, hent⟩ := IBRDPredictor.Update_hit h _ 0 obs hhit
  have hval1 : ∀ s w, (P1.predictor s w).valid = 0 := by
    intro s w
    rw [hent]
    split
    · rw [IBRDPredictor.trained_valid, IBRDPredictor.FindEntry_entry _ 0 s w]
      rfl
    · rw [IBRDPredictor.FindEntry_entry _ 0 s w]
      rfl
  exact ⟨P1, hU, hval1, hval1 _ _⟩

theorem update_on_fresh_predictor_allocates_nothing_witness :
    ∃ P1, (IBRDPredictor.new 4 2).Update sampleHeader 0 5 = some P1 ∧
      (∀ set way, (P1.predictor set way).valid = 0) ∧ (P1.predictor 0 (2 - 1)).valid = 0 :=
  (update_on_fresh_predictor_allocates_nothing sampleHeader 4 2 5 (by decide)).2.2

end Gem5
namespace Gem5

/-- C1 (victim selection). For an associativity of at least one,
`Get_IBRDP_Victim` returns a way `v` of the set whose score
`max (time_left v) (time_idle v)`, computed in the 32-bit variables of the code,
is the maximum of the scores of all ways, and every way before `v` has a strictly
smaller score: `v` is the smallest index that attains the maximum (way 0 when all
scores are 0). When `UnQuantizeTimestamp` is monotone, `accessesCounterHigh` and
the timestamps of the lines of the set are at most `MAX_VALUE_TIMESTAMP`, and the
un-quantized values fit 32 bits, the two times of every way are the exact values
`timeLeft = max(0, lineTime + prediction - now)` and `timeIdle = now - lineTime`
with `lineTime = UnQuantizeTimestamp(blk.timestamp)`,
`prediction = UnQuantizePrediction(blk.prediction)` and `now` the un-quantized
counter in its overflow-aware reading, `lineTime ≤ now`, and `v` is the smallest
index that attains the maximum of `max(timeLeft, timeIdle)`. -/
theorem victim_is_first_maximum (h : Header) (s : IbRDP) (setIndex : Nat)
    (h1 : 1 ≤ s.assoc) :
    s.Get_IBRDP_Victim h setIndex < s.assoc ∧
    (∀ w, w < s.assoc →
      max (s.time_left h (s.blks setIndex w)) (s.time_idle h (s.blks setIndex w)) ≤
        max (s.time_left h (s.blks setIndex (s.Get_IBRDP_Victim h setIndex)))
          (s.time_idle h (s.blks setIndex (s.Get_IBRDP_Victim h setIndex)))) ∧
    (∀ w, w < s.Get_IBRDP_Victim h setIndex →
      max (s.time_left h (s.blks setIndex w)) (s.time_idle h (s.blks setIndex w)) <
        max (s.time_left h (s.blks setIndex (s.Get_IBRDP_Victim h setIndex)))
          (s.time_idle h (s.blks setIndex (s.Get_IBRDP_Victim h setIndex)))) ∧
    ((∀ a b, a ≤ b → h.UnQuantizeTimestamp a ≤ h.UnQuantizeTimestamp b) →
      h.MAX_VALUE_TIMESTAMP + h.MAX_VALUE_TIMESTAMP + 1 < 4294967296 →
      h.UnQuantizeTimestamp (h.MAX_VALUE_TIMESTAMP + h.MAX_VALUE_TIMESTAMP + 1) < 4294967296 →
      s.accessesCounterHigh ≤ h.MAX_VALUE_TIMESTAMP →
      (∀ w, w < s.assoc → (s.blks setIndex w).timestamp ≤ h.MAX_VALUE_TIMESTAMP ∧
        h.UnQuantizeTimestamp (s.blks setIndex w).timestamp +
          h.UnQuantizePrediction (s.blks setIndex w).prediction < 4294967296) →
      (∀ w, w < s.assoc →
        h.UnQuantizeTimestamp (s.blks setIndex w).timestamp ≤
            specNow h s.accessesCounterHigh (s.blks setIndex w) ∧
          s.time_left h (s.blks setIndex w) =
            specTimeLeft h s.accessesCounterHigh (s.blks setIndex w) ∧
          s.time_idle h (s.blks setIndex w) =
            specTimeIdle h s.accessesCounterHigh (s.blks setIndex w)) ∧
      (∀ w, w < s.assoc →
        max (specTimeLeft h s.accessesCounterHigh (s.blks setIndex w))
            (specTimeIdle h s.accessesCounterHigh (s.blks setIndex w)) ≤
          max (specTimeLeft h s.accessesCounterHigh
              (s.blks setIndex (s.Get_IBRDP_Victim h setIndex)))
            (specTimeIdle h s.accessesCounterHigh
              (s.blks setIndex (s.Get_IBRDP_Victim h setIndex)))) ∧
      (∀ w, w < s.Get_IBRDP_Victim h setIndex →
        max (specTimeLeft h s.accessesCounterHigh (s.blks setIndex w))
            (specTimeIdle h s.accessesCounterHigh (s.blks setIndex w)) <
          max (specTimeLeft h s.accessesCounterHigh
              (s.blks setIndex (s.Get_IBRDP_Victim h setIndex)))
            (specTimeIdle h s.accessesCounterHigh
              (s.blks setIndex (s.Get_IBRDP_Victim h setIndex))))) := by
  obtain ⟨hA, hB, hC⟩ := victimLoop_argmax
    (fun way => s.time_left h (s.blks setIndex way))
    (fun way => s.time_idle h (s.blks setIndex way)) s.assoc
  have hv : (s.Get_IBRDP_Victim h setIndex < s.assoc ∧
      max (s.time_left h (s.blks setIndex (s.Get_IBRDP_Victim h setIndex)))
        (s.time_idle h (s.blks setIndex (s.Get_IBRDP_Victim h setIndex))) =
      (victimLoop (fun way => s.time_left h (s.blks setIndex way))
        (fun way => s.time_idle h (s.blks setIndex way)) s.assoc 0 (0, 0)).2) := by
    rcases hC with hC | hC
    · exact hC
    · omega
  have hmax : ∀ w, w < s.assoc →
      max (s.time_left h (s.blks setIndex w)) (s.time_idle h (s.blks setIndex w)) ≤
        max (s.time_left h (s.blks setIndex (s.Get_IBRDP_Victim h setIndex)))
          (s.time_idle h (s.blks setIndex (s.Get_IBRDP_Victim h setIndex))) := by
    intro w hw
    rw [hv.2]
    exact hA w hw
  have hfirst : ∀ w, w < s.Get_IBRDP_Victim h setIndex →
      max (s.time_left h (s.blks setIndex w)) (s.time_idle h (s.blks setIndex w)) <
        max (s.time_left h (s.blks setIndex (s.Get_IBRDP_Victim h setIndex)))
          (s.time_idle h (s.blks setIndex (s.Get_IBRDP_Victim h setIndex))) := by
    intro w hw
    rw [hv.2]
    exact hB w hw
  refine ⟨hv.1, hmax, hfirst, ?_⟩
  intro hmono hfit hrange hch hblk
  have heq : ∀ w, w < s.assoc →
      h.UnQuantizeTimestamp (s.blks setIndex w).timestamp ≤
          specNow h s.accessesCounterHigh (s.blks setIndex w) ∧
        s.time_left h (s.blks setIndex w) =
          specTimeLeft h s.accessesCounterHigh (s.blks setIndex w) ∧
        s.time_idle h (s.blks setIndex w) =
          specTimeIdle h s.accessesCounterHigh (s.blks setIndex w) := by
    intro w hw
    obtain ⟨hle, _, hl, hi⟩ := IbRDP.times_eq_spec h s (s.blks setIndex w) hmono hfit hrange hch
      (hblk w hw).1 (hblk w hw).2
    exact ⟨hle, hl, hi⟩
  refine ⟨heq, ?_, ?_⟩
  · intro w hw
    rw [← (heq w hw).2.1, ← (heq w hw).2.2, ← (heq _ hv.1).2.1, ← (heq _ hv.1).2.2]
    exact hmax w hw
  · intro w hw
    have hw2 : w < s.assoc := lt_trans hw hv.1
    rw [← (heq w hw2).2.1, ← (heq w hw2).2.2, ← (heq _ hv.1).2.1, ← (heq _ hv.1).2.2]
    exact hfirst w hw

theorem victim_is_first_maximum_witness :
    sampleAged.Get_IBRDP_Victim sampleHeader 0 = 2 ∧
    (sampleAged.blks 0 2).prediction = 9 ∧
    specTimeLeft sampleHeader sampleAged.accessesCounterHigh (sampleAged.blks 0 2) = 28 ∧
    (∀ w, w < sampleAged.assoc →
      max (specTimeLeft sampleHeader sampleAged.accessesCounterHigh (sampleAged.blks 0 w))
          (specTimeIdle sampleHeader sampleAged.accessesCounterHigh (sampleAged.blks 0 w)) ≤
        max (specTimeLeft sampleHeader sampleAged.accessesCounterHigh
            (sampleAged.blks 0 (sampleAged.Get_IBRDP_Victim sampleHeader 0)))
          (specTimeIdle sampleHeader sampleAged.accessesCounterHigh
            (sampleAged.blks 0 (sampleAged.Get_IBRDP_Victim sampleHeader 0)))) ∧
    (∀ w, w < sampleAged.Get_IBRDP_Victim sampleHeader 0 →
      max (specTimeLeft sampleHeader sampleAged.accessesCounterHigh (sampleAged.blks 0 w))
          (specTimeIdle sampleHeader sampleAged.accessesCounterHigh (sampleAged.blks 0 w)) <
        max (specTimeLeft sampleHeader sampleAged.accessesCounterHigh
            (sampleAged.blks 0 (sampleAged.Get_IBRDP_Victim sampleHeader 0)))
          (specTimeIdle sampleHeader sampleAged.accessesCounterHigh
            (sampleAged.blks 0 (sampleAged.Get_IBRDP_Victim sampleHeader 0)))) := by
  have key := victim_is_first_maximum sampleHeader sampleAged 0 (by decide)
  have spec := key.2.2.2 (fun a b hab => Nat.mul_le_mul_right 4 hab) (by decide) (by decide)
    (by decide) (by decide)
  exact ⟨by decide, by decide, by decide, spec.2.1, spec.2.2⟩

/-- C18 (the two-step running-victim update). For every sequence of per-way
`(time_left, time_idle)` values, every number of ways and every starting pair,
the loop of `Get_IBRDP_Victim`, which compares `time_left` and then, separately,
`time_idle` with `victim_time`, ends with the same `(victim_way, victim_time)`
as the scan that compares `max(time_left, time_idle)` once per way; so
`Get_IBRDP_Victim` returns the way found by that scan. -/
theorem two_step_scan_is_single_max_scan (tl ti : Nat → Nat) (n way : Nat) (st : Nat × Nat) :
    victimLoop tl ti n way st = singleLoop tl ti n way st ∧
    ∀ (h : Header) (s : IbRDP) (setIndex : Nat),
      s.Get_IBRDP_Victim h setIndex =
        (singleLoop (fun w => s.time_left h (s.blks setIndex w))
          (fun w => s.time_idle h (s.blks setIndex w)) s.assoc 0 (0, 0)).1 := by
  have key : ∀ (tl ti : Nat → Nat) (n way : Nat) (st : Nat × Nat),
      victimLoop tl ti n way st = singleLoop tl ti n way st := by
    intro tl ti n
    induction n with
    | zero => intro way st; rfl
    | succ n ih =>
      intro way st
      simp only [victimLoop, singleLoop]
      rw [victimStep_eq, ih]
      rfl
  refine ⟨key tl ti n way st, ?_⟩
  intro h s setIndex
  unfold IbRDP.Get_IBRDP_Victim
  rw [key]

end Gem5
namespace Gem5

/-- C12 (wraparound-safe idle time). Assume `UnQuantizeTimestamp` is monotone
non-decreasing, the stored timestamp of the line and `accessesCounterHigh` are at
most `MAX_VALUE_TIMESTAMP`, and the values involved fit the 32-bit variables of
the code (`2 * MAX_VALUE_TIMESTAMP + 1` and its un-quantized value are below
`2^32`). Then for the line the local `now` of `Get_IBRDP_Victim`, which is taken
at `accessesCounterHigh + MAX_VALUE_TIMESTAMP + 1` when the timestamp exceeds
`accessesCounterHigh`, is at least the un-quantized timestamp, and `time_idle` is
the plain difference `now - timestamp`: the unsigned subtraction does not
wrap. -/
theorem idle_time_never_wraps (h : Header) (s : IbRDP) (blk : CacheBlk)
    (hmono : ∀ a b, a ≤ b → h.UnQuantizeTimestamp a ≤ h.UnQuantizeTimestamp b)
    (hfit : h.MAX_VALUE_TIMESTAMP + h.MAX_VALUE_TIMESTAMP + 1 < 4294967296)
    (hrange : h.UnQuantizeTimestamp (h.MAX_VALUE_TIMESTAMP + h.MAX_VALUE_TIMESTAMP + 1)
      < 4294967296)
    (hts : blk.timestamp ≤ h.MAX_VALUE_TIMESTAMP)
    (hch : s.accessesCounterHigh ≤ h.MAX_VALUE_TIMESTAMP) :
    IbRDP.lineTime h blk ≤ s.now h blk ∧
    s.time_idle h blk = s.now h blk - IbRDP.lineTime h blk ∧
    (blk.timestamp > s.accessesCounterHigh →
      s.now h blk =
        h.UnQuantizeTimestamp (s.accessesCounterHigh + h.MAX_VALUE_TIMESTAMP + 1)) ∧
    (¬ blk.timestamp > s.accessesCounterHigh →
      s.now h blk = h.UnQuantizeTimestamp s.accessesCounterHigh) := by
  have hu : ∀ x, x ≤ h.MAX_VALUE_TIMESTAMP + h.MAX_VALUE_TIMESTAMP + 1 →
      u32 (h.UnQuantizeTimestamp x) = h.UnQuantizeTimestamp x := by
    intro x hx
    exact Nat.mod_eq_of_lt (lt_of_le_of_lt (hmono x _ hx) hrange)
  have hline : IbRDP.lineTime h blk = h.UnQuantizeTimestamp blk.timestamp := by
    unfold IbRDP.lineTime
    exact hu _ (by omega)
  have hnow1 : blk.timestamp > s.accessesCounterHigh →
      s.now h blk =
        h.UnQuantizeTimestamp (s.accessesCounterHigh + h.MAX_VALUE_TIMESTAMP + 1) := by
    intro hgt
    unfold IbRDP.now
    rw [if_pos hgt]
    have : u32 (s.accessesCounterHigh + h.MAX_VALUE_TIMESTAMP + 1) =
        s.accessesCounterHigh + h.MAX_VALUE_TIMESTAMP + 1 := Nat.mod_eq_of_lt (by omega)
    rw [this]
    exact hu _ (by omega)
  have hnow2 : ¬ blk.timestamp > s.accessesCounterHigh →
      s.now h blk = h.UnQuantizeTimestamp s.accessesCounterHigh := by
    intro hgt
    unfold IbRDP.now
    rw [if_neg hgt]
    exact hu _ (by omega)
  have hle : IbRDP.lineTime h blk ≤ s.now h blk := by
    rw [hline]
    by_cases hgt : blk.timestamp > s.accessesCounterHigh
    · rw [hnow1 hgt]
      exact hmono _ _ (by omega)
    · rw [hnow2 hgt]
      exact hmono _ _ (by omega)
  refine ⟨hle, ?_, hnow1, hnow2⟩
  unfold IbRDP.time_idle sub32
  rw [if_pos hle]
  exact Nat.mod_eq_of_lt (lt_of_le_of_lt (Nat.sub_le _ _) (by
    unfold IbRDP.now
    split <;> exact u32_lt _))

theorem idle_time_never_wraps_witness :
    IbRDP.lineTime sampleHeader { tag := 0, timestamp := 6, prediction := 0 } ≤
        sampleFilled.now sampleHeader { tag := 0, timestamp := 6, prediction := 0 } ∧
      sampleFilled.time_idle sampleHeader { tag := 0, timestamp := 6, prediction := 0 } =
        sampleFilled.now sampleHeader { tag := 0, timestamp := 6, prediction := 0 } -
          IbRDP.lineTime sampleHeader { tag := 0, timestamp := 6, prediction := 0 } := by
  have key := idle_time_never_wraps sampleHeader sampleFilled
    { tag := 0, timestamp := 6, prediction := 0 }
    (fun a b hab => Nat.mul_le_mul_right 4 hab) (by decide) (by decide) (by decide) (by decide)
  exact ⟨key.1, key.2.1⟩

end Gem5
namespace Gem5

/-- C13 (a freshly touched line is not the victim). For every policy state,
every set and every way `w ≥ 1`: when `UpdateIBRDP(set, w, pc)` returns and the
prediction code it has stamped the line with un-quantizes to 0, a call of
`Get_IBRDP_Victim(set)` on the state it leaves does not return `w`. -/
theorem fresh_line_is_not_victim (h : Header) (s : IbRDP) (setIndex w PC : Nat) (hit : Bool)
    (s1 : IbRDP) (hU : s.UpdateIBRDP h setIndex w PC hit = some s1) (hw : 1 ≤ w)
    (hp : IbRDP.linePrediction h (s1.blks setIndex w) = 0) :
    s1.Get_IBRDP_Victim h setIndex ≠ w := by
  have hts : (s1.blks setIndex w).timestamp = s1.accessesCounterHigh := by
    cases hE : s.UpdateOnEveryAccess h (s.myAddress h setIndex w) (IbRDP.myPC h PC) with
    | none =>
      rw [IbRDP.UpdateIBRDP_none h s setIndex w PC hit hE] at hU
      exact absurd hU (by simp)
    | some s0 =>
      rw [IbRDP.UpdateIBRDP_eq h s setIndex w PC hit s0 hE] at hU
      simp only [Option.some.injEq] at hU
      subst hU
      show CacheBlk.timestamp (setAt s0.blks setIndex _ setIndex w) = s0.accessesCounterHigh
      rw [setAt_same, setAt_same]
  obtain ⟨htl, hti⟩ := IbRDP.fresh_block_times h s1 (s1.blks setIndex w) hts hp
  obtain ⟨_, hB, hC⟩ := victimLoop_argmax
    (fun way => s1.time_left h (s1.blks setIndex way))
    (fun way => s1.time_idle h (s1.blks setIndex way)) s1.assoc
  intro hv
  change (victimLoop _ _ s1.assoc 0 (0, 0)).1 = w at hv
  rw [hv] at hB hC
  have h0 := hB 0 (by omega)
  rcases hC with ⟨_, hC⟩ | ⟨_, hC, _⟩
  · simp only [htl, hti, Nat.max_self] at hC
    omega
  · omega

theorem fresh_line_is_not_victim_witness :
    ∃ s1, sampleFilled.UpdateIBRDP sampleHeader 0 2 102 true = some s1 ∧
      s1.Get_IBRDP_Victim sampleHeader 0 ≠ 2 := by
  refine ⟨_, rfl, ?_⟩
  exact fresh_line_is_not_victim sampleHeader sampleFilled 0 2 102 true _ rfl (by decide)
    (by decide)

end Gem5
namespace Gem5

/-- C10 (global counter advance). With `1 ≤ QUANTUM_TIMESTAMP` and both
constants 32-bit values: `UpdateOnEveryAccess` maps
`(accessesCounterLow, accessesCounterHigh)` with `counterLow < QUANTUM_TIMESTAMP`
and `counterHigh ≤ MAX_VALUE_TIMESTAMP` to `(counterLow + 1, counterHigh)` when
`counterLow + 1 < QUANTUM_TIMESTAMP` and to
`(0, (counterHigh + 1) mod (MAX_VALUE_TIMESTAMP + 1))` otherwise. Hence, for a
policy built by the constructor (which sets `counterHigh = 1`, so
`1 ≤ MAX_VALUE_TIMESTAMP`) with a sampler and a predictor of at least one
entry, every sequence of accesses runs to completion and leaves
`counterLow < QUANTUM_TIMESTAMP` and `counterHigh ≤ MAX_VALUE_TIMESTAMP`. -/
theorem global_counter_advance (h : Header)
    (hq1 : 1 ≤ h.QUANTUM_TIMESTAMP) (hq : h.QUANTUM_TIMESTAMP < 4294967296)
    (hm1 : 1 ≤ h.MAX_VALUE_TIMESTAMP) (hm : h.MAX_VALUE_TIMESTAMP < 4294967296)
    (hp : 1 ≤ h.SAMPLER_PERIOD) (hsize : 1 ≤ h.SAMPLER_MAX_RD / h.SAMPLER_PERIOD)
    (hrd : h.SAMPLER_MAX_RD < 4294967296)
    (hw1 : 1 ≤ h.IBRDP_WAYS) (hw : h.IBRDP_WAYS < 4294967296) :
    (∀ (s : IbRDP) (address PC : Nat) (s1 : IbRDP),
      s.accessesCounterLow < h.QUANTUM_TIMESTAMP →
      s.accessesCounterHigh ≤ h.MAX_VALUE_TIMESTAMP →
      s.UpdateOnEveryAccess h address PC = some s1 →
      (s1.accessesCounterLow, s1.accessesCounterHigh) =
        if s.accessesCounterLow + 1 < h.QUANTUM_TIMESTAMP then
          (s.accessesCounterLow + 1, s.accessesCounterHigh)
        else (0, (s.accessesCounterHigh + 1) % (h.MAX_VALUE_TIMESTAMP + 1))) ∧
    (∀ (assoc setShift : Nat) (blks : Nat → Nat → CacheBlk) (mem : Nat → RDSamplerEntry)
        (accesses : List (Nat × Nat × Nat × Bool)),
      ∃ s1, IbRDP.run h (IbRDP.new h assoc setShift blks mem) accesses = some s1 ∧
        0 ≤ s1.accessesCounterLow ∧ s1.accessesCounterLow < h.QUANTUM_TIMESTAMP ∧
        0 ≤ s1.accessesCounterHigh ∧ s1.accessesCounterHigh ≤ h.MAX_VALUE_TIMESTAMP) := by
  constructor
  · intro s address PC s1 hlow hhigh hU
    obtain ⟨_, _, _, h1, h2⟩ := IbRDP.UpdateOnEveryAccess_blks h s address PC s1 hU
    rw [h1, h2, ← advanceCounter_eq h _ _ hq hm hlow hhigh]
  · intro assoc setShift blks mem accesses
    have hnew : (IbRDP.new h assoc setShift blks mem).WF h :=
      ⟨RDSampler.sampler_new_WF _ _ mem hp ((Nat.one_le_div_iff (by omega)).mp hsize) hrd,
        IBRDPredictor.new_WF h _ _ hw, hw1, hq1, hm1⟩
    obtain ⟨s1, hr, hW⟩ := IbRDP.run_policy_WF h hq hm accesses _ hnew
    exact ⟨s1, hr, Nat.zero_le _, hW.low, Nat.zero_le _, hW.high⟩

theorem global_counter_advance_witness :
    ∃ s1, IbRDP.run sampleHeader sampleCache
        [(0, 0, 100, false), (0, 1, 101, false), (0, 2, 102, false), (0, 3, 103, false),
          (0, 2, 102, true)] = some s1 ∧
      0 ≤ s1.accessesCounterLow ∧ s1.accessesCounterLow < 4 ∧
      0 ≤ s1.accessesCounterHigh ∧ s1.accessesCounterHigh ≤ 7 :=
  (global_counter_advance sampleHeader (by decide) (by decide) (by decide) (by decide)
    (by decide) (by decide) (by decide) (by decide) (by decide)).2 4 2 _ sampleMemory
    [(0, 0, 100, false), (0, 1, 101, false), (0, 2, 102, false), (0, 3, 103, false),
      (0, 2, 102, true)]

/-- C11 (metadata stamping and frame). Let `pc32` be `TransformPC(PC)` and
`addr32` be `TransformAddress((blk->tag << setShift) + setIndex)`, both as
`uint32_t` values. In a well-formed state the sampler update
`rdsampler->Update(addr32, pc32)` of the access and the predictor calls it makes
return. Whenever they return the sampler `S1` and the predictor `P1`,
`UpdateIBRDP(set, way, PC)` returns a state in which the touched block has
`timestamp` equal to `accessesCounterHigh` after the counter advance of this
access, which is also the counter of the new state, and `prediction` equal to the
value that `Lookup(pc32)` returns on `P1`; the sampler of the new state is `S1`,
its predictor is `P1` after that `Lookup`; the tag of the touched block and
every other block, of any way or set, are unchanged. -/
theorem stamping_and_frame (h : Header) (s : IbRDP) (setIndex way PC : Nat) (hit : Bool) :
    (s.rdsampler.WF → s.predictor.WF h → 1 ≤ s.predictor.assoc →
      ∃ S1 calls P1,
        s.rdsampler.Update h
            (u32 (h.TransformAddress
              ((((s.blks setIndex way).tag <<< s.setShift) + setIndex) % 18446744073709551616)))
            (u32 (h.TransformPC PC)) = some (S1, calls) ∧
          applyCalls h s.predictor calls = some P1) ∧
    ∀ S1 calls P1,
      s.rdsampler.Update h
          (u32 (h.TransformAddress
            ((((s.blks setIndex way).tag <<< s.setShift) + setIndex) % 18446744073709551616)))
          (u32 (h.TransformPC PC)) = some (S1, calls) →
      applyCalls h s.predictor calls = some P1 →
      ∃ s2, s.UpdateIBRDP h setIndex way PC hit = some s2 ∧
        (s2.blks setIndex way).timestamp =
          (advanceCounter h s.accessesCounterLow s.accessesCounterHigh).2 ∧
        (s2.blks setIndex way).prediction = (P1.Lookup h (u32 (h.TransformPC PC))).1 ∧
        (s2.blks setIndex way).tag = (s.blks setIndex way).tag ∧
        s2.accessesCounterHigh =
          (advanceCounter h s.accessesCounterLow s.accessesCounterHigh).2 ∧
        s2.rdsampler = S1 ∧
        s2.predictor = (P1.Lookup h (u32 (h.TransformPC PC))).2 ∧
        ∀ set1 way1, ¬ (set1 = setIndex ∧ way1 = way) →
          s2.blks set1 way1 = s.blks set1 way1 := by
  constructor
  · intro hS hP hw
    obtain ⟨s1, h1⟩ := IbRDP.UpdateOnEveryAccess_isSome h s hS hP hw
      (s.myAddress h setIndex way) (IbRDP.myPC h PC)
    obtain ⟨calls, hU, hA⟩ := IbRDP.UpdateOnEveryAccess_parts h s _ _ s1 h1
    exact ⟨s1.rdsampler, calls, s1.predictor, hU, hA⟩
  · intro S1 calls P1 hU hA
    have h1 : s.UpdateOnEveryAccess h (s.myAddress h setIndex way) (IbRDP.myPC h PC) =
        some { s with
          accessesCounterLow := (advanceCounter h s.accessesCounterLow s.accessesCounterHigh).1
          accessesCounterHigh := (advanceCounter h s.accessesCounterLow s.accessesCounterHigh).2
          predictor := P1
          rdsampler := S1 } := by
      unfold IbRDP.UpdateOnEveryAccess
      have hU2 : s.rdsampler.Update h (s.myAddress h setIndex way) (IbRDP.myPC h PC) =
          some (S1, calls) := hU
      rw [hU2]
      simp only
      rw [hA]
    refine ⟨_, IbRDP.UpdateIBRDP_eq h s setIndex way PC hit _ h1, ?_, ?_, ?_, rfl, rfl, rfl, ?_⟩
    · show CacheBlk.timestamp (setAt s.blks setIndex _ setIndex way) = _
      rw [setAt_same, setAt_same]
    · show CacheBlk.prediction (setAt s.blks setIndex _ setIndex way) = _
      rw [setAt_same, setAt_same]
      rfl
    · show CacheBlk.tag (setAt s.blks setIndex _ setIndex way) = _
      rw [setAt_same, setAt_same]
    · intro set1 way1 hne
      show setAt s.blks setIndex _ set1 way1 = _
      by_cases hs : set1 = setIndex
      · subst hs
        rw [setAt_same, setAt_other _ _ _ _ (fun hh => hne ⟨rfl, hh⟩)]
      · rw [setAt_other _ _ _ _ hs]

theorem stamping_and_frame_witness :
    sampleHashHeader.TransformPC 21 = 5 ∧
    (sampleTrained.predictor.Lookup sampleHashHeader 21).1 = 0 ∧
    (sampleTrained.blks 0 2).timestamp = 1 ∧
    (sampleTrained.UpdateIBRDP sampleHashHeader 0 2 21 true).map (fun s2 => s2.blks 0 2) =
      some { tag := 2, timestamp := 2, prediction := 3 } ∧
    ∃ S1 calls P1 s2,
      sampleTrained.rdsampler.Update sampleHashHeader
          (u32 (sampleHashHeader.TransformAddress
            ((((sampleTrained.blks 0 2).tag <<< sampleTrained.setShift) + 0)
              % 18446744073709551616)))
          (u32 (sampleHashHeader.TransformPC 21)) = some (S1, calls) ∧
      applyCalls sampleHashHeader sampleTrained.predictor calls = some P1 ∧
      sampleTrained.UpdateIBRDP sampleHashHeader 0 2 21 true = some s2 ∧
      (s2.blks 0 2).timestamp =
        (advanceCounter sampleHashHeader sampleTrained.accessesCounterLow
          sampleTrained.accessesCounterHigh).2 ∧
      (s2.blks 0 2).prediction =
        (P1.Lookup sampleHashHeader (u32 (sampleHashHeader.TransformPC 21))).1 ∧
      ∀ set1 way1, ¬ (set1 = 0 ∧ way1 = 2) →
        s2.blks set1 way1 = sampleTrained.blks set1 way1 := by
  obtain ⟨S1, calls, P1, hU, hA⟩ : ∃ S1 calls P1,
      sampleTrained.rdsampler.Update sampleHashHeader
          (u32 (sampleHashHeader.TransformAddress
            ((((sampleTrained.blks 0 2).tag <<< sampleTrained.setShift) + 0)
              % 18446744073709551616)))
          (u32 (sampleHashHeader.TransformPC 21)) = some (S1, calls) ∧
        applyCalls sampleHashHeader sampleTrained.predictor calls = some P1 :=
    ⟨_, _, _, rfl, rfl⟩
  obtain ⟨s2, h2, hts, hpr, _, _, _, _, hfr⟩ :=
    (stamping_and_frame sampleHashHeader sampleTrained 0 2 21 true).2 S1 calls P1 hU hA
  exact ⟨rfl, by decide, by decide, by decide, S1, calls, P1, s2, hU, hA, h2, hts, hpr, hfr⟩

end Gem5
namespace Gem5

/-- C21 (sampling cadence). For a sampler built by the constructor with
`period ≥ 1` and `size ≥ 1`, every sequence of `n` calls of `Update` runs to
completion, and in the state it reaches `sampling_counter` is below `period` and
is zero exactly when `n` is a multiple of `period`. The next call (the `n`-th,
counting from 0) returns with `sampling_counter` below `period` again, and
if `n` is a multiple of `period` it takes a sample: the entry found as the
oldest holds the new valid record at FIFO position 0, the array differs from the
one the match phase left, and the countdown restarts at `period - 1`;
otherwise the sample phase leaves the array as the match phase left it and the
countdown, which is at least 1, goes down by one without wrapping. -/
theorem sampling_cadence (h : Header) (period max_rd : Nat)
    (mem : Nat → RDSamplerEntry) (hp : 1 ≤ period) (hsize : 1 ≤ max_rd / period)
    (hm : max_rd < 4294967296) (accesses : List (Nat × Nat)) :
    ∃ S calls, RDSampler.run h (RDSampler.new period max_rd mem) accesses = some (S, calls) ∧
      S.sampling_counter < period ∧
      (S.sampling_counter = 0 ↔ accesses.length % period = 0) ∧
      ∀ address pc, ∃ S1 c, S.Update h address pc = some (S1, c) ∧
        S1.sampling_counter < period ∧
        (accesses.length % period = 0 →
          S1.sampler (RDSampler.matchPhase h S address).1.oldestIndex =
              { valid := 1, FifoPosition := 0, pc := pc, address := address } ∧
            S1.sampler ≠ (RDSampler.matchPhase h S address).1.sampler ∧
            S1.sampling_counter = period - 1) ∧
        (accesses.length % period ≠ 0 →
          S1.sampler = (RDSampler.matchPhase h S address).1.sampler ∧
            1 ≤ S.sampling_counter ∧ S1.sampling_counter = S.sampling_counter - 1) := by
  have hle : period ≤ max_rd := (Nat.one_le_div_iff (by omega)).mp hsize
  have hnew := RDSampler.sampler_new_WF period max_rd mem hp hle hm
  obtain ⟨r, hr⟩ := RDSampler.sampler_run_isSome h accesses _ hnew
  obtain ⟨S, calls⟩ := r
  obtain ⟨hW, _, hper⟩ := RDSampler.sampler_run_WF h accesses _ hnew _ hr
  have hper : S.period = period := hper
  have hcad := RDSampler.run_cadence h accesses (RDSampler.new period max_rd mem) S calls hr 0
    hp (lt_of_le_of_lt hle hm) hp (Nat.zero_mod period)
  have hlt : S.sampling_counter < period := hcad.2.1
  have hmod : (S.sampling_counter + accesses.length) % period = 0 := by
    have := hcad.2.2
    rw [Nat.zero_add] at this
    exact this
  have hiff := RDSampler.counter_zero_iff _ _ _ hlt hmod
  refine ⟨S, calls, hr, hlt, hiff, ?_⟩
  intro address pc
  obtain ⟨r1, hU⟩ := RDSampler.sampler_Update_isSome h S hW address pc
  obtain ⟨S1, c⟩ := r1
  have hstep := RDSampler.Update_cadence h S address pc S1 c hU accesses.length
    (by rw [hper]; exact hp) (by rw [hper]; exact lt_of_le_of_lt hle hm)
    (by rw [hper]; exact hlt) (by rw [hper]; exact hmod)
  rw [hper] at hstep
  refine ⟨S1, c, hU, hstep.2.1, ?_, ?_⟩
  · intro hn
    have hc0 := hiff.mpr hn
    rcases RDSampler.Update_cases h S address pc S1 c hU with
      ⟨_, hidx, _, _, hk, hs⟩ | ⟨hc, _⟩
    · have hent : S1.sampler (RDSampler.matchPhase h S address).1.oldestIndex =
          { valid := 1, FifoPosition := 0, pc := pc, address := address } := by
        rw [hs]
        simp only [setAt, if_true]
      refine ⟨hent, ?_, ?_⟩
      · intro heq
        rw [heq] at hent
        refine RDSampler.matchPhase_clears h S hW address _ hidx ?_ ?_
        · rw [hent]; exact Nat.one_ne_zero
        · rw [hent]
      · rw [hk, hper, decr_eq _ hp (by omega)]
    · exact absurd hc0 hc
  · intro hn
    have hc0 : S.sampling_counter ≠ 0 := fun hc => hn (hiff.mp hc)
    rcases RDSampler.Update_cases h S address pc S1 c hU with
      ⟨hc, _⟩ | ⟨_, _, _, hk, hs⟩
    · exact absurd hc hc0
    · refine ⟨hs, by omega, ?_⟩
      rw [hk, decr_eq _ (by omega) (by omega)]

theorem sampling_cadence_witness :
    ∃ S calls, RDSampler.run sampleHeader (RDSampler.new 2 6 sampleMemory)
        [(10, 1), (11, 2), (10, 3)] = some (S, calls) ∧
      S.sampling_counter < 2 ∧
      (S.sampling_counter = 0 ↔ [(10, 1), (11, 2), (10, 3)].length % 2 = 0) ∧
      ∀ address pc, ∃ S1 c, S.Update sampleHeader address pc = some (S1, c) ∧
        S1.sampling_counter < 2 ∧
        ([(10, 1), (11, 2), (10, 3)].length % 2 = 0 →
          S1.sampler (RDSampler.matchPhase sampleHeader S address).1.oldestIndex =
              { valid := 1, FifoPosition := 0, pc := pc, address := address } ∧
            S1.sampler ≠ (RDSampler.matchPhase sampleHeader S address).1.sampler ∧
            S1.sampling_counter = 2 - 1) ∧
        ([(10, 1), (11, 2), (10, 3)].length % 2 ≠ 0 →
          S1.sampler = (RDSampler.matchPhase sampleHeader S address).1.sampler ∧
            1 ≤ S.sampling_counter ∧ S1.sampling_counter = S.sampling_counter - 1) :=
  sampling_cadence sampleHeader 2 6 sampleMemory (by decide) (by decide) (by decide)
    [(10, 1), (11, 2), (10, 3)]

end Gem5
